import Mathlib

/-!
# Multimap (left-leaning red-black tree with a value sequence per key)

Shallow embedding of `src/LLRB-Multimap/multimap.h`.

* A `std::unique_ptr<Node>` is a value of `Node K V`; `Node.nil` is `nullptr`.
* A function that dereferences a pointer returns in `Except Fault`; reading a
  field of `nullptr` is `Fault.nullDeref`, the `std::runtime_error` of `Get` is
  `Fault.runtimeError`.
* `Remove` and `DeleteMin` recurse into a child of a node that was re-linked just
  before, so they are defined by recursion on a fuel argument; `Fault.outOfFuel`
  is the only result that does not correspond to a behaviour of the C++ code, and
  it is shown never to arise once the fuel exceeds the number of nodes.
* `unsigned int cur_size` is a natural number reduced modulo `2 ^ 32`.
-/

namespace Multimap

/-- Embedding of `enum Color { RED, BLACK }`, stored in the `bool color` field. -/
inductive Color where
  | RED
  | BLACK
  deriving DecidableEq

/-- The operator `!` applied to the `bool color` field. -/
def Color.flip : Color → Color
  | Color.RED => Color.BLACK
  | Color.BLACK => Color.RED

/-- Embedding of `struct Node` behind a `std::unique_ptr`; `nil` is the null pointer. -/
inductive Node (K V : Type) where
  | nil : Node K V
  | node (key : K) (value : List V) (color : Color) (left right : Node K V) : Node K V
  deriving DecidableEq

/-- The ways an operation can fail to return normally. -/
inductive Fault where
  | nullDeref
  | outOfBounds
  | runtimeError
  | outOfFuel
  deriving DecidableEq

variable {K V : Type}

/-- The test `!n` on a pointer. -/
def Node.isNull : Node K V → Bool
  | Node.nil => true
  | Node.node _ _ _ _ _ => false

/-- The read `n->left`. -/
def Node.getLeft : Node K V → Except Fault (Node K V)
  | Node.nil => Except.error Fault.nullDeref
  | Node.node _ _ _ l _ => Except.ok l

/-- The read `n->right`. -/
def Node.getRight : Node K V → Except Fault (Node K V)
  | Node.nil => Except.error Fault.nullDeref
  | Node.node _ _ _ _ r => Except.ok r

/-- The read `n->key`. -/
def Node.getKey : Node K V → Except Fault K
  | Node.nil => Except.error Fault.nullDeref
  | Node.node k _ _ _ _ => Except.ok k

/-- The read `n->value`. -/
def Node.getValue : Node K V → Except Fault (List V)
  | Node.nil => Except.error Fault.nullDeref
  | Node.node _ v _ _ _ => Except.ok v

/-- The assignment `n->left = l`. -/
def Node.setLeft : Node K V → Node K V → Except Fault (Node K V)
  | Node.nil, _ => Except.error Fault.nullDeref
  | Node.node k v c _ r, l => Except.ok (Node.node k v c l r)

/-- The assignment `n->right = r`. -/
def Node.setRight : Node K V → Node K V → Except Fault (Node K V)
  | Node.nil, _ => Except.error Fault.nullDeref
  | Node.node k v c l _, r => Except.ok (Node.node k v c l r)

/-- The assignment `n->key = k`. -/
def Node.setKey : Node K V → K → Except Fault (Node K V)
  | Node.nil, _ => Except.error Fault.nullDeref
  | Node.node _ v c l r, k => Except.ok (Node.node k v c l r)

/-- The assignment `n->value = v`. -/
def Node.setValue : Node K V → List V → Except Fault (Node K V)
  | Node.nil, _ => Except.error Fault.nullDeref
  | Node.node k _ c l r, v => Except.ok (Node.node k v c l r)

/-- The assignment `n->color = c`. -/
def Node.setColor : Node K V → Color → Except Fault (Node K V)
  | Node.nil, _ => Except.error Fault.nullDeref
  | Node.node k v _ l r, c => Except.ok (Node.node k v c l r)

/-- The assignment `n->color = !n->color`. -/
def Node.toggle : Node K V → Except Fault (Node K V)
  | Node.nil => Except.error Fault.nullDeref
  | Node.node k v c l r => Except.ok (Node.node k v c.flip l r)

/-- Embedding of `Multimap::IsRed`. -/
def IsRed : Node K V → Bool
  | Node.nil => false
  | Node.node _ _ c _ _ => decide (c = Color.RED)

/-- Embedding of `Multimap::FlipColors`. -/
def FlipColors (n : Node K V) : Except Fault (Node K V) := do
  let n ← n.toggle
  let l ← (← n.getLeft).toggle
  let n ← n.setLeft l
  let r ← (← n.getRight).toggle
  n.setRight r

/-- Embedding of `Multimap::RotateRight`. -/
def RotateRight (prt : Node K V) : Except Fault (Node K V) :=
  match prt with
  | Node.nil => Except.error Fault.nullDeref
  | Node.node k v c chd r =>
    match chd with
    | Node.nil => Except.error Fault.nullDeref
    | Node.node ck cv _ cl cr =>
      Except.ok (Node.node ck cv c cl (Node.node k v Color.RED cr r))

/-- Embedding of `Multimap::RotateLeft`. -/
def RotateLeft (prt : Node K V) : Except Fault (Node K V) :=
  match prt with
  | Node.nil => Except.error Fault.nullDeref
  | Node.node k v c l chd =>
    match chd with
    | Node.nil => Except.error Fault.nullDeref
    | Node.node ck cv _ cl cr =>
      Except.ok (Node.node ck cv c (Node.node k v Color.RED l cl) cr)

/-- Embedding of `Multimap::FixUp`. -/
def FixUp (n : Node K V) : Except Fault (Node K V) := do
  let r ← n.getRight
  let l ← n.getLeft
  let n ← if IsRed r && !IsRed l then RotateLeft n else pure n
  let l ← n.getLeft
  let n ← if IsRed l then (do
      let ll ← l.getLeft
      if IsRed ll then RotateRight n else pure n)
    else pure n
  let l ← n.getLeft
  let r ← n.getRight
  if IsRed l && IsRed r then FlipColors n else pure n

/-- Embedding of `Multimap::MoveRedRight`. -/
def MoveRedRight (n : Node K V) : Except Fault (Node K V) := do
  let n ← FlipColors n
  let ll ← (← n.getLeft).getLeft
  if IsRed ll then
    let n ← RotateRight n
    FlipColors n
  else pure n

/-- Embedding of `Multimap::MoveRedLeft`. -/
def MoveRedLeft (n : Node K V) : Except Fault (Node K V) := do
  let n ← FlipColors n
  let r ← n.getRight
  let rl ← r.getLeft
  if IsRed rl then
    let r ← RotateRight r
    let n ← n.setRight r
    let n ← RotateLeft n
    FlipColors n
  else pure n

/-- The guard `!IsRed(n->left.get()) && !IsRed(n->left->left.get())`. -/
def leftNotRed2 (n : Node K V) : Except Fault Bool := do
  let l ← n.getLeft
  if IsRed l then pure false
  else
    let ll ← l.getLeft
    pure (!IsRed ll)

/-- The guard `!IsRed(n->right.get()) && !IsRed(n->right->left.get())`. -/
def rightNotRed2 (n : Node K V) : Except Fault Bool := do
  let r ← n.getRight
  if IsRed r then pure false
  else
    let rl ← r.getLeft
    pure (!IsRed rl)

/-- Embedding of `Multimap::DeleteMin`; the first argument bounds the recursion depth. -/
def DeleteMin : Nat → Node K V → Except Fault (Node K V)
  | 0, _ => Except.error Fault.outOfFuel
  | fuel + 1, n => do
    let l ← n.getLeft
    if l.isNull then pure Node.nil
    else
      let n ← if (← leftNotRed2 n) then MoveRedLeft n else pure n
      let l ← n.getLeft
      let l ← DeleteMin fuel l
      let n ← n.setLeft l
      FixUp n

/-- Embedding of `Multimap::Min(Node *n)`: the leftmost node below `n`. -/
def MinNode : Node K V → Except Fault (Node K V)
  | Node.nil => Except.error Fault.nullDeref
  | Node.node k v c l r =>
    match l with
    | Node.nil => Except.ok (Node.node k v c l r)
    | Node.node _ _ _ _ _ => MinNode l

/-- Embedding of `Multimap::Get(Node *n, const K &key)`: the node holding `key`, or `nil`. -/
def GetNode [LinearOrder K] : Node K V → K → Node K V
  | Node.nil, _ => Node.nil
  | Node.node k v c l r, key =>
    if key = k then Node.node k v c l r
    else if key < k then GetNode l key
    else GetNode r key

/-- Embedding of `Multimap::Insert(std::unique_ptr<Node> &n, key, value)`. -/
def InsertNode [LinearOrder K] : Node K V → K → V → Except Fault (Node K V)
  | Node.nil, key, value => FixUp (Node.node key [value] Color.RED Node.nil Node.nil)
  | Node.node k v c l r, key, value =>
    if key < k then do
      let l ← InsertNode l key value
      FixUp (Node.node k v c l r)
    else if key > k then do
      let r ← InsertNode r key value
      FixUp (Node.node k v c l r)
    else
      FixUp (Node.node k (v ++ [value]) c l r)

/-- Embedding of `Multimap::Remove(std::unique_ptr<Node> &n, key)`; the first argument bounds the
recursion depth. -/
def RemoveNode [LinearOrder K] : Nat → Node K V → K → Except Fault (Node K V)
  | 0, _, _ => Except.error Fault.outOfFuel
  | fuel + 1, n, key =>
    match n with
    | Node.nil => pure Node.nil
    | Node.node k _ _ _ _ =>
      if key < k then do
        let n ← if (← leftNotRed2 n) then MoveRedLeft n else pure n
        let l ← n.getLeft
        let l ← RemoveNode fuel l key
        let n ← n.setLeft l
        FixUp n
      else do
        let n ← if IsRed (← n.getLeft) then RotateRight n else pure n
        let nk ← n.getKey
        let r ← n.getRight
        if key = nk ∧ r.isNull then
          let v ← n.getValue
          if v.length > 1 then n.setValue v.tail
          else pure Node.nil
        else
          let n ← if (← rightNotRed2 n) then MoveRedRight n else pure n
          let nk ← n.getKey
          if key = nk then
            let v ← n.getValue
            let n ← if v.length > 1 then n.setValue v.tail
              else (do
                let r ← n.getRight
                let n_min ← MinNode r
                let n ← n.setKey (← n_min.getKey)
                let n ← n.setValue (← n_min.getValue)
                let r ← DeleteMin fuel r
                n.setRight r)
            FixUp n
          else
            let r ← n.getRight
            let r ← RemoveNode fuel r key
            let n ← n.setRight r
            FixUp n

/-- Number of nodes of a tree. -/
def Node.size : Node K V → Nat
  | Node.nil => 0
  | Node.node _ _ _ l r => l.size + r.size + 1

end Multimap

/-- The class `Multimap<K, V>`: the owned root and the `unsigned int cur_size`. -/
structure Multimap (K V : Type) where
  root : Multimap.Node K V
  cur_size : Nat
  deriving DecidableEq

namespace Multimap

variable {K V : Type}

/-- A freshly constructed `Multimap`. -/
def empty : Multimap K V := ⟨Node.nil, 0⟩

/-- Width of `unsigned int`. -/
def UINT_MOD : Nat := 2 ^ 32

/-- Embedding of `Multimap::Size`. -/
def Size (m : Multimap K V) : Nat := m.cur_size

/-- Embedding of `Multimap::Contains`. -/
def Contains [LinearOrder K] (m : Multimap K V) (key : K) : Bool :=
  !(GetNode m.root key).isNull

/-- Embedding of `Multimap::Get(const K &key)`. -/
def Get [LinearOrder K] (m : Multimap K V) (key : K) : Except Fault V :=
  match GetNode m.root key with
  | Node.nil => Except.error Fault.runtimeError
  | Node.node _ v _ _ _ =>
    match v with
    | [] => Except.error Fault.outOfBounds
    | x :: _ => Except.ok x

/-- The loop of `Multimap::Max` below a non-null node. -/
def MaxNode : Node K V → Except Fault (Node K V)
  | Node.nil => Except.error Fault.nullDeref
  | Node.node k v c l r =>
    match r with
    | Node.nil => Except.ok (Node.node k v c l r)
    | Node.node _ _ _ _ _ => MaxNode r

/-- Embedding of `Multimap::Max`. -/
def Max (m : Multimap K V) : Except Fault K := do
  (← MaxNode m.root).getKey

/-- Embedding of `Multimap::Min`. -/
def Min (m : Multimap K V) : Except Fault K := do
  (← MinNode m.root).getKey

/-- Embedding of `Multimap::Insert(const K &key, const V &value)`. -/
def Insert [LinearOrder K] (m : Multimap K V) (key : K) (value : V) :
    Except Fault (Multimap K V) := do
  let root ← InsertNode m.root key value
  let cur_size := (m.cur_size + 1) % UINT_MOD
  let root ← root.setColor Color.BLACK
  pure ⟨root, cur_size⟩

/-- Embedding of `Multimap::Remove(const K &key)`. The recursion of `RemoveNode` is given one unit of
fuel per node of the tree and one more. -/
def Remove [LinearOrder K] (m : Multimap K V) (key : K) : Except Fault (Multimap K V) := do
  if !Contains m key then pure m
  else
    let root ← RemoveNode (m.root.size + 1) m.root key
    let cur_size := (m.cur_size + UINT_MOD - 1) % UINT_MOD
    let root ← if !root.isNull then root.setColor Color.BLACK else pure root
    pure ⟨root, cur_size⟩

end Multimap

/-! ## Specification vocabulary -/

namespace Multimap

variable {K V : Type}

/-- The left child, `nil` for `nil`. -/
def leftOf : Node K V → Node K V
  | Node.nil => Node.nil
  | Node.node _ _ _ l _ => l

/-- The right child, `nil` for `nil`. -/
def rightOf : Node K V → Node K V
  | Node.nil => Node.nil
  | Node.node _ _ _ _ r => r

/-- In-order traversal (the order of `Multimap::Print`): the `(key, values)` pairs. -/
def toList : Node K V → List (K × List V)
  | Node.nil => []
  | Node.node k v _ l r => toList l ++ (k, v) :: toList r

/-- The keys in in-order. -/
def inorderKeys (t : Node K V) : List K := (toList t).map Prod.fst

/-- Binary-search-tree order, node by node. -/
def BST [LinearOrder K] : Node K V → Prop
  | Node.nil => True
  | Node.node k _ _ l r =>
    (∀ x ∈ inorderKeys l, x < k) ∧ (∀ x ∈ inorderKeys r, k < x) ∧ BST l ∧ BST r

/-- Number of BLACK nodes on each path from the root to an empty subtree,
one entry per path. -/
def pathBlacks : Node K V → List Nat
  | Node.nil => [0]
  | Node.node _ _ c l r =>
    (pathBlacks l ++ pathBlacks r).map (fun d => d + (if c = Color.BLACK then 1 else 0))

/-- Number of BLACK nodes on the leftmost path. -/
def bhL : Node K V → Nat
  | Node.nil => 0
  | Node.node _ _ c l _ => bhL l + (if c = Color.BLACK then 1 else 0)

/-- The root painted BLACK (`root->color = BLACK` when the root exists). -/
def paintB : Node K V → Node K V
  | Node.nil => Node.nil
  | Node.node k v _ l r => Node.node k v Color.BLACK l r

/-- Left-leaning red-black subtree: equal black height on both sides of every node,
no RED right child, no RED node with a RED left child. -/
def Valid : Node K V → Prop
  | Node.nil => True
  | Node.node _ _ c l r =>
    Valid l ∧ Valid r ∧ bhL l = bhL r ∧ IsRed r = false ∧ (c = Color.RED → IsRed l = false)

/-- The node, or one of its children, is RED: the descent of `Remove` can take a
node out below it without changing the black height. -/
def rich (n : Node K V) : Bool := IsRed n || IsRed (leftOf n) || IsRed (rightOf n)

/-- The shape `MoveRedRight` leaves below the rotated root: a BLACK node with a RED
right child and a non-RED left child. -/
def FrameC : Node K V → Prop
  | Node.nil => False
  | Node.node _ _ c l r =>
    c = Color.BLACK ∧ IsRed l = false ∧ IsRed r = true ∧ Valid l ∧ Valid r ∧ bhL l = bhL r

/-- The key is not below the key at the root of `n`. -/
def rootLE [LinearOrder K] : Node K V → K → Prop
  | Node.nil, _ => True
  | Node.node k _ _ _ _, key => ¬ key < k

/-- What one frame of `Remove` or `DeleteMin` returns for the subtree `n` it was given. -/
def DelPost (n t : Node K V) : Prop :=
  Valid (paintB t) ∧
    (rich n = true → Valid t ∧ bhL t = bhL n ∧ (IsRed n = false → IsRed t = false))

/-- Sequence model of `Insert`: append `v` to the values of `k`, in key order. -/
def insL [LinearOrder K] : List (K × List V) → K → V → List (K × List V)
  | [], k, v => [(k, [v])]
  | (a, vs) :: rest, k, v =>
    if k < a then (k, [v]) :: (a, vs) :: rest
    else if k = a then (a, vs ++ [v]) :: rest
    else (a, vs) :: insL rest k v

/-- Sequence model of `Remove`: drop the first value of `k`, and the entry with it
when no second value is left. -/
def remL [DecidableEq K] : List (K × List V) → K → List (K × List V)
  | [], _ => []
  | (a, vs) :: rest, k =>
    if k = a then (if vs.length > 1 then (a, vs.tail) :: rest else rest)
    else (a, vs) :: remL rest k

/-- The values stored under `k` in a sequence of entries, if `k` has an entry. -/
def lookupL [DecidableEq K] : List (K × List V) → K → Option (List V)
  | [], _ => none
  | (a, vs) :: rest, k => if k = a then some vs else lookupL rest k

/-- The value sequence of `key` in the tree, if `key` has a node. -/
def values? [LinearOrder K] (t : Node K V) (key : K) : Option (List V) :=
  match GetNode t key with
  | Node.nil => none
  | Node.node _ v _ _ _ => some v

/-- Total number of stored values. -/
def totalValues (t : Node K V) : Nat := ((toList t).map (fun p => p.2.length)).sum

/-- Total number of values in a sequence of entries. -/
def totalL (s : List (K × List V)) : Nat := (s.map (fun p => p.2.length)).sum

/-- A call of the public interface that changes the map. -/
inductive Op (K V : Type) where
  | insert (key : K) (value : V)
  | remove (key : K)
  deriving DecidableEq

/-- One public call. -/
def step [LinearOrder K] (m : Multimap K V) : Op K V → Except Fault (Multimap K V)
  | Op.insert k v => Insert m k v
  | Op.remove k => Remove m k

/-- A sequence of public calls, from left to right, starting in `m`. -/
def runFrom [LinearOrder K] (m : Multimap K V) : List (Op K V) → Except Fault (Multimap K V)
  | [] => Except.ok m
  | op :: ops =>
    match step m op with
    | Except.ok m1 => runFrom m1 ops
    | Except.error e => Except.error e

/-- A sequence of public calls applied to the empty map. -/
def run [LinearOrder K] (ops : List (Op K V)) : Except Fault (Multimap K V) :=
  runFrom empty ops

/-- One public call on the sequence model. -/
def applyL [LinearOrder K] (s : List (K × List V)) : Op K V → List (K × List V)
  | Op.insert k v => insL s k v
  | Op.remove k => remL s k

/-- A sequence of public calls on the sequence model. -/
def runL [LinearOrder K] (s : List (K × List V)) (ops : List (Op K V)) : List (K × List V) :=
  ops.foldl applyL s

/-- Queue model of the history: the values inserted under each key and not yet removed,
oldest first, after the calls `ops` were made on the queues `q`. -/
def pendingFrom [DecidableEq K] (q : K → List V) : List (Op K V) → K → List V
  | [] => q
  | Op.insert k v :: ops => pendingFrom (Function.update q k (q k ++ [v])) ops
  | Op.remove k :: ops => pendingFrom (Function.update q k (q k).tail) ops

/-- The queues after the calls `ops` on the empty map. -/
def pending [DecidableEq K] (ops : List (Op K V)) : K → List V :=
  pendingFrom (fun _ => []) ops

/-- The entries of a sequence are the non-empty queues of `q`. -/
def Rel [DecidableEq K] (s : List (K × List V)) (q : K → List V) : Prop :=
  ∀ k, lookupL s k = (match q k with
    | [] => none
    | x :: xs => some (x :: xs))

/-- The tree with the values erased: keys, colours and parent/child arrangement. -/
def shape : Node K V → Node K Unit
  | Node.nil => Node.nil
  | Node.node k _ c l r => Node.node k [] c (shape l) (shape r)

/-- The state invariant of the class: a left-leaning red-black search tree with a BLACK
root, no empty value sequence, and `cur_size` counting the stored values. -/
def Inv [LinearOrder K] (m : Multimap K V) : Prop :=
  Valid m.root ∧ IsRed m.root = false ∧ (inorderKeys m.root).Pairwise (· < ·) ∧
    (∀ p ∈ toList m.root, p.2 ≠ []) ∧ m.cur_size = totalValues m.root % UINT_MOD

end Multimap

/-! ## Concrete call sequences (from `multimap_tester.cc` and hand-made) -/

namespace Multimap

/-- The map a run ended in; the empty map when the run failed. -/
def stateOf {K V : Type} (r : Except Fault (Multimap K V)) : Multimap K V :=
  match r with
  | Except.ok m => m
  | Except.error _ => empty

/-- The inserts of `TEST(Multimap, ComplexMultipleKeys)`: values 1, 2, 3 under each key. -/
def testInserts : List (Op Nat Nat) :=
  [Op.insert 2 1, Op.insert 2 2, Op.insert 2 3, Op.insert 5 1, Op.insert 5 2, Op.insert 5 3,
   Op.insert 18 1, Op.insert 18 2, Op.insert 18 3, Op.insert 42 1, Op.insert 42 2, Op.insert 42 3,
   Op.insert 43 1, Op.insert 43 2, Op.insert 43 3, Op.insert 16 1, Op.insert 16 2, Op.insert 16 3]

/-- The calls of `TEST(Multimap, ComplexMultipleKeysRemove)`: the inserts, then one
`Remove` per key. -/
def testInsertsRemoves : List (Op Nat Nat) :=
  testInserts ++ [Op.remove 2, Op.remove 5, Op.remove 18, Op.remove 42, Op.remove 43, Op.remove 16]

/-- Three values under key 5 with other keys inserted and removed in between. -/
def fifoOps : List (Op Nat Nat) :=
  [Op.insert 5 1, Op.insert 7 70, Op.insert 5 2, Op.insert 3 30, Op.insert 5 3, Op.remove 7]

/-- Keys 1, 2, 3, 0 and a second value under key 3. -/
def rotOps : List (Op Nat Nat) :=
  [Op.insert 1 10, Op.insert 2 20, Op.insert 3 30, Op.insert 0 0, Op.insert 3 31]

/-- Keys 2, 1, 3: a root with two children. -/
def twoChildOps : List (Op Nat Nat) := [Op.insert 2 20, Op.insert 1 10, Op.insert 3 30]

/-- Two values under the single key 5. -/
def dupOps : List (Op Nat Nat) := [Op.insert 5 1, Op.insert 5 2]

end Multimap

/-! ## Further vocabulary: structural predicates and call counts -/

namespace Multimap

variable {K V : Type}

/-- No node has a RED right child next to a left child that is not RED. -/
def noRightLeaningRed : Node K V → Prop
  | Node.nil => True
  | Node.node _ _ _ l r =>
    ¬ (IsRed r = true ∧ IsRed l = false) ∧ noRightLeaningRed l ∧ noRightLeaningRed r

/-- No RED node has a RED left child. -/
def noRedRedLeft : Node K V → Prop
  | Node.nil => True
  | Node.node _ _ c l r =>
    ¬ (c = Color.RED ∧ IsRed l = true) ∧ noRedRedLeft l ∧ noRedRedLeft r

/-- Every node of the tree holds at least one value. -/
def allValuesNonempty : Node K V → Prop
  | Node.nil => True
  | Node.node _ v _ l r => v ≠ [] ∧ allValuesNonempty l ∧ allValuesNonempty r

/-- The colour of the root, if there is a root. -/
def rootColor? : Node K V → Option Color
  | Node.nil => none
  | Node.node _ _ c _ _ => some c

/-- Number of values stored under `k` in the tree (0 when `k` has no node). -/
def storedCount [LinearOrder K] (t : Node K V) (k : K) : Nat :=
  ((values? t k).getD []).length

/-- Number of `Insert(k, _)` calls in a call sequence. -/
def insertCalls [DecidableEq K] : List (Op K V) → K → Nat
  | [], _ => 0
  | Op.insert k2 _ :: ops, k => (if k2 = k then 1 else 0) + insertCalls ops k
  | Op.remove _ :: ops, k => insertCalls ops k

/-- Number of `Remove(k)` calls in a call sequence started in `m` that found `k`
present (`Contains(k)` was true when the call was made). -/
def removeHits [LinearOrder K] (m : Multimap K V) : List (Op K V) → K → Nat
  | [], _ => 0
  | Op.insert k2 v :: ops, k => removeHits (stateOf (step m (Op.insert k2 v))) ops k
  | Op.remove k2 :: ops, k =>
    (if k2 = k ∧ Contains m k = true then 1 else 0) +
      removeHits (stateOf (step m (Op.remove k2))) ops k

/-- The keys 2, 18, 42, 43, 16 of `TEST(Multimap, SimpleMultipleKeysRemove)`, each with
the key as its value. -/
def minMaxOps : List (Op Nat Nat) :=
  [Op.insert 2 2, Op.insert 18 18, Op.insert 42 42, Op.insert 43 43, Op.insert 16 16]

end Multimap

/-! ## Further vocabulary: the descent of `Remove`, height, and the tree after an append -/

namespace Multimap

variable {K V : Type}

/-- Embedding of `Multimap::Remove(std::unique_ptr<Node> &n, key)` with the outcome of its first
branch, `if (!n) return;` (key not found), left open: a call on an absent subtree gives
`onAbsent`. With `pure Node.nil` for `onAbsent` this is `RemoveNode`; a result that is the same
for every `onAbsent` is a result of a run that never reached the branch. -/
def RemoveNodeOn [LinearOrder K] (onAbsent : Except Fault (Node K V)) :
    Nat → Node K V → K → Except Fault (Node K V)
  | 0, _, _ => Except.error Fault.outOfFuel
  | fuel + 1, n, key =>
    match n with
    | Node.nil => onAbsent
    | Node.node k _ _ _ _ =>
      if key < k then do
        let n ← if (← leftNotRed2 n) then MoveRedLeft n else pure n
        let l ← n.getLeft
        let l ← RemoveNodeOn onAbsent fuel l key
        let n ← n.setLeft l
        FixUp n
      else do
        let n ← if IsRed (← n.getLeft) then RotateRight n else pure n
        let nk ← n.getKey
        let r ← n.getRight
        if key = nk ∧ r.isNull then
          let v ← n.getValue
          if v.length > 1 then n.setValue v.tail
          else pure Node.nil
        else
          let n ← if (← rightNotRed2 n) then MoveRedRight n else pure n
          let nk ← n.getKey
          if key = nk then
            let v ← n.getValue
            let n ← if v.length > 1 then n.setValue v.tail
              else (do
                let r ← n.getRight
                let n_min ← MinNode r
                let n ← n.setKey (← n_min.getKey)
                let n ← n.setValue (← n_min.getValue)
                let r ← DeleteMin fuel r
                n.setRight r)
            FixUp n
          else
            let r ← n.getRight
            let r ← RemoveNodeOn onAbsent fuel r key
            let n ← n.setRight r
            FixUp n

/-- The tree with `value` appended to the end of the value sequence of the node that holds
`key`, and nothing else changed (the tree itself when no node holds `key`). This is what the
specification says an `Insert` of a present key leaves; `InsertNode` is compared with it. -/
def appendAt [LinearOrder K] : Node K V → K → V → Node K V
  | Node.nil, _, _ => Node.nil
  | Node.node k v c l r, key, value =>
    if key < k then Node.node k v c (appendAt l key value) r
    else if key > k then Node.node k v c l (appendAt r key value)
    else Node.node k (v ++ [value]) c l r

/-- The nodes on which the frames of `Insert(n, key, value)` call `FixUp` while they unwind, given
the tree `t` the call leaves: the subtrees of `t` on the way from the root to `key`. -/
def unwindNodes [LinearOrder K] : Node K V → K → List (Node K V)
  | Node.nil, _ => []
  | Node.node k v c l r, key =>
    Node.node k v c l r ::
      (if key < k then unwindNodes l key else if key > k then unwindNodes r key else [])

/-- Number of nodes on the longest path from the root to an empty subtree. -/
def height : Node K V → Nat
  | Node.nil => 0
  | Node.node _ _ _ l r => max (height l) (height r) + 1

/-- The key and the value sequence held by the root, if there is a root. -/
def rootEntry? : Node K V → Option (K × List V)
  | Node.nil => none
  | Node.node k v _ _ _ => some (k, v)

/-- A RED node 2 with the BLACK children 1 and 3: a subtree as `DeleteMin` meets it below a
node whose RED link was pushed down. -/
def redRootTree : Node Nat Nat :=
  Node.node 2 [20] Color.RED (Node.node 1 [10] Color.BLACK Node.nil Node.nil)
    (Node.node 3 [30] Color.BLACK Node.nil Node.nil)

end Multimap

/-!
# Map (the sibling structure of `src/LLRB-Multimap/map.h`)

The same tree with a single value per node. `Insert` of a key that is already present
throws `std::runtime_error` from inside the recursion; a call that can throw is embedded
as a function that returns the state it leaves behind together with the exception, if
one was thrown. The colours and the faults are those of `Multimap`.
-/

namespace Map

open Multimap (Color Fault)

/-- Embedding of `struct Node` of `map.h` behind a `std::unique_ptr`; `nil` is the null
pointer. -/
inductive Node (K V : Type) where
  | nil : Node K V
  | node (key : K) (value : V) (color : Color) (left right : Node K V) : Node K V
  deriving DecidableEq

variable {K V : Type}

/-- The read `n->left`. -/
def Node.getLeft : Node K V → Except Fault (Node K V)
  | Node.nil => Except.error Fault.nullDeref
  | Node.node _ _ _ l _ => Except.ok l

/-- The read `n->right`. -/
def Node.getRight : Node K V → Except Fault (Node K V)
  | Node.nil => Except.error Fault.nullDeref
  | Node.node _ _ _ _ r => Except.ok r

/-- The assignment `n->left = l`. -/
def Node.setLeft : Node K V → Node K V → Except Fault (Node K V)
  | Node.nil, _ => Except.error Fault.nullDeref
  | Node.node k v c _ r, l => Except.ok (Node.node k v c l r)

/-- The assignment `n->right = r`. -/
def Node.setRight : Node K V → Node K V → Except Fault (Node K V)
  | Node.nil, _ => Except.error Fault.nullDeref
  | Node.node k v c l _, r => Except.ok (Node.node k v c l r)

/-- The assignment `n->color = c`. -/
def Node.setColor : Node K V → Color → Except Fault (Node K V)
  | Node.nil, _ => Except.error Fault.nullDeref
  | Node.node k v _ l r, c => Except.ok (Node.node k v c l r)

/-- The assignment `n->color = !n->color`. -/
def Node.toggle : Node K V → Except Fault (Node K V)
  | Node.nil => Except.error Fault.nullDeref
  | Node.node k v c l r => Except.ok (Node.node k v c.flip l r)

/-- Embedding of `Map::IsRed`. -/
def IsRed : Node K V → Bool
  | Node.nil => false
  | Node.node _ _ c _ _ => decide (c = Color.RED)

/-- Embedding of `Map::FlipColors`. -/
def FlipColors (n : Node K V) : Except Fault (Node K V) := do
  let n ← n.toggle
  let l ← (← n.getLeft).toggle
  let n ← n.setLeft l
  let r ← (← n.getRight).toggle
  n.setRight r

/-- Embedding of `Map::RotateRight`. -/
def RotateRight (prt : Node K V) : Except Fault (Node K V) :=
  match prt with
  | Node.nil => Except.error Fault.nullDeref
  | Node.node k v c chd r =>
    match chd with
    | Node.nil => Except.error Fault.nullDeref
    | Node.node ck cv _ cl cr =>
      Except.ok (Node.node ck cv c cl (Node.node k v Color.RED cr r))

/-- Embedding of `Map::RotateLeft`. -/
def RotateLeft (prt : Node K V) : Except Fault (Node K V) :=
  match prt with
  | Node.nil => Except.error Fault.nullDeref
  | Node.node k v c l chd =>
    match chd with
    | Node.nil => Except.error Fault.nullDeref
    | Node.node ck cv _ cl cr =>
      Except.ok (Node.node ck cv c (Node.node k v Color.RED l cl) cr)

/-- Embedding of `Map::FixUp`. -/
def FixUp (n : Node K V) : Except Fault (Node K V) := do
  let r ← n.getRight
  let l ← n.getLeft
  let n ← if IsRed r && !IsRed l then RotateLeft n else pure n
  let l ← n.getLeft
  let n ← if IsRed l then (do
      let ll ← l.getLeft
      if IsRed ll then RotateRight n else pure n)
    else pure n
  let l ← n.getLeft
  let r ← n.getRight
  if IsRed l && IsRed r then FlipColors n else pure n

/-- Embedding of `Map::Get(Node *n, const K &key)`: the node holding `key`, or `nil`. -/
def GetNode [LinearOrder K] : Node K V → K → Node K V
  | Node.nil, _ => Node.nil
  | Node.node k v c l r, key =>
    if key = k then Node.node k v c l r
    else if key < k then GetNode l key
    else GetNode r key

/-- The call `FixUp(n)` at the end of a frame of `Insert`: the node it leaves, and the
fault if it read a field of an absent node. -/
def fixUpInPlace (n : Node K V) : Node K V × Option Fault :=
  match FixUp n with
  | Except.ok n2 => (n2, none)
  | Except.error e => (n, some e)

/-- Embedding of `Map::Insert(std::unique_ptr<Node> &n, key, value)`: the subtree the call
leaves behind `n`, and the exception if it threw. An exception of the recursive call
passes through the frame, which skips its `FixUp`. -/
def InsertNode [LinearOrder K] : Node K V → K → V → Node K V × Option Fault
  | Node.nil, key, value => fixUpInPlace (Node.node key value Color.RED Node.nil Node.nil)
  | Node.node k v c l r, key, value =>
    if key < k then
      match InsertNode l key value with
      | (l2, some e) => (Node.node k v c l2 r, some e)
      | (l2, none) => fixUpInPlace (Node.node k v c l2 r)
    else if key > k then
      match InsertNode r key value with
      | (r2, some e) => (Node.node k v c l r2, some e)
      | (r2, none) => fixUpInPlace (Node.node k v c l r2)
    else (Node.node k v c l r, some Fault.runtimeError)

end Map

/-- The class `Map<K, V>`: the owned root and the `unsigned int cur_size`. -/
structure Map (K V : Type) where
  root : Map.Node K V
  cur_size : Nat
  deriving DecidableEq

namespace Map

open Multimap (Color Fault)

variable {K V : Type}

/-- A freshly constructed `Map`. -/
def empty : Map K V := ⟨Node.nil, 0⟩

/-- Embedding of `Map::Size`. -/
def Size (m : Map K V) : Nat := m.cur_size

/-- Embedding of `Map::Contains`. -/
def Contains [LinearOrder K] (m : Map K V) (key : K) : Bool :=
  match GetNode m.root key with
  | Node.nil => false
  | Node.node _ _ _ _ _ => true

/-- Embedding of `Map::Get(const K &key)`. -/
def Get [LinearOrder K] (m : Map K V) (key : K) : Except Fault V :=
  match GetNode m.root key with
  | Node.nil => Except.error Fault.runtimeError
  | Node.node _ v _ _ _ => Except.ok v

/-- Embedding of `Map::Insert(const K &key, const V &value)`: the map the call leaves, and
the exception if it threw (then `cur_size++` and the recolouring of the root were not
reached). -/
def Insert [LinearOrder K] (m : Map K V) (key : K) (value : V) : Map K V × Option Fault :=
  match InsertNode m.root key value with
  | (root, some e) => (⟨root, m.cur_size⟩, some e)
  | (root, none) =>
    match root.setColor Color.BLACK with
    | Except.ok root2 => (⟨root2, (m.cur_size + 1) % Multimap.UINT_MOD⟩, none)
    | Except.error e => (⟨root, (m.cur_size + 1) % Multimap.UINT_MOD⟩, some e)

/-- The loop `for (auto i : keys) map.Insert(...)` of `test_map.cc`: the pairs are inserted
from left to right; an exception ends the loop. -/
def insertAll [LinearOrder K] (m : Map K V) : List (K × V) → Map K V × Option Fault
  | [] => (m, none)
  | (k, v) :: rest =>
    match Insert m k v with
    | (m2, none) => insertAll m2 rest
    | (m2, some e) => (m2, some e)

/-- The tree of a `Map` read as a tree of a `Multimap` in which every key holds one
value. -/
def toMM : Node K V → Multimap.Node K V
  | Node.nil => Multimap.Node.nil
  | Node.node k v c l r => Multimap.Node.node k [v] c (toMM l) (toMM r)

/-- The keys 2, 18, 42, 43 of `TEST(Map, MultipleKeys)`, each with the key as its value. -/
def testPairs : List (Nat × Nat) := [(2, 2), (18, 18), (42, 42), (43, 43)]

end Map

/-! ## Lemmas -/

namespace Multimap

variable {K V : Type}

/-! ### Colours and black height: pushing a RED link to the left

`pushLeft_spec` describes the guard and the call of `MoveRedLeft` at the head of
`DeleteMin` and of the left branch of `Remove`: the node it leaves, the subtree the
recursion enters, and what `FixUp` makes of any result of that recursion. -/

@[simp] theorem IsRed_nil : IsRed (Node.nil : Node K V) = false := rfl

@[simp] theorem IsRed_red (k : K) (v : List V) (l r : Node K V) :
    IsRed (Node.node k v Color.RED l r) = true := rfl

@[simp] theorem IsRed_black (k : K) (v : List V) (l r : Node K V) :
    IsRed (Node.node k v Color.BLACK l r) = false := rfl

theorem Valid_paintB {t : Node K V} (h : Valid t) : Valid (paintB t) := by
  cases t <;> simp_all [Valid, paintB]

theorem DelPost_self {n : Node K V} (h : Valid n) : DelPost n n :=
  ⟨Valid_paintB h, fun _ => ⟨h, rfl, fun x => x⟩⟩

theorem pushLeft_spec (k : K) (v : List V) (c : Color) (l r : Node K V)
    (hn : Valid (Node.node k v c l r)) (hl : l ≠ Node.nil) :
    ∃ b k1 v1 c1 l1 r1, leftNotRed2 (Node.node k v c l r) = Except.ok b ∧
      (if b = true then MoveRedLeft (Node.node k v c l r) else pure (Node.node k v c l r))
        = Except.ok (Node.node k1 v1 c1 l1 r1) ∧
      Valid l1 ∧ rich l1 = true ∧
      (∃ suf, toList l1 = toList l ++ suf) ∧
      toList l1 ++ (k1, v1) :: toList r1 = toList l ++ (k, v) :: toList r ∧
      l1.size + r1.size = l.size + r.size ∧
      ∀ t, DelPost l1 t → ∃ t2, FixUp (Node.node k1 v1 c1 t r1) = Except.ok t2 ∧
        DelPost (Node.node k v c l r) t2 ∧ toList t2 = toList t ++ (k1, v1) :: toList r1 := by
  rcases l with _ | ⟨lk, lv, lc, ll, lr⟩
  · exact absurd rfl hl
  cases lc
  · -- the left child is RED: nothing is moved
    refine ⟨false, k, v, c, Node.node lk lv Color.RED ll lr, r, ?_, ?_, ?_, ?_, ⟨[], by simp [toList]⟩,
      rfl, rfl, ?_⟩
    · simp [leftNotRed2, Node.getLeft,  bind, Except.bind, pure, Except.pure]
    · simp [pure, Except.pure]
    · simp_all [Valid]
    · simp [rich]
    · intro t ht
      cases c <;> rcases t with _ | ⟨tk, tv, tc, tl, tr⟩ <;> (try cases tc) <;>
        simp_all [DelPost, Valid, paintB, rich,  leftOf, rightOf, bhL, toList, FixUp,
          Node.getLeft, Node.getRight, bind, Except.bind, pure, Except.pure] <;> omega
  · cases hll : IsRed ll
    · -- both the left child and its left child are not RED: MoveRedLeft
      rcases r with _ | ⟨rk, rv, rc, rl, rr⟩
      · simp [Valid, bhL] at hn
      cases rc
      · simp [Valid] at hn
      cases hrl : IsRed rl
      · refine ⟨true, k, v, c.flip, Node.node lk lv Color.RED ll lr,
          Node.node rk rv Color.RED rl rr, ?_, ?_, ?_, ?_, ⟨[], by simp [toList]⟩, rfl, rfl, ?_⟩
        · simp [leftNotRed2, Node.getLeft,  bind, Except.bind, pure, Except.pure, hll]
        · simp [MoveRedLeft, FlipColors, Node.toggle, Node.getLeft, Node.getRight, Node.setLeft,
            Node.setRight,  bind, Except.bind, pure, Except.pure, hrl, Color.flip]
        · simp_all [Valid, bhL] <;> omega
        · simp [rich]
        · intro t ht
          cases c <;> rcases t with _ | ⟨tk, tv, tc, tl, tr⟩ <;> (try cases tc) <;>
            simp_all [DelPost, Valid, paintB, rich,  leftOf, rightOf, bhL, toList, FixUp,
              Node.getLeft, Node.getRight, bind, Except.bind, pure, Except.pure, Color.flip,
              RotateLeft, RotateRight, FlipColors, Node.toggle, Node.setLeft, Node.setRight] <;> omega
      · rcases rl with _ | ⟨rlk, rlv, rlc, rll, rlr⟩
        · simp at hrl
        cases rlc
        swap
        · simp at hrl
        refine ⟨true, rlk, rlv, c, Node.node k v Color.BLACK (Node.node lk lv Color.RED ll lr) rll,
          Node.node rk rv Color.BLACK rlr rr, ?_, ?_, ?_, ?_, ⟨(k, v) :: toList rll, by simp [toList]⟩,
          by simp [toList], by simp [Node.size]; omega, ?_⟩
        · simp [leftNotRed2, Node.getLeft,  bind, Except.bind, pure, Except.pure, hll]
        · cases c <;> simp [MoveRedLeft, FlipColors, Node.toggle, Node.getLeft, Node.getRight, Node.setLeft,
            Node.setRight,  bind, Except.bind, pure, Except.pure, hrl, Color.flip, RotateLeft, RotateRight]
        · simp_all [Valid, bhL] <;> omega
        · simp [rich,  leftOf]
        · intro t ht
          cases c <;> rcases t with _ | ⟨tk, tv, tc, tl, tr⟩ <;> (try cases tc) <;>
            simp_all [DelPost, Valid, paintB, rich,  leftOf, rightOf, bhL, toList, FixUp,
              Node.getLeft, Node.getRight, bind, Except.bind, pure, Except.pure, Color.flip,
              RotateLeft, RotateRight, FlipColors, Node.toggle, Node.setLeft, Node.setRight] <;> omega
    · -- the left child is BLACK with a RED left child: nothing is moved
      refine ⟨false, k, v, c, Node.node lk lv Color.BLACK ll lr, r, ?_, ?_, ?_, ?_, ⟨[], by simp [toList]⟩,
        rfl, rfl, ?_⟩
      · simp [leftNotRed2, Node.getLeft,  bind, Except.bind, pure, Except.pure, hll]
      · simp [pure, Except.pure]
      · simp_all [Valid]
      · simp [rich,  leftOf, hll]
      · intro t ht
        cases c <;> rcases t with _ | ⟨tk, tv, tc, tl, tr⟩ <;> (try cases tc) <;>
          simp_all [DelPost, Valid, paintB, rich,  leftOf, rightOf, bhL, toList, FixUp,
            Node.getLeft, Node.getRight, bind, Except.bind, pure, Except.pure] <;> omega

/-! ### Pushing a RED link to the right

`pushRight_spec` does the same for the right branch of `Remove`: the optional
`RotateRight`, the test for a node without right child, and `MoveRedRight`. -/

theorem pushRight_spec (k : K) (v : List V) (c : Color) (l r : Node K V)
    (hn : Valid (Node.node k v c l r) ∨ FrameC (Node.node k v c l r)) :
    (l = Node.nil ∧ r = Node.nil ∧ DelPost (Node.node k v c l r) Node.nil ∧
        ∀ v1, DelPost (Node.node k v c l r) (Node.node k v1 c Node.nil Node.nil)) ∨
    ∃ k0 v0 c0 l0 r0 b k1 v1 c1 l1 r1,
      (if IsRed l = true then RotateRight (Node.node k v c l r) else pure (Node.node k v c l r))
        = Except.ok (Node.node k0 v0 c0 l0 r0) ∧
      r0.isNull = false ∧
      rightNotRed2 (Node.node k0 v0 c0 l0 r0) = Except.ok b ∧
      (if b = true then MoveRedRight (Node.node k0 v0 c0 l0 r0) else pure (Node.node k0 v0 c0 l0 r0))
        = Except.ok (Node.node k1 v1 c1 l1 r1) ∧
      l1.size + r1.size = l.size + r.size ∧
      (∀ t, DelPost r1 t → ∃ t2, FixUp (Node.node k1 v1 c1 l1 t) = Except.ok t2 ∧
        DelPost (Node.node k v c l r) t2 ∧ toList t2 = toList l1 ++ (k1, v1) :: toList t) ∧
      ((k1 = k ∧ v1 = v ∧ toList l1 = toList l ∧ toList r1 = toList r ∧
          Valid r1 ∧ rich r1 = true ∧ r1 ≠ Node.nil ∧
          ∀ k2 v2 t, DelPost r1 t → ∃ t2, FixUp (Node.node k2 v2 c1 l1 t) = Except.ok t2 ∧
            DelPost (Node.node k v c l r) t2 ∧ toList t2 = toList l1 ++ (k2, v2) :: toList t) ∨
       (∃ rc rl rr, r1 = Node.node k v rc rl rr ∧ toList rr = toList r ∧
          toList l1 ++ (k1, v1) :: toList rl = toList l ∧
          ((Valid r1 ∧ rich r1 = true) ∨ FrameC r1))) := by
  rcases l with _ | ⟨lk, lv, lc, ll, lr⟩
  · -- no left child
    rcases r with _ | ⟨rk, rv, rc, rl, rr⟩
    · left
      cases c <;> simp [DelPost, Valid, paintB, rich, leftOf, rightOf, bhL]
    · right
      cases rc
      · -- RED right child below a node without left child
        refine ⟨k, v, c, Node.nil, Node.node rk rv Color.RED rl rr, false, k, v, c, Node.nil,
          Node.node rk rv Color.RED rl rr, ?_, rfl, ?_, ?_, rfl, ?_, Or.inl ⟨rfl, rfl, rfl, rfl, ?_, ?_, ?_, ?_⟩⟩
        · simp [pure, Except.pure]
        · simp [rightNotRed2, Node.getRight, bind, Except.bind, pure, Except.pure]
        · simp [pure, Except.pure]
        · intro t ht
          cases c <;> rcases t with _ | ⟨tk, tv, tc, tl, tr⟩ <;> (try cases tc) <;>
            simp_all [DelPost, Valid, FrameC, paintB, rich, leftOf, rightOf, bhL, toList, FixUp,
              Node.getLeft, Node.getRight, bind, Except.bind, pure, Except.pure, Color.flip,
              RotateLeft, RotateRight, FlipColors, Node.toggle, Node.setLeft, Node.setRight] <;> omega
        · simp_all [Valid, FrameC]
        · simp [rich]
        · simp
        · intro k2 v2 t ht
          cases c <;> rcases t with _ | ⟨tk, tv, tc, tl, tr⟩ <;> (try cases tc) <;>
            simp_all [DelPost, Valid, FrameC, paintB, rich, leftOf, rightOf, bhL, toList, FixUp,
              Node.getLeft, Node.getRight, bind, Except.bind, pure, Except.pure, Color.flip,
              RotateLeft, RotateRight, FlipColors, Node.toggle, Node.setLeft, Node.setRight] <;> omega
      · simp [Valid, FrameC, bhL] at hn
  · right
    cases lc
    · -- RED left child: RotateRight, then descend into the old root
      refine ⟨lk, lv, c, ll, Node.node k v Color.RED lr r, false, lk, lv, c, ll,
        Node.node k v Color.RED lr r, ?_, rfl, ?_, ?_, ?_, ?_,
        Or.inr ⟨Color.RED, lr, r, rfl, rfl, by simp [toList], Or.inl ⟨?_, ?_⟩⟩⟩
      · simp [RotateRight]
      · simp [rightNotRed2, Node.getRight, bind, Except.bind, pure, Except.pure]
      · simp [pure, Except.pure]
      · simp [Node.size]; omega
      · intro t ht
        cases c <;> rcases t with _ | ⟨tk, tv, tc, tl, tr⟩ <;> (try cases tc) <;>
          simp_all [DelPost, Valid, FrameC, paintB, rich, leftOf, rightOf, bhL, toList, FixUp,
            Node.getLeft, Node.getRight, bind, Except.bind, pure, Except.pure, Color.flip,
            RotateLeft, RotateRight, FlipColors, Node.toggle, Node.setLeft, Node.setRight] <;> omega
      · simp_all [Valid, FrameC, bhL] <;> omega
      · simp [rich]
    · -- the left child is BLACK
      rcases r with _ | ⟨rk, rv, rc, rl, rr⟩
      · simp [Valid, FrameC, bhL] at hn
      cases rc
      · -- RED right child (the shape left by MoveRedRight)
        refine ⟨k, v, c, Node.node lk lv Color.BLACK ll lr, Node.node rk rv Color.RED rl rr, false, k, v, c, Node.node lk lv Color.BLACK ll lr,
          Node.node rk rv Color.RED rl rr, ?_, rfl, ?_, ?_, rfl, ?_,
          Or.inl ⟨rfl, rfl, rfl, rfl, ?_, ?_, ?_, ?_⟩⟩
        · simp [pure, Except.pure]
        · simp [rightNotRed2, Node.getRight, bind, Except.bind, pure, Except.pure]
        · simp [pure, Except.pure]
        · intro t ht
          cases c <;> rcases t with _ | ⟨tk, tv, tc, tl, tr⟩ <;> (try cases tc) <;>
            simp_all [DelPost, Valid, FrameC, paintB, rich, leftOf, rightOf, bhL, toList, FixUp,
              Node.getLeft, Node.getRight, bind, Except.bind, pure, Except.pure, Color.flip,
              RotateLeft, RotateRight, FlipColors, Node.toggle, Node.setLeft, Node.setRight] <;> omega
        · simp_all [Valid, FrameC]
        · simp [rich]
        · simp
        · intro k2 v2 t ht
          cases c <;> rcases t with _ | ⟨tk, tv, tc, tl, tr⟩ <;> (try cases tc) <;>
            simp_all [DelPost, Valid, FrameC, paintB, rich, leftOf, rightOf, bhL, toList, FixUp,
              Node.getLeft, Node.getRight, bind, Except.bind, pure, Except.pure, Color.flip,
              RotateLeft, RotateRight, FlipColors, Node.toggle, Node.setLeft, Node.setRight] <;> omega
      · have hv : Valid (Node.node k v c (Node.node lk lv Color.BLACK ll lr)
            (Node.node rk rv Color.BLACK rl rr)) := by
          rcases hn with h | h
          · exact h
          · simp [FrameC] at h
        cases hrl : IsRed rl
        · cases hll : IsRed ll
          · -- MoveRedRight without rotation
            refine ⟨k, v, c, Node.node lk lv Color.BLACK ll lr, Node.node rk rv Color.BLACK rl rr, true, k, v, c.flip, Node.node lk lv Color.RED ll lr,
              Node.node rk rv Color.RED rl rr, ?_, rfl, ?_, ?_, rfl, ?_,
              Or.inl ⟨rfl, rfl, by simp [toList], by simp [toList], ?_, ?_, ?_, ?_⟩⟩
            · simp [pure, Except.pure]
            · simp [rightNotRed2, Node.getRight, Node.getLeft, bind, Except.bind, pure, Except.pure, hrl]
            · simp [MoveRedRight, FlipColors, Node.toggle, Node.getLeft, Node.getRight, Node.setLeft,
                Node.setRight, bind, Except.bind, pure, Except.pure, hll, Color.flip]
            · intro t ht
              cases c <;> rcases t with _ | ⟨tk, tv, tc, tl, tr⟩ <;> (try cases tc) <;>
                simp_all [DelPost, Valid, FrameC, paintB, rich, leftOf, rightOf, bhL, toList, FixUp,
                  Node.getLeft, Node.getRight, bind, Except.bind, pure, Except.pure, Color.flip,
                  RotateLeft, RotateRight, FlipColors, Node.toggle, Node.setLeft, Node.setRight] <;> omega
            · simp_all [Valid, FrameC]
            · simp [rich]
            · simp
            · intro k2 v2 t ht
              cases c <;> rcases t with _ | ⟨tk, tv, tc, tl, tr⟩ <;> (try cases tc) <;>
                simp_all [DelPost, Valid, FrameC, paintB, rich, leftOf, rightOf, bhL, toList, FixUp,
                  Node.getLeft, Node.getRight, bind, Except.bind, pure, Except.pure, Color.flip,
                  RotateLeft, RotateRight, FlipColors, Node.toggle, Node.setLeft, Node.setRight] <;> omega
          · -- MoveRedRight with rotation
            rcases ll with _ | ⟨llk, llv, llc, lll, llr⟩
            · simp at hll
            cases llc
            swap
            · simp at hll
            refine ⟨k, v, c, Node.node lk lv Color.BLACK (Node.node llk llv Color.RED lll llr) lr,
              Node.node rk rv Color.BLACK rl rr, true, lk, lv, c, Node.node llk llv Color.BLACK lll llr,
              Node.node k v Color.BLACK lr (Node.node rk rv Color.RED rl rr), ?_, rfl, ?_, ?_, ?_, ?_,
              Or.inr ⟨Color.BLACK, lr, Node.node rk rv Color.RED rl rr, rfl, by simp [toList],
                by simp [toList], Or.inr ?_⟩⟩
            · simp [pure, Except.pure]
            · simp [rightNotRed2, Node.getRight, Node.getLeft, bind, Except.bind, pure, Except.pure, hrl]
            · cases c <;> simp [MoveRedRight, FlipColors, Node.toggle, Node.getLeft, Node.getRight, Node.setLeft,
                Node.setRight, bind, Except.bind, pure, Except.pure, Color.flip, RotateRight]
            · simp [Node.size]; omega
            · intro t ht
              cases c <;> rcases t with _ | ⟨tk, tv, tc, tl, tr⟩ <;> (try cases tc) <;>
                simp_all [DelPost, Valid, FrameC, paintB, rich, leftOf, rightOf, bhL, toList, FixUp,
                  Node.getLeft, Node.getRight, bind, Except.bind, pure, Except.pure, Color.flip,
                  RotateLeft, RotateRight, FlipColors, Node.toggle, Node.setLeft, Node.setRight] <;> omega
            · simp_all [Valid, FrameC, bhL] <;> omega
        · -- the right child has a RED left child: nothing is moved
          refine ⟨k, v, c, Node.node lk lv Color.BLACK ll lr, Node.node rk rv Color.BLACK rl rr, false, k, v, c, Node.node lk lv Color.BLACK ll lr,
            Node.node rk rv Color.BLACK rl rr, ?_, rfl, ?_, ?_, rfl, ?_,
            Or.inl ⟨rfl, rfl, rfl, rfl, ?_, ?_, ?_, ?_⟩⟩
          · simp [pure, Except.pure]
          · simp [rightNotRed2, Node.getRight, Node.getLeft, bind, Except.bind, pure, Except.pure, hrl]
          · simp [pure, Except.pure]
          · intro t ht
            cases c <;> rcases t with _ | ⟨tk, tv, tc, tl, tr⟩ <;> (try cases tc) <;>
              simp_all [DelPost, Valid, FrameC, paintB, rich, leftOf, rightOf, bhL, toList, FixUp,
                Node.getLeft, Node.getRight, bind, Except.bind, pure, Except.pure, Color.flip,
                RotateLeft, RotateRight, FlipColors, Node.toggle, Node.setLeft, Node.setRight] <;> omega
          · simp_all [Valid, FrameC]
          · simp [rich, leftOf, hrl]
          · simp
          · intro k2 v2 t ht
            cases c <;> rcases t with _ | ⟨tk, tv, tc, tl, tr⟩ <;> (try cases tc) <;>
              simp_all [DelPost, Valid, FrameC, paintB, rich, leftOf, rightOf, bhL, toList, FixUp,
                Node.getLeft, Node.getRight, bind, Except.bind, pure, Except.pure, Color.flip,
                RotateLeft, RotateRight, FlipColors, Node.toggle, Node.setLeft, Node.setRight] <;> omega

/-! ### `Min` and `DeleteMin` -/

theorem toList_ne_nil {n : Node K V} (h : n ≠ Node.nil) : toList n ≠ [] := by
  cases n <;> simp_all [toList]

theorem MinNode_spec (n : Node K V) (h : n ≠ Node.nil) :
    ∃ mk mv mc ml mr, MinNode n = Except.ok (Node.node mk mv mc ml mr) ∧
      ∃ rest, toList n = (mk, mv) :: rest := by
  induction n with
  | nil => exact absurd rfl h
  | node k v c l r ihl _ =>
    rcases l with _ | ⟨lk, lv, lc, ll, lr⟩
    · exact ⟨k, v, c, Node.nil, r, by simp [MinNode], toList r, by simp [toList]⟩
    · obtain ⟨mk, mv, mc, ml, mr, h1, rest, h2⟩ := ihl (by simp)
      refine ⟨mk, mv, mc, ml, mr, ?_, rest ++ (k, v) :: toList r, ?_⟩
      · simpa [MinNode] using h1
      · rw [toList, h2]; simp

theorem DeleteMin_spec (fuel : Nat) : ∀ (n : Node K V), Valid n → n ≠ Node.nil → n.size < fuel →
    ∃ t, DeleteMin fuel n = Except.ok t ∧ DelPost n t ∧ toList t = (toList n).tail := by
  induction fuel with
  | zero => intro n _ _ h; omega
  | succ fuel ih =>
    intro n hv hne hsz
    rcases n with _ | ⟨k, v, c, l, r⟩
    · exact absurd rfl hne
    by_cases hl : l = Node.nil
    · subst hl
      rcases r with _ | ⟨rk, rv, rc, rl, rr⟩
      · refine ⟨Node.nil, ?_, ?_, ?_⟩
        · simp [DeleteMin, Node.getLeft, Node.isNull, bind, Except.bind, pure, Except.pure]
        · cases c <;> simp [DelPost, Valid, paintB, rich, leftOf, rightOf, bhL]
        · simp [toList]
      · cases rc <;> simp [Valid, bhL] at hv
    · obtain ⟨b, k1, v1, c1, l1, r1, h1, h2, hv1, hr1, ⟨suf, hsuf⟩, hlist, hsize, hfix⟩ :=
        pushLeft_spec k v c l r hv hl
      have hl1 : l1 ≠ Node.nil := by
        intro h
        subst h
        simp [rich, leftOf, rightOf] at hr1
      have hsz1 : l1.size < fuel := by
        simp [Node.size] at hsz
        omega
      obtain ⟨t, ht1, ht2, ht3⟩ := ih l1 hv1 hl1 hsz1
      obtain ⟨t2, hf1, hf2, hf3⟩ := hfix t ht2
      refine ⟨t2, ?_, hf2, ?_⟩
      · have hnull : l.isNull = false := by cases l <;> simp_all [Node.isNull]
        cases b
        · simp only [Bool.false_eq_true, if_false, pure, Except.pure, Except.ok.injEq] at h2
          cases h2
          simp [DeleteMin, Node.getLeft, bind, Except.bind, hnull, h1, ht1, Node.setLeft, pure,
            Except.pure, hf1]
        · simp only [if_true] at h2
          simp [DeleteMin, Node.getLeft, bind, Except.bind, hnull, h1, h2, ht1, Node.setLeft, pure,
            Except.pure, hf1]
      · rw [hf3, ht3, toList, ← hlist]
        have := toList_ne_nil hl1
        cases hh : toList l1 with
        | nil => exact absurd hh this
        | cons a as => simp

/-! ### `Remove` on a subtree -/

theorem RemoveNode_right_unfold [LinearOrder K] (fuel : Nat) (key : K)
    (k : K) (v : List V) (c : Color) (l r : Node K V)
    (k0 : K) (v0 : List V) (c0 : Color) (l0 r0 : Node K V) (b : Bool)
    (k1 : K) (v1 : List V) (c1 : Color) (l1 r1 : Node K V)
    (hlt : ¬ key < k)
    (h0 : (if IsRed l = true then RotateRight (Node.node k v c l r) else pure (Node.node k v c l r))
        = Except.ok (Node.node k0 v0 c0 l0 r0))
    (hnull : r0.isNull = false)
    (hb : rightNotRed2 (Node.node k0 v0 c0 l0 r0) = Except.ok b)
    (h1 : (if b = true then MoveRedRight (Node.node k0 v0 c0 l0 r0)
        else pure (Node.node k0 v0 c0 l0 r0)) = Except.ok (Node.node k1 v1 c1 l1 r1)) :
    RemoveNode (fuel + 1) (Node.node k v c l r) key =
      (if key = k1 then
        (if v1.length > 1 then FixUp (Node.node k1 v1.tail c1 l1 r1)
         else do
          let n_min ← MinNode r1
          let mk ← n_min.getKey
          let mv ← n_min.getValue
          let r2 ← DeleteMin fuel r1
          FixUp (Node.node mk mv c1 l1 r2))
      else do
        let r2 ← RemoveNode fuel r1 key
        FixUp (Node.node k1 v1 c1 l1 r2)) := by
  cases hil : IsRed l <;> cases b <;>
    simp only [hil, Bool.false_eq_true, if_false, if_true, pure, Except.pure, Except.ok.injEq] at h0 h1
  · cases h0
    cases h1
    simp only [RemoveNode, hlt, hil, hnull, hb, Node.getLeft, Node.getRight, Node.getKey, Node.getValue,
      Node.setKey, Node.setValue, Node.setRight, bind, Except.bind, pure, Except.pure,
      if_false, if_true, Bool.false_eq_true, and_false]
    split_ifs <;> try rfl
    generalize MinNode _ = x
    rcases x with e | m
    · rfl
    · rcases m with _ | ⟨mk, mv, mc, ml, mr⟩
      · rfl
      · simp only []
        generalize DeleteMin _ _ = y
        cases y <;> rfl
  · cases h0
    simp only [RemoveNode, hlt, hil, hnull, hb, h1, Node.getLeft, Node.getRight, Node.getKey, Node.getValue,
      Node.setKey, Node.setValue, Node.setRight, bind, Except.bind, pure, Except.pure,
      if_false, if_true, Bool.false_eq_true, and_false]
    split_ifs <;> try rfl
    generalize MinNode _ = x
    rcases x with e | m
    · rfl
    · rcases m with _ | ⟨mk, mv, mc, ml, mr⟩
      · rfl
      · simp only []
        generalize DeleteMin _ _ = y
        cases y <;> rfl
  · cases h1
    simp only [RemoveNode, hlt, hil, hnull, hb, h0, Node.getLeft, Node.getRight, Node.getKey, Node.getValue,
      Node.setKey, Node.setValue, Node.setRight, bind, Except.bind, pure, Except.pure,
      if_false, if_true, Bool.false_eq_true, and_false]
    split_ifs <;> try rfl
    generalize MinNode _ = x
    rcases x with e | m
    · rfl
    · rcases m with _ | ⟨mk, mv, mc, ml, mr⟩
      · rfl
      · simp only []
        generalize DeleteMin _ _ = y
        cases y <;> rfl
  · simp only [RemoveNode, hlt, hil, hnull, hb, h0, h1, Node.getLeft, Node.getRight, Node.getKey, Node.getValue,
      Node.setKey, Node.setValue, Node.setRight, bind, Except.bind, pure, Except.pure,
      if_false, if_true, Bool.false_eq_true, and_false]
    split_ifs <;> try rfl
    generalize MinNode _ = x
    rcases x with e | m
    · rfl
    · rcases m with _ | ⟨mk, mv, mc, ml, mr⟩
      · rfl
      · simp only []
        generalize DeleteMin _ _ = y
        cases y <;> rfl

theorem remL_append_left [DecidableEq K] (a b : List (K × List V)) (key : K)
    (h : key ∈ a.map Prod.fst) : remL (a ++ b) key = remL a key ++ b := by
  induction a with
  | nil => simp at h
  | cons x xs ih =>
    obtain ⟨x1, x2⟩ := x
    by_cases hk : key = x1
    · subst hk
      by_cases hlen : x2.length > 1 <;> simp [remL, hlen]
    · have : key ∈ xs.map Prod.fst := by simpa [hk] using h
      simp [remL, hk, ih this]

theorem remL_append_right [DecidableEq K] (a b : List (K × List V)) (key : K)
    (h : key ∉ a.map Prod.fst) : remL (a ++ b) key = a ++ remL b key := by
  induction a with
  | nil => simp
  | cons x xs ih =>
    obtain ⟨x1, x2⟩ := x
    have h1 : key ≠ x1 := by
      intro hh
      exact h (by simp [hh])
    have h2 : key ∉ xs.map Prod.fst := by
      intro hh
      exact h (by simp at hh ⊢; exact Or.inr hh)
    simp [remL, h1, ih h2]

theorem RemoveNode_spec [LinearOrder K] (fuel : Nat) : ∀ (n : Node K V) (key : K),
    (Valid n ∨ (FrameC n ∧ rootLE n key)) →
    (inorderKeys n).Pairwise (· < ·) → key ∈ inorderKeys n → n.size < fuel →
    ∃ t, RemoveNode fuel n key = Except.ok t ∧ DelPost n t ∧ toList t = remL (toList n) key := by
  induction fuel with
  | zero => intro n _ _ _ _ h; omega
  | succ fuel ih =>
    intro n key hpre hs hmem hsz
    rcases n with _ | ⟨k, v, c, l, r⟩
    · simp [inorderKeys, toList] at hmem
    have hs' := hs
    simp only [inorderKeys, toList, List.map_append, List.map_cons, List.pairwise_append,
      List.pairwise_cons, List.mem_cons] at hs'
    obtain ⟨hsl, ⟨hkr, hsr⟩, hlr⟩ := hs'
    have hlk : ∀ a ∈ (toList l).map Prod.fst, a < k := fun a ha => hlr a ha k (Or.inl rfl)
    simp only [inorderKeys, toList, List.map_append, List.map_cons, List.mem_append,
      List.mem_cons] at hmem
    by_cases hlt : key < k
    · -- descend to the left
      have hv : Valid (Node.node k v c l r) := by
        rcases hpre with h | ⟨_, h⟩
        · exact h
        · exact absurd hlt h
      have hmeml : key ∈ (toList l).map Prod.fst := by
        rcases hmem with h | h | h
        · exact h
        · exact absurd hlt (by simp [h])
        · exact absurd hlt (not_lt.mpr (le_of_lt (hkr key h)))
      have hl : l ≠ Node.nil := by
        intro h
        subst h
        simp [toList] at hmeml
      obtain ⟨b, k1, v1, c1, l1, r1, h1, h2, hv1, hr1, ⟨suf, hsuf⟩, hlist, hsize, hfix⟩ :=
        pushLeft_spec k v c l r hv hl
      have hsz1 : l1.size < fuel := by
        simp [Node.size] at hsz
        omega
      have hs1 : (inorderKeys l1).Pairwise (· < ·) := by
        have h := hs
        simp only [inorderKeys, toList] at h
        rw [← hlist] at h
        simp only [List.map_append, List.pairwise_append] at h
        exact h.1
      have hmem1 : key ∈ inorderKeys l1 := by
        simp only [inorderKeys, hsuf, List.map_append, List.mem_append]
        exact Or.inl hmeml
      obtain ⟨t, ht1, ht2, ht3⟩ := ih l1 key (Or.inl hv1) hs1 hmem1 hsz1
      obtain ⟨t2, hf1, hf2, hf3⟩ := hfix t ht2
      refine ⟨t2, ?_, hf2, ?_⟩
      · cases b
        · simp only [Bool.false_eq_true, if_false, pure, Except.pure, Except.ok.injEq] at h2
          cases h2
          simp [RemoveNode, hlt, Node.getLeft, bind, Except.bind, h1, ht1, Node.setLeft, pure,
            Except.pure, hf1]
        · simp only [if_true] at h2
          simp [RemoveNode, hlt, Node.getLeft, bind, Except.bind, h1, h2, ht1, Node.setLeft, pure,
            Except.pure, hf1]
      · rw [hf3, ht3, toList, ← hlist]
        exact (remL_append_left _ _ key hmem1).symm
    · -- the key is at this node or to its right
      have hle : k ≤ key := not_lt.mp hlt
      have hnotl : key ∉ (toList l).map Prod.fst := fun h => absurd (hlk key h) (not_lt.mpr hle)
      rcases pushRight_spec k v c l r (hpre.elim Or.inl (fun h => Or.inr h.1)) with
        ⟨hl, hr, hp1, hp2⟩ |
        ⟨k0, v0, c0, l0, r0, b, k1, v1, c1, l1, r1, h0, hnull, hb, h1, hsize, hfix, hcase⟩
      · -- a node without children: the key is here
        subst hl
        subst hr
        have hk : key = k := by simpa [toList] using hmem
        subst hk
        by_cases hlen : v.length > 1
        · refine ⟨Node.node key v.tail c Node.nil Node.nil, ?_, hp2 _, ?_⟩
          · simp [RemoveNode, Node.getLeft, Node.getKey, Node.getRight, Node.isNull, Node.getValue,
              Node.setValue, hlen, bind, Except.bind, pure, Except.pure]
          · simp [toList, remL, hlen]
        · refine ⟨Node.nil, ?_, hp1, ?_⟩
          · simp [RemoveNode, Node.getLeft, Node.getKey, Node.getRight, Node.isNull, Node.getValue,
              Node.setValue, hlen, bind, Except.bind, pure, Except.pure]
          · simp [toList, remL, hlen]
      · have hstep := RemoveNode_right_unfold fuel key k v c l r k0 v0 c0 l0 r0 b k1 v1 c1 l1 r1
          hlt h0 hnull hb h1
        have hszr : r1.size < fuel := by
          simp [Node.size] at hsz
          omega
        rcases hcase with ⟨hk1, hv1, hl1, hr1, hvr1, hrich1, hne1, hfix2⟩ |
          ⟨rc, rl, rr, hr1, hrr, hll, hpre1⟩
        · -- the root stayed in place
          subst hk1
          subst hv1
          by_cases hk : key = k1
          · subst hk
            by_cases hlen : v1.length > 1
            · obtain ⟨t2, hf1, hf2, hf3⟩ := hfix2 key v1.tail r1 (DelPost_self hvr1)
              refine ⟨t2, ?_, hf2, ?_⟩
              · rw [hstep]
                simp [hlen, hf1]
              · rw [hf3, hl1, hr1, toList, remL_append_right _ _ _ hnotl]
                simp [remL, hlen]
            · obtain ⟨mk, mv, mc, ml, mr, hm1, rest, hm2⟩ := MinNode_spec r1 hne1
              obtain ⟨t, ht1, ht2, ht3⟩ := DeleteMin_spec fuel r1 hvr1 hne1 hszr
              obtain ⟨t2, hf1, hf2, hf3⟩ := hfix2 mk mv t ht2
              refine ⟨t2, ?_, hf2, ?_⟩
              · rw [hstep]
                simp [hlen, hm1, ht1, hf1, Node.getKey, Node.getValue, bind, Except.bind]
              · rw [hf3, ht3, hl1, toList, remL_append_right _ _ _ hnotl, ← hr1, hm2]
                simp [remL, hlen]
          · have hmemr : key ∈ inorderKeys r1 := by
              simp only [inorderKeys, hr1]
              rcases hmem with h | h | h
              · exact absurd h hnotl
              · exact absurd h hk
              · exact h
            have hsr1 : (inorderKeys r1).Pairwise (· < ·) := by
              simp only [inorderKeys, hr1]
              exact hsr
            obtain ⟨t, ht1, ht2, ht3⟩ := ih r1 key (Or.inl hvr1) hsr1 hmemr hszr
            obtain ⟨t2, hf1, hf2, hf3⟩ := hfix t ht2
            refine ⟨t2, ?_, hf2, ?_⟩
            · rw [hstep]
              simp [hk, ht1, hf1, bind, Except.bind]
            · rw [hf3, ht3, hl1, hr1, toList]
              have hnot : key ∉ (toList l ++ [(k1, v1)]).map Prod.fst := by
                simp only [List.map_append, List.mem_append, List.map_cons, List.map_nil,
                  List.mem_singleton, not_or]
                exact ⟨hnotl, hk⟩
              have := remL_append_right (toList l ++ [(k1, v1)]) (toList r) key hnot
              simpa using this.symm
        · -- the root was rotated to the right: the key is below the new root
          subst hr1
          have hk1l : k1 ∈ (toList l).map Prod.fst := by
            rw [← hll]
            simp
          have hk1 : k1 < k := hlk k1 hk1l
          have hk : key ≠ k1 := fun h => absurd (h ▸ hk1) hlt
          have hlist : toList (Node.node k v c l r) =
              (toList l1 ++ [(k1, v1)]) ++ toList (Node.node k v rc rl rr) := by
            simp [toList, ← hll, hrr]
          have hmemr : key ∈ inorderKeys (Node.node k v rc rl rr) := by
            simp only [inorderKeys, toList, hrr, List.map_append, List.map_cons, List.mem_append,
              List.mem_cons]
            rcases hmem with h | h | h
            · exact absurd h hnotl
            · exact Or.inr (Or.inl h)
            · exact Or.inr (Or.inr h)
          have hsr1 : (inorderKeys (Node.node k v rc rl rr)).Pairwise (· < ·) := by
            have h := hs
            simp only [inorderKeys] at h
            rw [hlist] at h
            simp only [List.map_append, List.pairwise_append] at h
            exact h.2.1
          have hp : Valid (Node.node k v rc rl rr) ∨
              (FrameC (Node.node k v rc rl rr) ∧ rootLE (Node.node k v rc rl rr) key) := by
            rcases hpre1 with h | h
            · exact Or.inl h.1
            · exact Or.inr ⟨h, hlt⟩
          obtain ⟨t, ht1, ht2, ht3⟩ := ih (Node.node k v rc rl rr) key hp hsr1 hmemr hszr
          obtain ⟨t2, hf1, hf2, hf3⟩ := hfix t ht2
          refine ⟨t2, ?_, hf2, ?_⟩
          · rw [hstep]
            simp [hk, ht1, hf1, bind, Except.bind]
          · rw [hf3, ht3, hlist]
            have hnot : key ∉ (toList l1 ++ [(k1, v1)]).map Prod.fst := by
              intro h
              have h2 : key ∈ (toList l).map Prod.fst := by
                rw [← hll]
                simp only [List.map_append, List.mem_append, List.map_cons, List.map_nil,
                  List.mem_singleton, List.mem_cons] at h ⊢
                rcases h with h | h | h
                · exact Or.inl h
                · exact Or.inr (Or.inl h)
                · simp at h
              exact hnotl h2
            have := remL_append_right (toList l1 ++ [(k1, v1)]) (toList (Node.node k v rc rl rr)) key hnot
            simpa using this.symm

/-! ### The recursion bound

The fuel argument of `RemoveNode` and `DeleteMin` is an artefact of the embedding. On
every tree, valid or not, a bound above the number of nodes is never used up, and any
larger bound gives the same result (`RemoveNode_fuel_add`, `DeleteMin_fuel_add`); the
public `Remove` never reports `Fault.outOfFuel` (`Remove_noFuel`). -/

theorem FixUp_noFuel (n : Node K V) : FixUp n ≠ Except.error Fault.outOfFuel := by
  rcases n with _ | ⟨k, v, c, l, r⟩
  · simp [FixUp, Node.getRight, bind, Except.bind]
  rcases l with _ | ⟨lk, lv, lc, ll, lr⟩ <;> rcases r with _ | ⟨rk, rv, rc, rl, rr⟩ <;>
    (try cases lc) <;> (try cases rc) <;>
    (try rcases ll with _ | ⟨llk, llv, llc, lll, llr⟩) <;> (try cases llc) <;>
    simp [FixUp, Node.getLeft, Node.getRight, bind, Except.bind, pure, Except.pure,
      RotateLeft, RotateRight, FlipColors, Node.toggle, Node.setLeft, Node.setRight] <;>
    (rcases rr with _ | ⟨rrk, rrv, rrc, rrl, rrr⟩ <;> (try cases rrc) <;> simp)

theorem leftNotRed2_noFuel (n : Node K V) : leftNotRed2 n ≠ Except.error Fault.outOfFuel := by
  rcases n with _ | ⟨k, v, c, l, r⟩
  · simp [leftNotRed2, Node.getLeft, bind, Except.bind]
  rcases l with _ | ⟨lk, lv, lc, ll, lr⟩ <;> (try cases lc) <;>
    simp [leftNotRed2, Node.getLeft, bind, Except.bind, pure, Except.pure]

theorem rightNotRed2_noFuel (n : Node K V) : rightNotRed2 n ≠ Except.error Fault.outOfFuel := by
  rcases n with _ | ⟨k, v, c, l, r⟩
  · simp [rightNotRed2, Node.getRight, bind, Except.bind]
  rcases r with _ | ⟨rk, rv, rc, rl, rr⟩ <;> (try cases rc) <;>
    simp [rightNotRed2, Node.getLeft, Node.getRight, bind, Except.bind, pure, Except.pure]

theorem RotateRight_size (n n1 : Node K V) (h : RotateRight n = Except.ok n1) :
    n1.size = n.size := by
  rcases n with _ | ⟨k, v, c, l, r⟩
  · simp [RotateRight] at h
  rcases l with _ | ⟨lk, lv, lc, ll, lr⟩
  · simp [RotateRight] at h
  simp only [RotateRight, Except.ok.injEq] at h
  subst h
  simp [Node.size]
  omega

theorem RotateRight_noFuel (n : Node K V) : RotateRight n ≠ Except.error Fault.outOfFuel := by
  rcases n with _ | ⟨k, v, c, l, r⟩
  · simp [RotateRight]
  rcases l with _ | ⟨lk, lv, lc, ll, lr⟩ <;> simp [RotateRight]

theorem MoveRedLeft_noFuel (n : Node K V) : MoveRedLeft n ≠ Except.error Fault.outOfFuel := by
  rcases n with _ | ⟨k, v, c, l, r⟩
  · simp [MoveRedLeft, FlipColors, Node.toggle, bind, Except.bind]
  rcases l with _ | ⟨lk, lv, lc, ll, lr⟩ <;> rcases r with _ | ⟨rk, rv, rc, rl, rr⟩ <;>
    (try rcases rl with _ | ⟨rlk, rlv, rlc, rll, rlr⟩) <;> (try cases rlc) <;>
    simp [MoveRedLeft, FlipColors, Node.toggle, Node.getLeft, Node.getRight, Node.setLeft,
      Node.setRight, bind, Except.bind, pure, Except.pure, RotateLeft, RotateRight]

theorem MoveRedRight_noFuel (n : Node K V) : MoveRedRight n ≠ Except.error Fault.outOfFuel := by
  rcases n with _ | ⟨k, v, c, l, r⟩
  · simp [MoveRedRight, FlipColors, Node.toggle, bind, Except.bind]
  rcases l with _ | ⟨lk, lv, lc, ll, lr⟩ <;> rcases r with _ | ⟨rk, rv, rc, rl, rr⟩ <;>
    (try rcases ll with _ | ⟨llk, llv, llc, lll, llr⟩) <;> (try cases llc) <;>
    simp [MoveRedRight, FlipColors, Node.toggle, Node.getLeft, Node.getRight, Node.setLeft,
      Node.setRight, bind, Except.bind, pure, Except.pure, RotateLeft, RotateRight]

theorem MoveRedLeft_size (n n1 : Node K V) (h : MoveRedLeft n = Except.ok n1) :
    n1.size = n.size := by
  rcases n with _ | ⟨k, v, c, l, r⟩
  · simp [MoveRedLeft, FlipColors, Node.toggle, bind, Except.bind] at h
  rcases l with _ | ⟨lk, lv, lc, ll, lr⟩ <;> rcases r with _ | ⟨rk, rv, rc, rl, rr⟩ <;>
    (try rcases rl with _ | ⟨rlk, rlv, rlc, rll, rlr⟩) <;> (try cases rlc) <;>
    simp [MoveRedLeft, FlipColors, Node.toggle, Node.getLeft, Node.getRight, Node.setLeft,
      Node.setRight, bind, Except.bind, pure, Except.pure, RotateLeft, RotateRight] at h <;>
    subst h <;> simp [Node.size] <;> omega

theorem MoveRedRight_size (n n1 : Node K V) (h : MoveRedRight n = Except.ok n1) :
    n1.size = n.size := by
  rcases n with _ | ⟨k, v, c, l, r⟩
  · simp [MoveRedRight, FlipColors, Node.toggle, bind, Except.bind] at h
  rcases l with _ | ⟨lk, lv, lc, ll, lr⟩ <;> rcases r with _ | ⟨rk, rv, rc, rl, rr⟩ <;>
    (try rcases ll with _ | ⟨llk, llv, llc, lll, llr⟩) <;> (try cases llc) <;>
    simp [MoveRedRight, FlipColors, Node.toggle, Node.getLeft, Node.getRight, Node.setLeft,
      Node.setRight, bind, Except.bind, pure, Except.pure, RotateLeft, RotateRight] at h <;>
    subst h <;> simp [Node.size] <;> omega

theorem MinNode_noFuel (n : Node K V) : MinNode n ≠ Except.error Fault.outOfFuel := by
  induction n with
  | nil => simp [MinNode]
  | node k v c l r ihl _ =>
    rcases l with _ | ⟨lk, lv, lc, ll, lr⟩
    · simp [MinNode]
    · simpa [MinNode] using ihl

theorem DeleteMin_fuel (fuel : Nat) : ∀ (n : Node K V), n.size < fuel →
    DeleteMin fuel n ≠ Except.error Fault.outOfFuel ∧ DeleteMin (fuel + 1) n = DeleteMin fuel n := by
  induction fuel with
  | zero => intro n h; omega
  | succ fuel ih =>
    intro n hsz
    rcases n with _ | ⟨k, v, c, l, r⟩
    · simp [DeleteMin, Node.getLeft, bind, Except.bind]
    rw [DeleteMin, DeleteMin]
    cases hl : l.isNull
    swap
    · simp [Node.getLeft, hl, bind, Except.bind, pure, Except.pure]
    have h1' := leftNotRed2_noFuel (Node.node k v c l r)
    cases h1 : leftNotRed2 (Node.node k v c l r) with
    | error e =>
      rw [h1] at h1'
      simp [Node.getLeft, hl, h1, bind, Except.bind, pure, Except.pure]
      exact fun he => h1' (by rw [he])
    | ok b =>
      cases b
      · have hszl : l.size < fuel := by
          simp [Node.size] at hsz
          omega
        obtain ⟨i1, i2⟩ := ih l hszl
        cases h3 : DeleteMin fuel l with
        | error e =>
          rw [h3] at i1
          simp [Node.getLeft, Node.setLeft, hl, h1, h3, i2, bind, Except.bind, pure, Except.pure]
          exact fun he => i1 (by rw [he])
        | ok t =>
          simp [Node.getLeft, Node.setLeft, hl, h1, h3, i2, bind, Except.bind, pure, Except.pure]
          exact FixUp_noFuel _
      · have h2' := MoveRedLeft_noFuel (Node.node k v c l r)
        cases h2 : MoveRedLeft (Node.node k v c l r) with
        | error e =>
          rw [h2] at h2'
          simp [Node.getLeft, hl, h1, h2, bind, Except.bind, pure, Except.pure]
          exact fun he => h2' (by rw [he])
        | ok n1 =>
          have hs1 := MoveRedLeft_size _ _ h2
          rcases n1 with _ | ⟨k1, v1, c1, l1, r1⟩
          · simp [Node.getLeft, hl, h1, h2, bind, Except.bind, pure, Except.pure]
          have hszl : l1.size < fuel := by
            simp [Node.size] at hsz hs1
            omega
          obtain ⟨i1, i2⟩ := ih l1 hszl
          cases h3 : DeleteMin fuel l1 with
          | error e =>
            rw [h3] at i1
            simp [Node.getLeft, Node.setLeft, hl, h1, h2, h3, i2, bind, Except.bind, pure,
              Except.pure]
            exact fun he => i1 (by rw [he])
          | ok t =>
            simp [Node.getLeft, Node.setLeft, hl, h1, h2, h3, i2, bind, Except.bind, pure,
              Except.pure]
            exact FixUp_noFuel _

theorem RemoveNode_left_fuel [LinearOrder K] (fuel : Nat) (key k : K) (v : List V) (c : Color)
    (l r : Node K V) (hlt : key < k)
    (ih : ∀ (n : Node K V), n.size < fuel →
      RemoveNode fuel n key ≠ Except.error Fault.outOfFuel ∧
        RemoveNode (fuel + 1) n key = RemoveNode fuel n key)
    (hsz : (Node.node k v c l r).size < fuel + 1) :
    RemoveNode (fuel + 1) (Node.node k v c l r) key ≠ Except.error Fault.outOfFuel ∧
      RemoveNode (fuel + 1 + 1) (Node.node k v c l r) key =
        RemoveNode (fuel + 1) (Node.node k v c l r) key := by
  rw [RemoveNode, RemoveNode]
  have h1' := leftNotRed2_noFuel (Node.node k v c l r)
  cases h1 : leftNotRed2 (Node.node k v c l r) with
  | error e =>
    rw [h1] at h1'
    simp [hlt, h1, bind, Except.bind, pure, Except.pure]
    exact fun he => h1' (by rw [he])
  | ok b =>
    cases b
    · have hszl : l.size < fuel := by
        simp [Node.size] at hsz
        omega
      obtain ⟨i1, i2⟩ := ih l hszl
      cases h3 : RemoveNode fuel l key with
      | error e =>
        rw [h3] at i1
        simp [hlt, Node.getLeft, Node.setLeft, h1, h3, i2, bind, Except.bind, pure, Except.pure]
        exact fun he => i1 (by rw [he])
      | ok t =>
        simp [hlt, Node.getLeft, Node.setLeft, h1, h3, i2, bind, Except.bind, pure, Except.pure]
        exact FixUp_noFuel _
    · have h2' := MoveRedLeft_noFuel (Node.node k v c l r)
      cases h2 : MoveRedLeft (Node.node k v c l r) with
      | error e =>
        rw [h2] at h2'
        simp [hlt, h1, h2, bind, Except.bind, pure, Except.pure]
        exact fun he => h2' (by rw [he])
      | ok n1 =>
        have hs1 := MoveRedLeft_size _ _ h2
        rcases n1 with _ | ⟨k1, v1, c1, l1, r1⟩
        · simp [hlt, Node.getLeft, h1, h2, bind, Except.bind, pure, Except.pure]
        have hszl : l1.size < fuel := by
          simp [Node.size] at hsz hs1
          omega
        obtain ⟨i1, i2⟩ := ih l1 hszl
        cases h3 : RemoveNode fuel l1 key with
        | error e =>
          rw [h3] at i1
          simp [hlt, Node.getLeft, Node.setLeft, h1, h2, h3, i2, bind, Except.bind, pure,
            Except.pure]
          exact fun he => i1 (by rw [he])
        | ok t =>
          simp [hlt, Node.getLeft, Node.setLeft, h1, h2, h3, i2, bind, Except.bind, pure,
            Except.pure]
          exact FixUp_noFuel _

theorem RemoveNode_right_cases [LinearOrder K] (key k : K) (v : List V) (c : Color)
    (l r : Node K V) (hlt : ¬ key < k) :
    (∃ x, x ≠ Except.error Fault.outOfFuel ∧
        ∀ fuel, RemoveNode (fuel + 1) (Node.node k v c l r) key = x) ∨
    (∃ k1 v1 c1 l1 r1, l1.size + r1.size = l.size + r.size ∧
        ∀ fuel, RemoveNode (fuel + 1) (Node.node k v c l r) key =
          (if key = k1 then
            (if v1.length > 1 then FixUp (Node.node k1 v1.tail c1 l1 r1)
             else do
              let n_min ← MinNode r1
              let mk ← n_min.getKey
              let mv ← n_min.getValue
              let r2 ← DeleteMin fuel r1
              FixUp (Node.node mk mv c1 l1 r2))
          else do
            let r2 ← RemoveNode fuel r1 key
            FixUp (Node.node k1 v1 c1 l1 r2))) := by
  -- the optional `RotateRight`
  have hX : ∃ x, (if IsRed l = true then RotateRight (Node.node k v c l r)
      else pure (Node.node k v c l r)) = x := ⟨_, rfl⟩
  obtain ⟨x, hx⟩ := hX
  rcases x with e | n0
  · left
    have he : e ≠ Fault.outOfFuel := by
      cases hil : IsRed l <;> simp [hil, pure, Except.pure] at hx
      intro h
      exact RotateRight_noFuel _ (by rw [hx, h])
    refine ⟨Except.error e, fun h => he (by cases h; rfl), fun fuel => ?_⟩
    cases hil : IsRed l <;> simp [hil, pure, Except.pure] at hx
    simp [RemoveNode, hlt, Node.getLeft, hil, hx, bind, Except.bind]
  have hs0 : n0.size = (Node.node k v c l r).size := by
    cases hil : IsRed l <;> simp only [hil, Bool.false_eq_true, if_false, if_true, pure,
      Except.pure, Except.ok.injEq] at hx
    · rw [← hx]
    · exact RotateRight_size _ _ hx
  rcases n0 with _ | ⟨k0, v0, c0, l0, r0⟩
  · simp [Node.size] at hs0
  cases hnull : r0.isNull
  swap
  · -- no right child: the value is popped, the node is taken out, or the key is missing
    left
    rcases r0 with _ | ⟨rk, rv, rc, rl, rr⟩
    swap
    · simp [Node.isNull] at hnull
    by_cases hk : key = k0
    · subst hk
      by_cases hlen : v0.length > 1
      · refine ⟨Except.ok (Node.node key v0.tail c0 l0 Node.nil), by simp, fun fuel => ?_⟩
        cases hil : IsRed l <;> simp only [hil, Bool.false_eq_true, if_false, if_true, pure,
          Except.pure, Except.ok.injEq] at hx
        · cases hx
          simp [RemoveNode, hlt, Node.getLeft, Node.getKey, Node.getRight, Node.getValue, Node.setValue, Node.isNull, hil, hlen, bind, Except.bind, pure, Except.pure]
        · simp [RemoveNode, hlt, Node.getLeft, Node.getKey, Node.getRight, Node.getValue, Node.setValue, Node.isNull, hil, hx, hlen, bind, Except.bind, pure, Except.pure]
      · refine ⟨Except.ok Node.nil, by simp, fun fuel => ?_⟩
        cases hil : IsRed l <;> simp only [hil, Bool.false_eq_true, if_false, if_true, pure,
          Except.pure, Except.ok.injEq] at hx
        · cases hx
          simp [RemoveNode, hlt, Node.getLeft, Node.getKey, Node.getRight, Node.getValue, Node.setValue, Node.isNull, hil, hlen, bind, Except.bind, pure, Except.pure]
        · simp [RemoveNode, hlt, Node.getLeft, Node.getKey, Node.getRight, Node.getValue, Node.setValue, Node.isNull, hil, hx, hlen, bind, Except.bind, pure, Except.pure]
    · refine ⟨Except.error Fault.nullDeref, by simp, fun fuel => ?_⟩
      cases hil : IsRed l <;> simp only [hil, Bool.false_eq_true, if_false, if_true, pure,
        Except.pure, Except.ok.injEq] at hx
      · cases hx
        simp [RemoveNode, hlt, Node.getLeft, Node.getKey, Node.getRight, Node.getValue, Node.setValue, Node.isNull, hil, hk, rightNotRed2, bind, Except.bind, pure, Except.pure]
      · simp [RemoveNode, hlt, Node.getLeft, Node.getKey, Node.getRight, Node.getValue, Node.setValue, Node.isNull, hil, hx, hk, rightNotRed2, bind, Except.bind, pure, Except.pure]
  -- the guard and the optional `MoveRedRight`
  cases hb : rightNotRed2 (Node.node k0 v0 c0 l0 r0) with
  | error e =>
    left
    have he : e ≠ Fault.outOfFuel := by
      intro h
      exact rightNotRed2_noFuel _ (by rw [hb, h])
    refine ⟨Except.error e, fun h => he (by cases h; rfl), fun fuel => ?_⟩
    cases hil : IsRed l <;> simp only [hil, Bool.false_eq_true, if_false, if_true, pure,
      Except.pure, Except.ok.injEq] at hx
    · cases hx
      simp [RemoveNode, hlt, Node.getLeft, Node.getKey, Node.getRight, hil, hnull, hb, bind, Except.bind, pure, Except.pure]
    · simp [RemoveNode, hlt, Node.getLeft, Node.getKey, Node.getRight, hil, hx, hnull, hb, bind, Except.bind, pure, Except.pure]
  | ok b =>
    have hY : ∃ y, (if b = true then MoveRedRight (Node.node k0 v0 c0 l0 r0)
        else pure (Node.node k0 v0 c0 l0 r0)) = y := ⟨_, rfl⟩
    obtain ⟨y, hy⟩ := hY
    rcases y with e | n1
    · left
      have he : e ≠ Fault.outOfFuel := by
        cases b <;> simp [pure, Except.pure] at hy
        intro h
        exact MoveRedRight_noFuel _ (by rw [hy, h])
      refine ⟨Except.error e, fun h => he (by cases h; rfl), fun fuel => ?_⟩
      cases b <;> simp [pure, Except.pure] at hy
      cases hil : IsRed l <;> simp only [hil, Bool.false_eq_true, if_false, if_true, pure,
        Except.pure, Except.ok.injEq] at hx
      · cases hx
        simp [RemoveNode, hlt, Node.getLeft, Node.getKey, Node.getRight, hil, hnull, hb, hy, bind, Except.bind, pure, Except.pure]
      · simp [RemoveNode, hlt, Node.getLeft, Node.getKey, Node.getRight, hil, hx, hnull, hb, hy, bind, Except.bind, pure, Except.pure]
    have hs1 : n1.size = (Node.node k0 v0 c0 l0 r0).size := by
      cases b <;> simp [pure, Except.pure] at hy
      · rw [← hy]
      · exact MoveRedRight_size _ _ hy
    rcases n1 with _ | ⟨k1, v1, c1, l1, r1⟩
    · simp [Node.size] at hs1
    right
    refine ⟨k1, v1, c1, l1, r1, ?_, fun fuel => ?_⟩
    · simp [Node.size] at hs0 hs1
      omega
    · exact RemoveNode_right_unfold fuel key k v c l r k0 v0 c0 l0 r0 b k1 v1 c1 l1 r1
        hlt hx hnull hb hy

theorem RemoveNode_fuel [LinearOrder K] (key : K) (fuel : Nat) : ∀ (n : Node K V),
    n.size < fuel →
    RemoveNode fuel n key ≠ Except.error Fault.outOfFuel ∧
      RemoveNode (fuel + 1) n key = RemoveNode fuel n key := by
  induction fuel with
  | zero => intro n h; omega
  | succ fuel ih =>
    intro n hsz
    rcases n with _ | ⟨k, v, c, l, r⟩
    · simp [RemoveNode, pure, Except.pure]
    by_cases hlt : key < k
    · exact RemoveNode_left_fuel fuel key k v c l r hlt ih hsz
    · rcases RemoveNode_right_cases key k v c l r hlt with ⟨x, hx1, hx2⟩ |
        ⟨k1, v1, c1, l1, r1, hs, hstep⟩
      · rw [hx2 (fuel + 1), hx2 fuel]
        exact ⟨hx1, rfl⟩
      · have hszr : r1.size < fuel := by
          simp [Node.size] at hsz
          omega
        rw [hstep (fuel + 1), hstep fuel]
        by_cases hk : key = k1
        · by_cases hlen : v1.length > 1
          · simp only [hk, hlen, if_true]
            exact ⟨FixUp_noFuel _, trivial⟩
          · obtain ⟨d1, d2⟩ := DeleteMin_fuel fuel r1 hszr
            have hm := MinNode_noFuel r1
            simp only [hk, hlen, if_true, if_false, d2]
            refine ⟨?_, trivial⟩
            cases hmin : MinNode r1 with
            | error e =>
              rw [hmin] at hm
              simp only [bind, Except.bind]
              exact hm
            | ok m =>
              rcases m with _ | ⟨mk, mv, mc, ml, mr⟩
              · simp [Node.getKey, bind, Except.bind]
              · cases hd : DeleteMin fuel r1 with
                | error e =>
                  rw [hd] at d1
                  simp only [Node.getKey, Node.getValue, bind, Except.bind]
                  exact d1
                | ok t =>
                  simp only [Node.getKey, Node.getValue, bind, Except.bind]
                  exact FixUp_noFuel _
        · obtain ⟨i1, i2⟩ := ih r1 hszr
          simp only [hk, if_false, i2]
          refine ⟨?_, trivial⟩
          cases hd : RemoveNode fuel r1 key with
          | error e =>
            rw [hd] at i1
            simp only [bind, Except.bind]
            exact i1
          | ok t =>
            simp only [bind, Except.bind]
            exact FixUp_noFuel _

theorem RemoveNode_fuel_add [LinearOrder K] (key : K) (n : Node K V) (fuel d : Nat)
    (h : n.size < fuel) : RemoveNode (fuel + d) n key = RemoveNode fuel n key := by
  induction d with
  | zero => rfl
  | succ d ih =>
    rw [← Nat.add_assoc, (RemoveNode_fuel key (fuel + d) n (by omega)).2, ih]

theorem DeleteMin_fuel_add (n : Node K V) (fuel d : Nat)
    (h : n.size < fuel) : DeleteMin (fuel + d) n = DeleteMin fuel n := by
  induction d with
  | zero => rfl
  | succ d ih =>
    rw [← Nat.add_assoc, (DeleteMin_fuel (fuel + d) n (by omega)).2, ih]

theorem Remove_noFuel [LinearOrder K] (m : Multimap K V) (key : K) :
    Remove m key ≠ Except.error Fault.outOfFuel := by
  have h := (RemoveNode_fuel key (m.root.size + 1) m.root (Nat.lt_succ_self _)).1
  cases hc : Contains m key
  · simp [Remove, hc, pure, Except.pure]
  · cases hr : RemoveNode (m.root.size + 1) m.root key with
    | error e =>
      rw [hr] at h
      simp only [Remove, hc, hr, bind, Except.bind]
      simpa using h
    | ok t =>
      cases t <;>
        simp [Remove, hc, hr, Node.isNull, Node.setColor, bind, Except.bind, pure, Except.pure]

/-! ### `FixUp` after `Insert`, and `Insert` on a subtree -/

theorem FixUp_black_spec (k : K) (v : List V) (l r : Node K V)
    (hl : Valid (paintB l)) (hr : Valid r) (hb : bhL l = bhL r)
    (hlr : IsRed r = true → Valid l) :
    ∃ t, FixUp (Node.node k v Color.BLACK l r) = Except.ok t ∧ Valid t ∧ t ≠ Node.nil ∧
      bhL t = bhL l + 1 ∧ toList t = toList l ++ (k, v) :: toList r := by
  rcases l with _ | ⟨lk, lv, lc, ll, lr⟩ <;> rcases r with _ | ⟨rk, rv, rc, rl, rr⟩ <;>
    (try cases lc) <;> (try cases rc) <;>
    (try rcases ll with _ | ⟨llk, llv, llc, lll, llr⟩) <;> (try cases llc) <;>
    simp_all [Valid, paintB, bhL, toList, FixUp, Node.getLeft, Node.getRight, bind, Except.bind,
      pure, Except.pure, Color.flip, RotateLeft, RotateRight, FlipColors, Node.toggle,
      Node.setLeft, Node.setRight] <;> omega

theorem FixUp_red_spec (k : K) (v : List V) (l r : Node K V)
    (hl : Valid l) (hr : Valid r) (hb : bhL l = bhL r)
    (hlr : IsRed l = false ∨ IsRed r = false) :
    ∃ t, FixUp (Node.node k v Color.RED l r) = Except.ok t ∧ Valid (paintB t) ∧ t ≠ Node.nil ∧
      bhL t = bhL l ∧ toList t = toList l ++ (k, v) :: toList r ∧
      (IsRed l = false → IsRed r = false → Valid t) := by
  rcases l with _ | ⟨lk, lv, lc, ll, lr⟩ <;> rcases r with _ | ⟨rk, rv, rc, rl, rr⟩ <;>
    (try cases lc) <;> (try cases rc) <;>
    simp_all [Valid, paintB, bhL, toList, FixUp, Node.getLeft, Node.getRight, bind, Except.bind,
      pure, Except.pure, Color.flip, RotateLeft, RotateRight, FlipColors, Node.toggle,
      Node.setLeft, Node.setRight] <;> omega

theorem insL_append_left [LinearOrder K] (a b : List (K × List V)) (x : K × List V) (k : K) (v : V)
    (h : k < x.1) : insL (a ++ x :: b) k v = insL a k v ++ x :: b := by
  induction a with
  | nil =>
    obtain ⟨x1, x2⟩ := x
    simp_all [insL]
  | cons y ys ih =>
    obtain ⟨y1, y2⟩ := y
    by_cases h1 : k < y1
    · simp [insL, h1]
    · by_cases h2 : k = y1
      · simp [insL, h1, h2]
      · simp [insL, h1, h2, ih]

theorem insL_append_right [LinearOrder K] (a b : List (K × List V)) (k : K) (v : V)
    (h : ∀ y ∈ a.map Prod.fst, y < k) : insL (a ++ b) k v = a ++ insL b k v := by
  induction a with
  | nil => simp
  | cons y ys ih =>
    obtain ⟨y1, y2⟩ := y
    have h1 : y1 < k := h y1 (by simp)
    have h2 : ¬ k < y1 := not_lt.mpr (le_of_lt h1)
    have h3 : k ≠ y1 := ne_of_gt h1
    have h4 : ∀ y ∈ ys.map Prod.fst, y < k := fun y hy => h y (by simp at hy ⊢; exact Or.inr hy)
    simp [insL, h2, h3, ih h4]

theorem InsertNode_spec [LinearOrder K] (key : K) (value : V) : ∀ (n : Node K V),
    Valid n → (inorderKeys n).Pairwise (· < ·) →
    ∃ t, InsertNode n key value = Except.ok t ∧ t ≠ Node.nil ∧ bhL t = bhL n ∧
      Valid (paintB t) ∧ (IsRed n = false → Valid t) ∧
      toList t = insL (toList n) key value := by
  intro n
  induction n with
  | nil =>
    intro _ _
    refine ⟨Node.node key [value] Color.RED Node.nil Node.nil, ?_, by simp, ?_, ?_, ?_, ?_⟩ <;>
      simp [InsertNode, FixUp, Node.getLeft, Node.getRight, bind, Except.bind, pure, Except.pure,
        bhL, Valid, paintB, toList, insL]
  | node k v c l r ihl ihr =>
    intro hv hs
    have hs' := hs
    simp only [inorderKeys, toList, List.map_append, List.map_cons, List.pairwise_append,
      List.pairwise_cons, List.mem_cons] at hs'
    obtain ⟨hsl, ⟨hkr, hsr⟩, hlr⟩ := hs'
    have hlk : ∀ a ∈ (toList l).map Prod.fst, a < k := fun a ha => hlr a ha k (Or.inl rfl)
    have hv' := hv
    simp only [Valid] at hv'
    obtain ⟨hvl, hvr, hb, hrr, hcl⟩ := hv'
    by_cases hlt : key < k
    · obtain ⟨t, ht1, ht2, ht3, ht4, ht5, ht6⟩ := ihl hvl hsl
      have hlist : insL (toList (Node.node k v c l r)) key value =
          insL (toList l) key value ++ (k, v) :: toList r := by
        rw [toList]
        exact insL_append_left _ _ (k, v) key value hlt
      cases c
      · have hil : IsRed l = false := hcl rfl
        obtain ⟨t2, hf1, hf2, hf3, hf4, hf5, _⟩ := FixUp_red_spec k v t r (ht5 hil) hvr
          (by rw [ht3]; exact hb) (Or.inr hrr)
        refine ⟨t2, ?_, hf3, ?_, hf2, by simp, ?_⟩
        · simp [InsertNode, hlt, ht1, hf1, bind, Except.bind]
        · rw [hf4, ht3]; simp [bhL]
        · rw [hf5, ht6, hlist]
      · obtain ⟨t2, hf1, hf2, hf3, hf4, hf5⟩ := FixUp_black_spec k v t r ht4 hvr
          (by rw [ht3]; exact hb) (by simp [hrr])
        refine ⟨t2, ?_, hf3, ?_, Valid_paintB hf2, fun _ => hf2, ?_⟩
        · simp [InsertNode, hlt, ht1, hf1, bind, Except.bind]
        · rw [hf4, ht3]; simp [bhL]
        · rw [hf5, ht6, hlist]
    · by_cases hgt : key > k
      · obtain ⟨t, ht1, ht2, ht3, ht4, ht5, ht6⟩ := ihr hvr hsr
        have hlist : insL (toList (Node.node k v c l r)) key value =
            toList l ++ (k, v) :: insL (toList r) key value := by
          have h1 : ∀ y ∈ (toList l ++ [(k, v)]).map Prod.fst, y < key := by
            intro y hy
            simp only [List.map_append, List.mem_append, List.map_cons, List.map_nil,
              List.mem_singleton] at hy
            rcases hy with h | h
            · exact lt_trans (hlk y h) hgt
            · rw [h]; exact hgt
          have := insL_append_right (toList l ++ [(k, v)]) (toList r) key value h1
          simpa [toList] using this
        cases c
        · have hil : IsRed l = false := hcl rfl
          obtain ⟨t2, hf1, hf2, hf3, hf4, hf5, _⟩ := FixUp_red_spec k v l t hvl (ht5 hrr)
            (by rw [ht3]; exact hb) (Or.inl hil)
          refine ⟨t2, ?_, hf3, ?_, hf2, by simp, ?_⟩
          · simp [InsertNode, hlt, hgt, ht1, hf1, bind, Except.bind]
          · rw [hf4]; simp [bhL]
          · rw [hf5, ht6, hlist]
        · obtain ⟨t2, hf1, hf2, hf3, hf4, hf5⟩ := FixUp_black_spec k v l t (Valid_paintB hvl)
            (ht5 hrr) (by rw [ht3]; exact hb) (fun _ => hvl)
          refine ⟨t2, ?_, hf3, ?_, Valid_paintB hf2, fun _ => hf2, ?_⟩
          · simp [InsertNode, hlt, hgt, ht1, hf1, bind, Except.bind]
          · rw [hf4]; simp [bhL]
          · rw [hf5, ht6, hlist]
      · have heq : key = k := le_antisymm (not_lt.mp hgt) (not_lt.mp hlt)
        subst heq
        have hlist : insL (toList (Node.node key v c l r)) key value =
            toList l ++ (key, v ++ [value]) :: toList r := by
          have := insL_append_right (toList l) ((key, v) :: toList r) key value hlk
          simpa [toList, insL] using this
        cases c
        · have hil : IsRed l = false := hcl rfl
          obtain ⟨t2, hf1, hf2, hf3, hf4, hf5, _⟩ := FixUp_red_spec key (v ++ [value]) l r hvl hvr
            hb (Or.inl hil)
          refine ⟨t2, ?_, hf3, ?_, hf2, by simp, ?_⟩
          · simp [InsertNode, hf1]
          · rw [hf4]; simp [bhL]
          · rw [hf5, hlist]
        · obtain ⟨t2, hf1, hf2, hf3, hf4, hf5⟩ := FixUp_black_spec key (v ++ [value]) l r
            (Valid_paintB hvl) hvr hb (fun _ => hvl)
          refine ⟨t2, ?_, hf3, ?_, Valid_paintB hf2, fun _ => hf2, ?_⟩
          · simp [InsertNode, hf1]
          · rw [hf4]; simp [bhL]
          · rw [hf5, hlist]

/-! ### The sequence model -/

theorem mem_keys_insL [LinearOrder K] (s : List (K × List V)) (k : K) (v : V) (y : K) :
    y ∈ (insL s k v).map Prod.fst ↔ y = k ∨ y ∈ s.map Prod.fst := by
  induction s with
  | nil => simp [insL]
  | cons x xs ih =>
    obtain ⟨x1, x2⟩ := x
    by_cases h1 : k < x1
    · simp [insL, h1]
    · by_cases h2 : k = x1
      · subst h2
        simp [insL]
      · simp only [insL, h1, h2, if_false, List.map_cons, List.mem_cons, ih]
        tauto

theorem sorted_insL [LinearOrder K] (s : List (K × List V)) (k : K) (v : V)
    (h : (s.map Prod.fst).Pairwise (· < ·)) : ((insL s k v).map Prod.fst).Pairwise (· < ·) := by
  induction s with
  | nil => simp [insL]
  | cons x xs ih =>
    obtain ⟨x1, x2⟩ := x
    simp only [List.map_cons, List.pairwise_cons] at h
    by_cases h1 : k < x1
    · simp only [insL, h1, if_true, List.map_cons, List.pairwise_cons, List.mem_cons]
      refine ⟨?_, h.1, h.2⟩
      intro a ha
      rcases ha with ha | ha
      · rw [ha]; exact h1
      · exact lt_trans h1 (h.1 a ha)
    · by_cases h2 : k = x1
      · subst h2
        simpa [insL] using h
      · simp only [insL, h1, h2, if_false, List.map_cons, List.pairwise_cons]
        refine ⟨?_, ih h.2⟩
        intro a ha
        rcases (mem_keys_insL xs k v a).mp ha with ha | ha
        · rw [ha]
          exact lt_of_le_of_ne (not_lt.mp h1) (Ne.symm h2)
        · exact h.1 a ha

theorem sublist_remL [DecidableEq K] (s : List (K × List V)) (k : K) :
    ((remL s k).map Prod.fst).Sublist (s.map Prod.fst) := by
  induction s with
  | nil => simp [remL]
  | cons x xs ih =>
    obtain ⟨x1, x2⟩ := x
    by_cases h1 : k = x1
    · by_cases h2 : x2.length > 1
      · simp [remL, h1, h2]
      · simp [remL, h1, h2]
    · simp only [remL, h1, if_false, List.map_cons]
      exact ih.cons₂ x1

theorem sorted_remL [LinearOrder K] (s : List (K × List V)) (k : K)
    (h : (s.map Prod.fst).Pairwise (· < ·)) : ((remL s k).map Prod.fst).Pairwise (· < ·) :=
  h.sublist (sublist_remL s k)

theorem lookupL_eq_none [DecidableEq K] (s : List (K × List V)) (k : K) :
    lookupL s k = none ↔ k ∉ s.map Prod.fst := by
  induction s with
  | nil => simp [lookupL]
  | cons x xs ih =>
    obtain ⟨x1, x2⟩ := x
    by_cases h : k = x1
    · simp [lookupL, h]
    · simp [lookupL, h, ih]

theorem lookupL_append [DecidableEq K] (a b : List (K × List V)) (k : K) :
    lookupL (a ++ b) k = (match lookupL a k with
      | some vs => some vs
      | none => lookupL b k) := by
  induction a with
  | nil => simp [lookupL]
  | cons x xs ih =>
    obtain ⟨x1, x2⟩ := x
    by_cases h : k = x1
    · simp [lookupL, h]
    · simp [lookupL, h, ih]

theorem lookupL_insL [LinearOrder K] (s : List (K × List V)) (k : K) (v : V) (k2 : K)
    (h : (s.map Prod.fst).Pairwise (· < ·)) :
    lookupL (insL s k v) k2 =
      if k2 = k then some ((lookupL s k).getD [] ++ [v]) else lookupL s k2 := by
  induction s with
  | nil =>
    by_cases h2 : k2 = k <;> simp [insL, lookupL, h2]
  | cons x xs ih =>
    obtain ⟨x1, x2⟩ := x
    simp only [List.map_cons, List.pairwise_cons] at h
    by_cases h1 : k < x1
    · have hk : lookupL ((x1, x2) :: xs) k = none := by
        rw [lookupL_eq_none]
        simp only [List.map_cons, List.mem_cons, not_or]
        exact ⟨ne_of_lt h1, fun hm => absurd (lt_trans h1 (h.1 k hm)) (lt_irrefl k)⟩
      by_cases h2 : k2 = k
      · subst h2
        rw [hk]
        simp [insL, h1, lookupL]
      · simp [insL, h1, lookupL, h2]
    · by_cases h3 : k = x1
      · subst h3
        by_cases h2 : k2 = k <;> simp [insL, lookupL, h2]
      · by_cases h2 : k2 = k
        · subst h2
          simp [insL, h1, h3, lookupL, ih h.2]
        · simp [insL, h1, h3, lookupL, ih h.2, h2]

theorem lookupL_remL [LinearOrder K] (s : List (K × List V)) (k : K) (k2 : K)
    (h : (s.map Prod.fst).Pairwise (· < ·)) :
    lookupL (remL s k) k2 =
      if k2 = k then
        (match lookupL s k with
          | some vs => if vs.length > 1 then some vs.tail else none
          | none => none)
      else lookupL s k2 := by
  induction s with
  | nil => simp [remL, lookupL]
  | cons x xs ih =>
    obtain ⟨x1, x2⟩ := x
    simp only [List.map_cons, List.pairwise_cons] at h
    by_cases h3 : k = x1
    · subst h3
      have hk : lookupL xs k = none := by
        rw [lookupL_eq_none]
        exact fun hm => absurd (h.1 k hm) (lt_irrefl k)
      by_cases hlen : x2.length > 1
      · by_cases h2 : k2 = k <;> simp [remL, lookupL, h2, hlen]
      · by_cases h2 : k2 = k
        · subst h2
          simp [remL, lookupL, hlen, hk]
        · simp [remL, lookupL, h2, hlen]
    · by_cases h2 : k2 = k
      · subst h2
        simp [remL, lookupL, h3, ih h.2]
      · simp [remL, lookupL, h3, ih h.2, h2]

theorem values?_eq_lookupL [LinearOrder K] (key : K) : ∀ (t : Node K V),
    (inorderKeys t).Pairwise (· < ·) → values? t key = lookupL (toList t) key := by
  intro t
  induction t with
  | nil => intro _; simp [values?, GetNode, toList, lookupL]
  | node k v c l r ihl ihr =>
    intro hs
    simp only [inorderKeys, toList, List.map_append, List.map_cons, List.pairwise_append,
      List.pairwise_cons, List.mem_cons] at hs
    obtain ⟨hsl, ⟨hkr, hsr⟩, hlr⟩ := hs
    have hlk : ∀ a ∈ (toList l).map Prod.fst, a < k := fun a ha => hlr a ha k (Or.inl rfl)
    rw [toList, lookupL_append]
    by_cases h1 : key = k
    · subst h1
      have : lookupL (toList l) key = none := by
        rw [lookupL_eq_none]
        exact fun hm => absurd (hlk key hm) (lt_irrefl key)
      simp [values?, GetNode, this, lookupL]
    · by_cases h2 : key < k
      · have hl := ihl hsl
        have hr : lookupL (toList r) key = none := by
          rw [lookupL_eq_none]
          exact fun hm => absurd (lt_trans h2 (hkr key hm)) (lt_irrefl key)
        simp only [values?, GetNode, h1, h2, if_false, if_true] at hl ⊢
        rw [hl]
        cases lookupL (toList l) key <;> simp [lookupL, h1, hr]
      · have hr := ihr hsr
        have hl : lookupL (toList l) key = none := by
          rw [lookupL_eq_none]
          exact fun hm => absurd (hlk key hm) h2
        simp only [values?, GetNode, h1, h2, if_false] at hr ⊢
        rw [hr, hl]
        simp [lookupL, h1]

/-! ### The public calls -/

theorem nonempty_insL [LinearOrder K] (s : List (K × List V)) (k : K) (v : V)
    (h : ∀ p ∈ s, p.2 ≠ []) : ∀ p ∈ insL s k v, p.2 ≠ [] := by
  induction s with
  | nil => simp [insL]
  | cons x xs ih =>
    obtain ⟨x1, x2⟩ := x
    have hx : x2 ≠ [] := h (x1, x2) (by simp)
    have hxs : ∀ p ∈ xs, p.2 ≠ [] := fun p hp => h p (by simp [hp])
    by_cases h1 : k < x1
    · intro p hp
      simp only [insL, h1, if_true, List.mem_cons] at hp
      rcases hp with hp | hp | hp
      · simp [hp]
      · simp [hp, hx]
      · exact hxs p hp
    · by_cases h2 : k = x1
      · subst h2
        intro p hp
        simp only [insL, lt_irrefl, if_false, if_true, List.mem_cons] at hp
        rcases hp with hp | hp
        · simp [hp]
        · exact hxs p hp
      · intro p hp
        simp only [insL, h1, h2, if_false, List.mem_cons] at hp
        rcases hp with hp | hp
        · simp [hp, hx]
        · exact ih hxs p hp

theorem nonempty_remL [DecidableEq K] (s : List (K × List V)) (k : K)
    (h : ∀ p ∈ s, p.2 ≠ []) : ∀ p ∈ remL s k, p.2 ≠ [] := by
  induction s with
  | nil => simp [remL]
  | cons x xs ih =>
    obtain ⟨x1, x2⟩ := x
    have hx : x2 ≠ [] := h (x1, x2) (by simp)
    have hxs : ∀ p ∈ xs, p.2 ≠ [] := fun p hp => h p (by simp [hp])
    by_cases h1 : k = x1
    · by_cases h2 : x2.length > 1
      · intro p hp
        simp only [remL, h1, h2, if_true, List.mem_cons] at hp
        rcases hp with hp | hp
        · rw [hp]
          intro h0
          have h0' : x2.tail = [] := h0
          have : x2.tail.length = 0 := by rw [h0']; rfl
          simp at this
          omega
        · exact hxs p hp
      · intro p hp
        simp only [remL, h1, h2, if_true, if_false] at hp
        exact hxs p hp
    · intro p hp
      simp only [remL, h1, if_false, List.mem_cons] at hp
      rcases hp with hp | hp
      · simp [hp, hx]
      · exact ih hxs p hp

theorem totalL_insL [LinearOrder K] (s : List (K × List V)) (k : K) (v : V) :
    totalL (insL s k v) = totalL s + 1 := by
  induction s with
  | nil => simp [insL, totalL]
  | cons x xs ih =>
    obtain ⟨x1, x2⟩ := x
    by_cases h1 : k < x1
    · simp [insL, h1, totalL]; omega
    · by_cases h2 : k = x1
      · simp [insL, h1, h2, totalL]; omega
      · simp only [totalL] at ih
        simp [insL, h1, h2, totalL, ih]; omega

theorem totalL_remL [DecidableEq K] (s : List (K × List V)) (k : K)
    (h : ∀ p ∈ s, p.2 ≠ []) (hk : k ∈ s.map Prod.fst) :
    totalL (remL s k) + 1 = totalL s := by
  induction s with
  | nil => simp at hk
  | cons x xs ih =>
    obtain ⟨x1, x2⟩ := x
    have hx : x2 ≠ [] := h (x1, x2) (by simp)
    have hx' : 0 < x2.length := List.length_pos.mpr hx
    have hxs : ∀ p ∈ xs, p.2 ≠ [] := fun p hp => h p (by simp [hp])
    by_cases h1 : k = x1
    · by_cases h2 : x2.length > 1
      · simp [remL, h1, h2, totalL]; omega
      · simp [remL, h1, h2, totalL]; omega
    · have hk' : k ∈ xs.map Prod.fst := by simpa [h1] using hk
      have := ih hxs hk'
      simp only [totalL] at this
      simp [remL, h1, totalL]; omega

theorem toList_paintB (t : Node K V) : toList (paintB t) = toList t := by
  cases t <;> simp [paintB, toList]

theorem IsRed_paintB (t : Node K V) : IsRed (paintB t) = false := by
  cases t <;> simp [paintB]

theorem size_eq_length (t : Node K V) : t.size = (toList t).length := by
  induction t with
  | nil => simp [Node.size, toList]
  | node k v c l r ihl ihr => simp [Node.size, toList, ihl, ihr]; omega

theorem Contains_iff [LinearOrder K] (m : Multimap K V) (key : K)
    (hs : (inorderKeys m.root).Pairwise (· < ·)) :
    Contains m key = true ↔ key ∈ inorderKeys m.root := by
  have h := values?_eq_lookupL key m.root hs
  have h2 := lookupL_eq_none (toList m.root) key
  rw [← h] at h2
  simp only [inorderKeys]
  rw [← not_iff_not, ← h2]
  simp only [Contains, values?]
  cases GetNode m.root key <;> simp [Node.isNull]

theorem Insert_spec [LinearOrder K] (m : Multimap K V) (key : K) (value : V) (h : Inv m) :
    ∃ m2, Insert m key value = Except.ok m2 ∧ Inv m2 ∧
      toList m2.root = insL (toList m.root) key value ∧
      m2.cur_size = (m.cur_size + 1) % UINT_MOD := by
  obtain ⟨hv, hb, hs, hne, hsz⟩ := h
  obtain ⟨t, ht1, ht2, ht3, ht4, ht5, ht6⟩ := InsertNode_spec key value m.root hv hs
  refine ⟨⟨paintB t, (m.cur_size + 1) % UINT_MOD⟩, ?_, ⟨ht4, IsRed_paintB t, ?_, ?_, ?_⟩, ?_, rfl⟩
  · cases t with
    | nil => exact absurd rfl ht2
    | node k v c l r => simp [Insert, ht1, Node.setColor, paintB, bind, Except.bind, pure, Except.pure]
  · simp only [inorderKeys, toList_paintB, ht6]
    exact sorted_insL _ _ _ hs
  · simp only [toList_paintB, ht6]
    exact nonempty_insL _ _ _ hne
  · have := totalL_insL (toList m.root) key value
    simp only [totalValues, toList_paintB, ht6, hsz, UINT_MOD] at *
    simp only [totalL] at this
    omega
  · simp only [toList_paintB, ht6]

theorem Remove_spec [LinearOrder K] (m : Multimap K V) (key : K) (h : Inv m)
    (hc : Contains m key = true) :
    ∃ m2, Remove m key = Except.ok m2 ∧ Inv m2 ∧
      toList m2.root = remL (toList m.root) key ∧
      m2.cur_size = (m.cur_size + UINT_MOD - 1) % UINT_MOD := by
  obtain ⟨hv, hb, hs, hne, hsz⟩ := h
  have hmem := (Contains_iff m key hs).mp hc
  obtain ⟨t, ht1, ht2, ht3⟩ := RemoveNode_spec (m.root.size + 1) m.root key (Or.inl hv) hs hmem
    (Nat.lt_succ_self _)
  refine ⟨⟨paintB t, (m.cur_size + UINT_MOD - 1) % UINT_MOD⟩, ?_, ⟨ht2.1, IsRed_paintB t, ?_, ?_, ?_⟩,
    ?_, rfl⟩
  · cases t <;>
      simp [Remove, hc, ht1, Node.setColor, Node.isNull, paintB, bind, Except.bind, pure, Except.pure]
  · simp only [inorderKeys, toList_paintB, ht3]
    exact sorted_remL _ _ hs
  · simp only [toList_paintB, ht3]
    exact nonempty_remL _ _ hne
  · have := totalL_remL (toList m.root) key hne hmem
    simp only [totalValues, toList_paintB, ht3, hsz, UINT_MOD] at *
    simp only [totalL] at this
    omega
  · simp only [toList_paintB, ht3]

theorem Remove_absent [LinearOrder K] (m : Multimap K V) (key : K)
    (hc : Contains m key = false) : Remove m key = Except.ok m := by
  simp [Remove, hc, pure, Except.pure]

/-! ### Call sequences -/

theorem remL_absent [DecidableEq K] (s : List (K × List V)) (k : K)
    (h : k ∉ s.map Prod.fst) : remL s k = s := by
  have := remL_append_right s [] k h
  simpa [remL] using this

theorem Inv_empty [LinearOrder K] : Inv (empty : Multimap K V) := by
  simp [Inv, empty, Valid, inorderKeys, toList, totalValues]

theorem step_spec [LinearOrder K] (m : Multimap K V) (op : Op K V) (h : Inv m) :
    ∃ m2, step m op = Except.ok m2 ∧ Inv m2 ∧ toList m2.root = applyL (toList m.root) op := by
  cases op with
  | insert k v =>
    obtain ⟨m2, h1, h2, h3, _⟩ := Insert_spec m k v h
    exact ⟨m2, h1, h2, h3⟩
  | remove k =>
    cases hc : Contains m k
    · refine ⟨m, Remove_absent m k hc, h, ?_⟩
      have hnot : k ∉ inorderKeys m.root := by
        intro hm
        rw [← Contains_iff m k h.2.2.1, hc] at hm
        exact Bool.false_ne_true hm
      exact (remL_absent _ _ hnot).symm
    · obtain ⟨m2, h1, h2, h3, _⟩ := Remove_spec m k h hc
      exact ⟨m2, h1, h2, h3⟩

theorem runFrom_spec [LinearOrder K] (ops : List (Op K V)) : ∀ (m : Multimap K V), Inv m →
    ∃ m2, runFrom m ops = Except.ok m2 ∧ Inv m2 ∧ toList m2.root = runL (toList m.root) ops := by
  induction ops with
  | nil => intro m h; exact ⟨m, rfl, h, rfl⟩
  | cons op ops ih =>
    intro m h
    obtain ⟨m1, h1, h2, h3⟩ := step_spec m op h
    obtain ⟨m2, h4, h5, h6⟩ := ih m1 h2
    refine ⟨m2, ?_, h5, ?_⟩
    · simp [runFrom, h1, h4]
    · rw [h6, h3]
      rfl

theorem run_spec [LinearOrder K] (ops : List (Op K V)) :
    ∃ m, run ops = Except.ok m ∧ Inv m ∧ toList m.root = runL [] ops := by
  obtain ⟨m, h1, h2, h3⟩ := runFrom_spec ops (empty : Multimap K V) Inv_empty
  exact ⟨m, h1, h2, by simpa [empty, toList] using h3⟩

theorem Inv_of_run [LinearOrder K] {ops : List (Op K V)} {m : Multimap K V}
    (h : run ops = Except.ok m) : Inv m := by
  obtain ⟨m2, h1, h2, _⟩ := run_spec ops
  rw [h] at h1
  cases h1
  exact h2

theorem BST_of_sorted [LinearOrder K] : ∀ (t : Node K V),
    (inorderKeys t).Pairwise (· < ·) → BST t := by
  intro t
  induction t with
  | nil => intro _; trivial
  | node k v c l r ihl ihr =>
    intro hs
    simp only [inorderKeys, toList, List.map_append, List.map_cons, List.pairwise_append,
      List.pairwise_cons, List.mem_cons] at hs
    obtain ⟨hsl, ⟨hkr, hsr⟩, hlr⟩ := hs
    exact ⟨fun x hx => hlr x hx k (Or.inl rfl), hkr, ihl hsl, ihr hsr⟩

theorem pathBlacks_of_Valid : ∀ (t : Node K V), Valid t → ∀ a ∈ pathBlacks t, a = bhL t := by
  intro t
  induction t with
  | nil => intro _ a ha; simpa [pathBlacks, bhL] using ha
  | node k v c l r ihl ihr =>
    intro hv a ha
    simp only [Valid] at hv
    obtain ⟨hvl, hvr, hb, _, _⟩ := hv
    simp only [pathBlacks, List.mem_map, List.mem_append] at ha
    obtain ⟨d, hd, rfl⟩ := ha
    rcases hd with hd | hd
    · rw [ihl hvl d hd]; rfl
    · rw [ihr hvr d hd, ← hb]; rfl

theorem Rel_applyL [LinearOrder K] (s : List (K × List V)) (q : K → List V)
    (hs : (s.map Prod.fst).Pairwise (· < ·)) (h : Rel s q) (op : Op K V) :
    Rel (applyL s op) (match op with
      | Op.insert k v => Function.update q k (q k ++ [v])
      | Op.remove k => Function.update q k (q k).tail) := by
  intro k2
  cases op with
  | insert k v =>
    simp only [applyL]
    rw [lookupL_insL s k v k2 hs]
    by_cases hk : k2 = k
    · subst hk
      have := h k2
      simp only [if_true, Function.update_same]
      cases hq : q k2 with
      | nil => simp [hq] at this; simp [this]
      | cons x xs => simp [hq] at this; simp [this]
    · simp only [hk, if_false, Function.update_noteq hk]
      exact h k2
  | remove k =>
    simp only [applyL]
    rw [lookupL_remL s k k2 hs]
    by_cases hk : k2 = k
    · subst hk
      have := h k2
      simp only [if_true, Function.update_same]
      cases hq : q k2 with
      | nil => simp [hq] at this; simp [this]
      | cons x xs =>
        simp [hq] at this
        cases xs with
        | nil => simp [this]
        | cons y ys => simp [this]
    · simp only [hk, if_false, Function.update_noteq hk]
      exact h k2

theorem sorted_applyL [LinearOrder K] (s : List (K × List V)) (op : Op K V)
    (hs : (s.map Prod.fst).Pairwise (· < ·)) : ((applyL s op).map Prod.fst).Pairwise (· < ·) := by
  cases op with
  | insert k v => exact sorted_insL s k v hs
  | remove k => exact sorted_remL s k hs

theorem Rel_runL [LinearOrder K] (ops : List (Op K V)) : ∀ (s : List (K × List V))
    (q : K → List V), (s.map Prod.fst).Pairwise (· < ·) → Rel s q →
    Rel (runL s ops) (pendingFrom q ops) := by
  induction ops with
  | nil => intro s q _ h; exact h
  | cons op ops ih =>
    intro s q hs h
    have h1 := Rel_applyL s q hs h op
    have h2 := sorted_applyL s op hs
    cases op with
    | insert k v => exact ih _ _ h2 h1
    | remove k => exact ih _ _ h2 h1

theorem Get_eq [LinearOrder K] (m : Multimap K V) (key : K) :
    Get m key = (match values? m.root key with
      | none => Except.error Fault.runtimeError
      | some [] => Except.error Fault.outOfBounds
      | some (x :: _) => Except.ok x) := by
  simp only [Get, values?]
  cases GetNode m.root key with
  | nil => rfl
  | node k v c l r => cases v <;> rfl

theorem Contains_eq [LinearOrder K] (m : Multimap K V) (key : K) :
    Contains m key = (values? m.root key).isSome := by
  simp only [Contains, values?]
  cases GetNode m.root key <;> rfl

theorem run_pending [LinearOrder K] (ops : List (Op K V)) :
    ∃ m, run ops = Except.ok m ∧ Inv m ∧ ∀ k, values? m.root k = (match pending ops k with
      | [] => none
      | x :: xs => some (x :: xs)) := by
  obtain ⟨m, h1, h2, h3⟩ := run_spec ops
  refine ⟨m, h1, h2, fun k => ?_⟩
  rw [values?_eq_lookupL k m.root h2.2.2.1, h3]
  exact Rel_runL ops [] (fun _ => []) (by simp) (fun k => by simp [lookupL]) k

theorem length_insL_mem [LinearOrder K] (s : List (K × List V)) (k : K) (v : V)
    (hs : (s.map Prod.fst).Pairwise (· < ·)) (hk : k ∈ s.map Prod.fst) :
    (insL s k v).length = s.length := by
  induction s with
  | nil => simp at hk
  | cons x xs ih =>
    obtain ⟨x1, x2⟩ := x
    simp only [List.map_cons, List.pairwise_cons] at hs
    by_cases h2 : k = x1
    · subst h2
      simp [insL]
    · have hk' : k ∈ xs.map Prod.fst := by simpa [h2] using hk
      have h1 : ¬ k < x1 := not_lt.mpr (le_of_lt (hs.1 k hk'))
      simp [insL, h1, h2, ih hs.2 hk']

theorem keys_remL_multi [LinearOrder K] (s : List (K × List V)) (k : K) (vs : List V)
    (hv : lookupL s k = some vs) (hlen : 2 ≤ vs.length) :
    (remL s k).map Prod.fst = s.map Prod.fst := by
  induction s with
  | nil => simp [lookupL] at hv
  | cons x xs ih =>
    obtain ⟨x1, x2⟩ := x
    by_cases h1 : k = x1
    · subst h1
      simp only [lookupL, if_true, Option.some.injEq] at hv
      subst hv
      have : x2.length > 1 := by omega
      simp [remL, this]
    · simp only [lookupL, h1, if_false] at hv
      simp [remL, h1, ih hv]

theorem split_at_key [LinearOrder K] (s : List (K × List V)) (k : K)
    (hs : (s.map Prod.fst).Pairwise (· < ·)) (hk : k ∉ s.map Prod.fst) :
    ∃ a b, s = a ++ b ∧ (∀ y ∈ a.map Prod.fst, y < k) ∧ (∀ y ∈ b.map Prod.fst, k < y) := by
  induction s with
  | nil => exact ⟨[], [], rfl, by simp, by simp⟩
  | cons x xs ih =>
    obtain ⟨x1, x2⟩ := x
    simp only [List.map_cons, List.pairwise_cons] at hs
    simp only [List.map_cons, List.mem_cons, not_or] at hk
    by_cases h1 : x1 < k
    · obtain ⟨a, b, h2, h3, h4⟩ := ih hs.2 hk.2
      refine ⟨(x1, x2) :: a, b, by simp [h2], ?_, h4⟩
      intro y hy
      simp only [List.map_cons, List.mem_cons] at hy
      rcases hy with hy | hy
      · rw [hy]; exact h1
      · exact h3 y hy
    · have h2 : k < x1 := lt_of_le_of_ne (not_lt.mp h1) hk.1
      refine ⟨[], (x1, x2) :: xs, rfl, by simp, ?_⟩
      intro y hy
      simp only [List.map_cons, List.mem_cons] at hy
      rcases hy with hy | hy
      · rw [hy]; exact h2
      · exact lt_trans h2 (hs.1 y hy)

theorem insL_below [LinearOrder K] (b : List (K × List V)) (k : K) (v : V)
    (h : ∀ y ∈ b.map Prod.fst, k < y) : insL b k v = (k, [v]) :: b := by
  cases b with
  | nil => rfl
  | cons x xs =>
    obtain ⟨x1, x2⟩ := x
    have : k < x1 := h x1 (by simp)
    simp [insL, this]

theorem runL_append [LinearOrder K] (s : List (K × List V)) (o1 o2 : List (Op K V)) :
    runL s (o1 ++ o2) = runL (runL s o1) o2 := by
  simp [runL, List.foldl_append]

theorem runL_inserts_at [LinearOrder K] (a b : List (K × List V)) (k : K)
    (ha : ∀ y ∈ a.map Prod.fst, y < k) (vs : List V) : ∀ (ws : List V),
    runL (a ++ (k, ws) :: b) (vs.map (Op.insert k)) = a ++ (k, ws ++ vs) :: b := by
  induction vs with
  | nil => intro ws; simp [runL]
  | cons v vs ih =>
    intro ws
    have h1 : insL (a ++ (k, ws) :: b) k v = a ++ (k, ws ++ [v]) :: b := by
      rw [insL_append_right a _ k v ha]
      simp [insL]
    simp only [List.map_cons, runL, List.foldl_cons, applyL, h1]
    have := ih (ws ++ [v])
    simp only [runL] at this
    rw [this]
    simp

theorem runL_inserts [LinearOrder K] (a b : List (K × List V)) (k : K)
    (ha : ∀ y ∈ a.map Prod.fst, y < k) (hb : ∀ y ∈ b.map Prod.fst, k < y)
    (v : V) (vs : List V) :
    runL (a ++ b) ((v :: vs).map (Op.insert k)) = a ++ (k, v :: vs) :: b := by
  have h1 : insL (a ++ b) k v = a ++ (k, [v]) :: b := by
    rw [insL_append_right a b k v ha, insL_below b k v hb]
  have := runL_inserts_at a b k ha vs [v]
  simp only [List.map_cons, runL, List.foldl_cons, applyL, h1] at this ⊢
  rw [this]
  simp

theorem runL_removes [LinearOrder K] (a b : List (K × List V)) (k : K)
    (ha : ∀ y ∈ a.map Prod.fst, y < k) (j : Nat) : ∀ (ws : List V), j ≤ ws.length → ws ≠ [] →
    runL (a ++ (k, ws) :: b) (List.replicate j (Op.remove k)) =
      if j < ws.length then a ++ (k, ws.drop j) :: b else a ++ b := by
  have hnot : k ∉ a.map Prod.fst := fun h => absurd (ha k h) (lt_irrefl k)
  induction j with
  | zero =>
    intro ws _ hne
    have : 0 < ws.length := List.length_pos.mpr hne
    simp [runL, this]
  | succ j ih =>
    intro ws hj hne
    cases ws with
    | nil => exact absurd rfl hne
    | cons w ws =>
      simp only [List.length_cons] at hj
      by_cases hlen : (w :: ws).length > 1
      · have hws : ws ≠ [] := by
          intro h
          simp [h] at hlen
        have h1 : remL (a ++ (k, w :: ws) :: b) k = a ++ (k, ws) :: b := by
          rw [remL_append_right _ _ _ hnot]
          simp [remL, hws]
        have := ih ws (by omega) hws
        simp only [List.replicate_succ, runL, List.foldl_cons, applyL, h1] at this ⊢
        rw [this]
        simp
      · have hws : ws = [] := by
          cases ws with
          | nil => rfl
          | cons y ys => simp at hlen
        subst hws
        have h1 : remL (a ++ (k, [w]) :: b) k = a ++ b := by
          rw [remL_append_right _ _ _ hnot]
          simp [remL]
        have hj0 : j = 0 := by simpa using hj
        subst hj0
        simp [runL, applyL, h1]

theorem totalL_append (a b : List (K × List V)) : totalL (a ++ b) = totalL a + totalL b := by
  simp [totalL]

/-! ### Structural predicates, extreme keys and call counts -/

theorem noRightLeaningRed_of_Valid : ∀ (t : Node K V), Valid t → noRightLeaningRed t := by
  intro t
  induction t with
  | nil => intro _; trivial
  | node k v c l r ihl ihr =>
    intro h
    simp only [Valid] at h
    exact ⟨fun hh => by simp [h.2.2.2.1] at hh, ihl h.1, ihr h.2.1⟩

theorem noRedRedLeft_of_Valid : ∀ (t : Node K V), Valid t → noRedRedLeft t := by
  intro t
  induction t with
  | nil => intro _; trivial
  | node k v c l r ihl ihr =>
    intro h
    simp only [Valid] at h
    exact ⟨fun hh => by simp [h.2.2.2.2 hh.1] at hh, ihl h.1, ihr h.2.1⟩

theorem allValuesNonempty_iff : ∀ (t : Node K V),
    allValuesNonempty t ↔ ∀ p ∈ toList t, p.2 ≠ [] := by
  intro t
  induction t with
  | nil => simp [allValuesNonempty, toList]
  | node k v c l r ihl ihr =>
    simp only [allValuesNonempty, toList, List.mem_append, List.mem_cons, ihl, ihr]
    constructor
    · rintro ⟨h1, h2, h3⟩ p (hp | hp | hp)
      · exact h2 p hp
      · rw [hp]; exact h1
      · exact h3 p hp
    · intro h
      exact ⟨h (k, v) (Or.inr (Or.inl rfl)), fun p hp => h p (Or.inl hp),
        fun p hp => h p (Or.inr (Or.inr hp))⟩

theorem MaxNode_spec (n : Node K V) (h : n ≠ Node.nil) :
    ∃ mk mv mc ml mr, MaxNode n = Except.ok (Node.node mk mv mc ml mr) ∧
      ∃ rest, toList n = rest ++ [(mk, mv)] := by
  induction n with
  | nil => exact absurd rfl h
  | node k v c l r _ ihr =>
    rcases r with _ | ⟨rk, rv, rc, rl, rr⟩
    · exact ⟨k, v, c, l, Node.nil, by simp [MaxNode], toList l, by simp [toList]⟩
    · obtain ⟨mk, mv, mc, ml, mr, h1, rest, h2⟩ := ihr (by simp)
      refine ⟨mk, mv, mc, ml, mr, ?_, toList l ++ (k, v) :: rest, ?_⟩
      · simpa [MaxNode] using h1
      · rw [toList, h2]; simp

theorem mem_of_lookupL [DecidableEq K] (s : List (K × List V)) (k : K) (vs : List V)
    (h : lookupL s k = some vs) : (k, vs) ∈ s := by
  induction s with
  | nil => simp [lookupL] at h
  | cons x xs ih =>
    obtain ⟨x1, x2⟩ := x
    by_cases hk : k = x1
    · simp only [lookupL, hk, if_true, Option.some.injEq] at h
      simp [hk, h]
    · simp only [lookupL, hk, if_false] at h
      exact List.mem_cons_of_mem _ (ih h)

theorem values?_nonempty [LinearOrder K] (m : Multimap K V) (h : Inv m) (k : K) (vs : List V)
    (hv : values? m.root k = some vs) : vs ≠ [] := by
  rw [values?_eq_lookupL k m.root h.2.2.1] at hv
  exact h.2.2.2.1 (k, vs) (mem_of_lookupL _ k vs hv)

theorem rootColor?_of_black (t : Node K V) (h1 : IsRed t = false) (h2 : t ≠ Node.nil) :
    rootColor? t = some Color.BLACK := by
  rcases t with _ | ⟨k, v, c, l, r⟩
  · exact absurd rfl h2
  · cases c
    · simp at h1
    · rfl

theorem rootColor?_ne_red (t : Node K V) (h1 : IsRed t = false) :
    rootColor? t ≠ some Color.RED := by
  rcases t with _ | ⟨k, v, c, l, r⟩
  · simp [rootColor?]
  · cases c
    · simp at h1
    · simp [rootColor?]

theorem insL_ne_nil [LinearOrder K] (s : List (K × List V)) (k : K) (v : V) :
    insL s k v ≠ [] := by
  cases s with
  | nil => simp [insL]
  | cons x xs =>
    obtain ⟨x1, x2⟩ := x
    by_cases h1 : k < x1
    · simp [insL, h1]
    · by_cases h2 : k = x1 <;> simp [insL, h1, h2]

theorem length_remL_single [DecidableEq K] (s : List (K × List V)) (k : K) (v : V)
    (h : lookupL s k = some [v]) : (remL s k).length + 1 = s.length := by
  induction s with
  | nil => simp [lookupL] at h
  | cons x xs ih =>
    obtain ⟨x1, x2⟩ := x
    by_cases hk : k = x1
    · simp only [lookupL, hk, if_true, Option.some.injEq] at h
      subst h
      simp [remL, hk]
    · simp only [lookupL, hk, if_false] at h
      simp [remL, hk, ih h]

theorem remL_insL_absent [LinearOrder K] (s : List (K × List V)) (k : K) (v : V)
    (hs : (s.map Prod.fst).Pairwise (· < ·)) (hk : k ∉ s.map Prod.fst) :
    remL (insL s k v) k = s := by
  obtain ⟨a, b, hab, ha, hb⟩ := split_at_key s k hs hk
  have hka : k ∉ a.map Prod.fst := fun h => absurd (ha k h) (lt_irrefl k)
  rw [hab, insL_append_right a b k v ha, insL_below b k v hb, remL_append_right _ _ _ hka]
  simp [remL]

theorem Min_spec [LinearOrder K] (m : Multimap K V)
    (hs : (inorderKeys m.root).Pairwise (· < ·)) (hne : m.root ≠ Node.nil) :
    ∃ kmin, Min m = Except.ok kmin ∧ kmin ∈ inorderKeys m.root ∧
      ∀ k ∈ inorderKeys m.root, kmin ≤ k := by
  obtain ⟨mk, mv, mc, ml, mr, h1, rest, h2⟩ := MinNode_spec m.root hne
  refine ⟨mk, by simp [Min, h1, Node.getKey, bind, Except.bind], ?_, ?_⟩
  · simp [inorderKeys, h2]
  · simp only [inorderKeys, h2, List.map_cons, List.pairwise_cons, List.mem_cons] at hs ⊢
    rintro k (hk | hk)
    · rw [hk]
    · exact le_of_lt (hs.1 k hk)

theorem Max_spec [LinearOrder K] (m : Multimap K V)
    (hs : (inorderKeys m.root).Pairwise (· < ·)) (hne : m.root ≠ Node.nil) :
    ∃ kmax, Max m = Except.ok kmax ∧ kmax ∈ inorderKeys m.root ∧
      ∀ k ∈ inorderKeys m.root, k ≤ kmax := by
  obtain ⟨mk, mv, mc, ml, mr, h1, rest, h2⟩ := MaxNode_spec m.root hne
  refine ⟨mk, by simp [Max, h1, Node.getKey, bind, Except.bind], ?_, ?_⟩
  · simp [inorderKeys, h2]
  · simp only [inorderKeys, h2, List.map_append, List.map_cons, List.map_nil,
      List.pairwise_append, List.mem_append, List.mem_singleton] at hs ⊢
    rintro k (hk | hk)
    · exact le_of_lt (hs.2.2 k hk mk rfl)
    · rw [hk]

theorem storedCount_insert [LinearOrder K] (m m1 : Multimap K V) (k2 : K) (v : V) (k : K)
    (h : Inv m) (h1 : Insert m k2 v = Except.ok m1) :
    storedCount m1.root k = storedCount m.root k + (if k2 = k then 1 else 0) := by
  obtain ⟨m2, e1, e2, e3, _⟩ := Insert_spec m k2 v h
  rw [h1] at e1
  cases e1
  simp only [storedCount]
  rw [values?_eq_lookupL k m1.root e2.2.2.1, e3, lookupL_insL _ k2 v k h.2.2.1,
    values?_eq_lookupL k m.root h.2.2.1]
  by_cases hk : k2 = k
  · subst hk
    simp
  · have hk' : k ≠ k2 := fun hh => hk hh.symm
    simp [hk, hk']

theorem storedCount_remove [LinearOrder K] (m m1 : Multimap K V) (k2 : K) (k : K)
    (h : Inv m) (h1 : Remove m k2 = Except.ok m1) :
    storedCount m1.root k + (if k2 = k ∧ Contains m k = true then 1 else 0) =
      storedCount m.root k := by
  cases hc : Contains m k2
  · rw [Remove_absent m k2 hc] at h1
    cases h1
    by_cases hk : k2 = k
    · subst hk
      simp [hc]
    · simp [hk]
  · obtain ⟨m2, e1, e2, e3, _⟩ := Remove_spec m k2 h hc
    rw [h1] at e1
    cases e1
    simp only [storedCount]
    rw [values?_eq_lookupL k m1.root e2.2.2.1, e3, lookupL_remL _ k2 k h.2.2.1,
      values?_eq_lookupL k m.root h.2.2.1]
    by_cases hk : k2 = k
    · subst hk
      have hcv := hc
      rw [Contains_eq, values?_eq_lookupL k2 m.root h.2.2.1] at hcv
      cases hv : lookupL (toList m.root) k2 with
      | none => simp [hv] at hcv
      | some vs =>
        have hne : vs ≠ [] := h.2.2.2.1 (k2, vs) (mem_of_lookupL _ k2 vs hv)
        cases vs with
        | nil => exact absurd rfl hne
        | cons w ws =>
          cases ws with
          | nil => simp [hc]
          | cons y ys => simp [hc]
    · have hk' : k ≠ k2 := fun hh => hk hh.symm
      simp [hk, hk']

theorem storedCount_runFrom [LinearOrder K] (k : K) (ops : List (Op K V)) :
    ∀ (m m2 : Multimap K V), Inv m → runFrom m ops = Except.ok m2 →
      storedCount m2.root k + removeHits m ops k = storedCount m.root k + insertCalls ops k := by
  induction ops with
  | nil =>
    intro m m2 _ h
    simp only [runFrom, Except.ok.injEq] at h
    subst h
    simp [removeHits, insertCalls]
  | cons op ops ih =>
    intro m m2 hinv h
    obtain ⟨m1, h1, h2, _⟩ := step_spec m op hinv
    have h3 : runFrom m1 ops = Except.ok m2 := by
      simpa [runFrom, h1] using h
    have h4 := ih m1 m2 h2 h3
    cases op with
    | insert k2 v =>
      have h5 := storedCount_insert m m1 k2 v k hinv h1
      simp only [removeHits, insertCalls, h1, stateOf]
      omega
    | remove k2 =>
      have h5 := storedCount_remove m m1 k2 k hinv h1
      simp only [removeHits, insertCalls, h1, stateOf]
      omega

theorem Contains_iff_storedCount [LinearOrder K] (m : Multimap K V) (h : Inv m) (k : K) :
    Contains m k = true ↔ 0 < storedCount m.root k := by
  rw [Contains_eq]
  simp only [storedCount]
  cases hv : values? m.root k with
  | none => simp
  | some vs =>
    have := values?_nonempty m h k vs hv
    simp [List.length_pos, this]

/-! ### The branch `if (!n) return;` of `Remove`

`RemoveNodeOn` leaves the outcome of the key-not-found branch open. On a tree with sorted
keys that holds the key, the recursion descends towards the key through the re-linked nodes and
its result does not depend on that outcome (`RemoveNodeOn_indep`). -/

theorem bind_congr_ok {α β : Type} (m : Except Fault α) (f g : α → Except Fault β)
    (h : ∀ a, m = Except.ok a → f a = g a) : (m >>= f) = (m >>= g) := by
  cases m with
  | error e => rfl
  | ok a => exact h a rfl

theorem RemoveNodeOn_pure [LinearOrder K] (key : K) (fuel : Nat) : ∀ (n : Node K V),
    RemoveNodeOn (pure Node.nil) fuel n key = RemoveNode fuel n key := by
  induction fuel with
  | zero => intro n; rfl
  | succ fuel ih =>
    intro n
    rcases n with _ | ⟨k, v, c, l, r⟩
    · rfl
    rw [RemoveNodeOn, RemoveNode]
    simp only [ih]


theorem RotateRight_toList (n n1 : Node K V) (h : RotateRight n = Except.ok n1) :
    toList n1 = toList n ∧ ∀ p ∈ toList (leftOf n1), p ∈ toList (leftOf n) := by
  rcases n with _ | ⟨k, v, c, l, r⟩
  · simp [RotateRight] at h
  rcases l with _ | ⟨lk, lv, lc, ll, lr⟩
  · simp [RotateRight] at h
  simp only [RotateRight, Except.ok.injEq] at h
  subst h
  simp [toList, leftOf]
  intro a b hab
  exact Or.inl hab

theorem MoveRedRight_toList (n n1 : Node K V) (h : MoveRedRight n = Except.ok n1) :
    toList n1 = toList n ∧ ∀ p ∈ toList (leftOf n1), p ∈ toList (leftOf n) := by
  rcases n with _ | ⟨k, v, c, l, r⟩
  · simp [MoveRedRight, FlipColors, Node.toggle, bind, Except.bind] at h
  rcases l with _ | ⟨lk, lv, lc, ll, lr⟩ <;> rcases r with _ | ⟨rk, rv, rc, rl, rr⟩ <;>
    (try rcases ll with _ | ⟨llk, llv, llc, lll, llr⟩) <;> (try cases llc) <;>
    simp [MoveRedRight, FlipColors, Node.toggle, Node.getLeft, Node.getRight, Node.setLeft,
      Node.setRight, bind, Except.bind, pure, Except.pure, RotateLeft, RotateRight] at h <;>
    subst h <;> simp [toList, leftOf] <;> tauto

theorem MoveRedLeft_toList (n n1 : Node K V) (h : MoveRedLeft n = Except.ok n1) :
    toList n1 = toList n ∧ ∀ p ∈ toList (leftOf n), p ∈ toList (leftOf n1) := by
  rcases n with _ | ⟨k, v, c, l, r⟩
  · simp [MoveRedLeft, FlipColors, Node.toggle, bind, Except.bind] at h
  rcases l with _ | ⟨lk, lv, lc, ll, lr⟩ <;> rcases r with _ | ⟨rk, rv, rc, rl, rr⟩ <;>
    (try rcases rl with _ | ⟨rlk, rlv, rlc, rll, rlr⟩) <;> (try cases rlc) <;>
    simp [MoveRedLeft, FlipColors, Node.toggle, Node.getLeft, Node.getRight, Node.setLeft,
      Node.setRight, bind, Except.bind, pure, Except.pure, RotateLeft, RotateRight] at h <;>
    subst h <;> simp [toList, leftOf] <;> tauto

theorem mem_left_of_lt [LinearOrder K] (a b : List (K × List V)) (k key : K) (v : List V)
    (hs : ((a ++ (k, v) :: b).map Prod.fst).Pairwise (· < ·))
    (hmem : key ∈ (a ++ (k, v) :: b).map Prod.fst) (hlt : key < k) :
    key ∈ a.map Prod.fst := by
  simp only [List.map_append, List.map_cons, List.mem_append, List.mem_cons] at hmem
  rw [List.map_append, List.map_cons, List.pairwise_append] at hs
  obtain ⟨_, hs2, _⟩ := hs
  rcases hmem with h | h | h
  · exact h
  · exact absurd hlt (by rw [h]; exact lt_irrefl _)
  · exact absurd (lt_trans ((List.pairwise_cons.mp hs2).1 key h) hlt) (lt_irrefl _)

theorem not_mem_left_of_not_lt [LinearOrder K] (a b : List (K × List V)) (k key : K) (v : List V)
    (hs : ((a ++ (k, v) :: b).map Prod.fst).Pairwise (· < ·)) (hlt : ¬ key < k) :
    key ∉ a.map Prod.fst := by
  rw [List.map_append, List.map_cons, List.pairwise_append] at hs
  obtain ⟨_, _, hs3⟩ := hs
  intro h
  exact hlt (hs3 key h k (by simp))


theorem ok_bind {α β : Type} (a : α) (f : α → Except Fault β) :
    (Except.ok a >>= f) = f a := rfl

theorem RemoveNodeOn_last [LinearOrder K] (x y : Except Fault (Node K V)) (key : K) (fuel : Nat)
    (ih : ∀ (t : Node K V), (inorderKeys t).Pairwise (· < ·) → key ∈ inorderKeys t →
      RemoveNodeOn x fuel t key = RemoveNodeOn y fuel t key)
    (n : Node K V) (hs : (inorderKeys n).Pairwise (· < ·)) (hmem : key ∈ inorderKeys n)
    (hnl : key ∉ inorderKeys (leftOf n)) :
    (do
          let nk ← n.getKey
          if key = nk then
            let v ← n.getValue
            let n ← if v.length > 1 then n.setValue v.tail
              else (do
                let r ← n.getRight
                let n_min ← MinNode r
                let n ← n.setKey (← n_min.getKey)
                let n ← n.setValue (← n_min.getValue)
                let r ← DeleteMin fuel r
                n.setRight r)
            FixUp n
          else
            let r ← n.getRight
            let r ← RemoveNodeOn x fuel r key
            let n ← n.setRight r
            FixUp n : Except Fault (Node K V)) =
    (do
          let nk ← n.getKey
          if key = nk then
            let v ← n.getValue
            let n ← if v.length > 1 then n.setValue v.tail
              else (do
                let r ← n.getRight
                let n_min ← MinNode r
                let n ← n.setKey (← n_min.getKey)
                let n ← n.setValue (← n_min.getValue)
                let r ← DeleteMin fuel r
                n.setRight r)
            FixUp n
          else
            let r ← n.getRight
            let r ← RemoveNodeOn y fuel r key
            let n ← n.setRight r
            FixUp n : Except Fault (Node K V)) := by
  rcases n with _ | ⟨k1, v1, c1, l1, r1⟩
  · rfl
  simp only [Node.getKey, Node.getRight, ok_bind]
  by_cases hk : key = k1
  · simp only [hk, if_true]
  · simp only [hk, if_false]
    have hs1 : (inorderKeys r1).Pairwise (· < ·) := by
      simp only [inorderKeys, toList, List.map_append, List.map_cons] at hs
      exact (List.pairwise_cons.mp (List.pairwise_append.mp hs).2.1).2
    have hm1 : key ∈ inorderKeys r1 := by
      simp only [inorderKeys, toList, List.map_append, List.map_cons, List.mem_append,
        List.mem_cons, leftOf] at hmem hnl ⊢
      rcases hmem with h | h | h
      · exact absurd h hnl
      · exact absurd h hk
      · exact h
    rw [ih r1 hs1 hm1]

theorem RemoveNodeOn_tail [LinearOrder K] (x y : Except Fault (Node K V)) (key : K) (fuel : Nat)
    (ih : ∀ (t : Node K V), (inorderKeys t).Pairwise (· < ·) → key ∈ inorderKeys t →
      RemoveNodeOn x fuel t key = RemoveNodeOn y fuel t key)
    (n : Node K V) (hs : (inorderKeys n).Pairwise (· < ·)) (hmem : key ∈ inorderKeys n)
    (hnl : key ∉ inorderKeys (leftOf n)) :
    (do
        let nk ← n.getKey
        let r ← n.getRight
        if key = nk ∧ r.isNull then
          let v ← n.getValue
          if v.length > 1 then n.setValue v.tail
          else pure Node.nil
        else
          let n ← if (← rightNotRed2 n) then MoveRedRight n else pure n
          let nk ← n.getKey
          if key = nk then
            let v ← n.getValue
            let n ← if v.length > 1 then n.setValue v.tail
              else (do
                let r ← n.getRight
                let n_min ← MinNode r
                let n ← n.setKey (← n_min.getKey)
                let n ← n.setValue (← n_min.getValue)
                let r ← DeleteMin fuel r
                n.setRight r)
            FixUp n
          else
            let r ← n.getRight
            let r ← RemoveNodeOn x fuel r key
            let n ← n.setRight r
            FixUp n : Except Fault (Node K V)) =
    (do
        let nk ← n.getKey
        let r ← n.getRight
        if key = nk ∧ r.isNull then
          let v ← n.getValue
          if v.length > 1 then n.setValue v.tail
          else pure Node.nil
        else
          let n ← if (← rightNotRed2 n) then MoveRedRight n else pure n
          let nk ← n.getKey
          if key = nk then
            let v ← n.getValue
            let n ← if v.length > 1 then n.setValue v.tail
              else (do
                let r ← n.getRight
                let n_min ← MinNode r
                let n ← n.setKey (← n_min.getKey)
                let n ← n.setValue (← n_min.getValue)
                let r ← DeleteMin fuel r
                n.setRight r)
            FixUp n
          else
            let r ← n.getRight
            let r ← RemoveNodeOn y fuel r key
            let n ← n.setRight r
            FixUp n : Except Fault (Node K V)) := by
  apply bind_congr_ok
  intro nk _
  apply bind_congr_ok
  intro r _
  by_cases hc : key = nk ∧ r.isNull = true
  · simp only [hc, and_self, if_true]
  · simp only [hc, if_false]
    apply bind_congr_ok
    intro b _
    cases b
    · simp only [Bool.false_eq_true, if_false]
      exact RemoveNodeOn_last x y key fuel ih n hs hmem hnl
    · simp only [if_true]
      apply bind_congr_ok
      intro n1 h1
      obtain ⟨e1, e2⟩ := MoveRedRight_toList _ _ h1
      refine RemoveNodeOn_last x y key fuel ih n1 ?_ ?_ ?_
      · rw [inorderKeys, e1]; exact hs
      · rw [inorderKeys, e1]; exact hmem
      · intro h
        apply hnl
        simp only [inorderKeys, List.mem_map] at h ⊢
        obtain ⟨p, hp1, hp2⟩ := h
        exact ⟨p, e2 p hp1, hp2⟩

theorem RemoveNodeOn_indep [LinearOrder K] (x y : Except Fault (Node K V)) (key : K)
    (fuel : Nat) : ∀ (n : Node K V), (inorderKeys n).Pairwise (· < ·) → key ∈ inorderKeys n →
    RemoveNodeOn x fuel n key = RemoveNodeOn y fuel n key := by
  induction fuel with
  | zero => intro n _ _; rfl
  | succ fuel ih =>
    intro n hs hmem
    rcases n with _ | ⟨k, v, c, l, r⟩
    · simp [inorderKeys, toList] at hmem
    rw [RemoveNodeOn, RemoveNodeOn]
    by_cases hlt : key < k
    · simp only [hlt, if_true]
      have hml : key ∈ inorderKeys l := mem_left_of_lt (toList l) (toList r) k key v hs hmem hlt
      have step : ∀ n1 : Node K V, toList n1 = toList (Node.node k v c l r) →
          (∀ p ∈ toList l, p ∈ toList (leftOf n1)) →
          (do
            let l ← n1.getLeft
            let l ← RemoveNodeOn x fuel l key
            let n ← n1.setLeft l
            FixUp n) =
          (do
            let l ← n1.getLeft
            let l ← RemoveNodeOn y fuel l key
            let n ← n1.setLeft l
            FixUp n) := by
        intro n1 h1 h2
        rcases n1 with _ | ⟨k1, v1, c1, l1, r1⟩
        · rfl
        simp only [Node.getLeft, bind, Except.bind]
        have hs1 : (inorderKeys l1).Pairwise (· < ·) := by
          have : (inorderKeys (Node.node k1 v1 c1 l1 r1)).Pairwise (· < ·) := by
            rw [inorderKeys, h1]; exact hs
          simp only [inorderKeys, toList, List.map_append] at this
          exact (List.pairwise_append.mp this).1
        have hm1 : key ∈ inorderKeys l1 := by
          simp only [inorderKeys, List.mem_map] at hml ⊢
          obtain ⟨p, hp1, hp2⟩ := hml
          exact ⟨p, h2 p hp1, hp2⟩
        rw [ih l1 hs1 hm1]
      apply bind_congr_ok
      intro b hb
      cases b
      · simp only [Bool.false_eq_true, if_false, pure, Except.pure, bind, Except.bind]
        exact step _ rfl (fun p hp => hp)
      · simp only [if_true]
        apply bind_congr_ok
        intro n1 h1
        obtain ⟨e1, e2⟩ := MoveRedLeft_toList _ _ h1
        exact step n1 e1 e2
    · simp only [hlt, if_false]
      have hnl : key ∉ inorderKeys l := not_mem_left_of_not_lt (toList l) (toList r) k key v hs hlt
      simp only [Node.getLeft, ok_bind]
      cases hil : IsRed l
      · simp only [Bool.false_eq_true, if_false]
        exact RemoveNodeOn_tail x y key fuel ih _ hs hmem hnl
      · simp only [if_true]
        apply bind_congr_ok
        intro n0 h0
        obtain ⟨e1, e2⟩ := RotateRight_toList _ _ h0
        refine RemoveNodeOn_tail x y key fuel ih n0 ?_ ?_ ?_
        · rw [inorderKeys, e1]; exact hs
        · rw [inorderKeys, e1]; exact hmem
        · intro h
          apply hnl
          simp only [inorderKeys, List.mem_map] at h ⊢
          obtain ⟨p, hp1, hp2⟩ := h
          exact ⟨p, e2 p hp1, hp2⟩

/-! ### `Insert` of a key that is present, and the height -/

theorem FixUp_Valid (n : Node K V) (hv : Valid n) (hne : n ≠ Node.nil) :
    FixUp n = Except.ok n := by
  rcases n with _ | ⟨k, v, c, l, r⟩
  · exact absurd rfl hne
  rcases l with _ | ⟨lk, lv, lc, ll, lr⟩ <;> rcases r with _ | ⟨rk, rv, rc, rl, rr⟩ <;>
    (try cases lc) <;> (try cases rc) <;>
    (try rcases ll with _ | ⟨llk, llv, llc, lll, llr⟩) <;> (try cases llc) <;>
    simp_all [Valid, FixUp, Node.getLeft, Node.getRight, bind, Except.bind, pure, Except.pure]

theorem shape_appendAt [LinearOrder K] (key : K) (value : V) : ∀ (t : Node K V),
    shape (appendAt t key value) = shape t := by
  intro t
  induction t with
  | nil => rfl
  | node k v c l r ihl ihr =>
    simp only [appendAt]
    split_ifs <;> simp [shape, ihl, ihr]


theorem appendAt_props [LinearOrder K] (key : K) (value : V) : ∀ (t : Node K V),
    IsRed (appendAt t key value) = IsRed t ∧ bhL (appendAt t key value) = bhL t ∧
      (appendAt t key value = Node.nil ↔ t = Node.nil) ∧
      (Valid t → Valid (appendAt t key value)) := by
  intro t
  induction t with
  | nil => simp [appendAt]
  | node k v c l r ihl ihr =>
    obtain ⟨l1, l2, _, l4⟩ := ihl
    obtain ⟨r1, r2, _, r4⟩ := ihr
    simp only [appendAt]
    split_ifs <;> cases c <;> simp_all [Valid, bhL]

theorem InsertNode_present [LinearOrder K] (key : K) (value : V) : ∀ (t : Node K V),
    Valid t → GetNode t key ≠ Node.nil →
    InsertNode t key value = Except.ok (appendAt t key value) := by
  intro t
  induction t with
  | nil => intro _ h; simp [GetNode] at h
  | node k v c l r ihl ihr =>
    intro hv hg
    have hfix := FixUp_Valid _ ((appendAt_props key value (Node.node k v c l r)).2.2.2 hv)
      (fun h => by
        have := (appendAt_props key value (Node.node k v c l r)).2.2.1.mp h
        simp at this)
    have hvl : Valid l := hv.1
    have hvr : Valid r := hv.2.1
    by_cases h1 : key < k
    · have hne : key ≠ k := ne_of_lt h1
      simp only [GetNode, hne, h1, if_false, if_true] at hg
      simp only [appendAt, h1, if_true] at hfix
      simp only [InsertNode, h1, if_true, ihl hvl hg, bind, Except.bind, appendAt]
      exact hfix
    · by_cases h2 : key > k
      · have hne : key ≠ k := ne_of_gt h2
        simp only [GetNode, hne, h1, if_false] at hg
        simp only [appendAt, h1, h2, if_true, if_false] at hfix
        simp only [InsertNode, h1, h2, if_true, if_false, ihr hvr hg, bind, Except.bind, appendAt]
        exact hfix
      · simp only [appendAt, h1, h2, if_false] at hfix
        simp only [InsertNode, h1, h2, if_false, appendAt]
        exact hfix

theorem unwindNodes_Valid [LinearOrder K] (key : K) : ∀ (t : Node K V), Valid t →
    ∀ n ∈ unwindNodes t key, Valid n ∧ n ≠ Node.nil := by
  intro t
  induction t with
  | nil => intro _ n hn; simp [unwindNodes] at hn
  | node k v c l r ihl ihr =>
    intro hv n hn
    simp only [unwindNodes, List.mem_cons] at hn
    rcases hn with h | h
    · subst h
      exact ⟨hv, by simp⟩
    · split_ifs at h
      · exact ihl hv.1 n h
      · exact ihr hv.2.1 n h
      · simp at h

theorem pow_bhL_le_size : ∀ (t : Node K V), Valid t → 2 ^ bhL t ≤ t.size + 1 := by
  intro t
  induction t with
  | nil => intro _; simp [bhL, Node.size]
  | node k v c l r ihl ihr =>
    intro hv
    obtain ⟨hvl, hvr, hb, _, _⟩ := hv
    have h1 := ihl hvl
    have h2 := ihr hvr
    rw [hb] at h1
    cases c <;> simp only [bhL, Node.size, if_true, if_false, reduceCtorEq, hb, Nat.add_zero]
    · omega
    · rw [pow_succ]
      omega

theorem height_le_bhL : ∀ (t : Node K V), Valid t →
    height t ≤ 2 * bhL t + (if IsRed t = true then 1 else 0) := by
  intro t
  induction t with
  | nil => intro _; simp [bhL, height]
  | node k v c l r ihl ihr =>
    intro hv
    obtain ⟨hvl, hvr, hb, hr, hc⟩ := hv
    have h1 := ihl hvl
    have h2 := ihr hvr
    rw [hr] at h2
    simp only [Bool.false_eq_true, if_false] at h2
    cases c
    · have hl := hc rfl
      rw [hl] at h1
      simp only [Bool.false_eq_true, if_false] at h1
      simp only [bhL, height, IsRed_red, if_true, reduceCtorEq, if_false]
      omega
    · simp only [bhL, height, IsRed_black, if_true, Bool.false_eq_true, if_false]
      split_ifs at h1 <;> omega

theorem height_le_log (t : Node K V) (hv : Valid t) (hb : IsRed t = false) :
    height t ≤ 2 * Nat.log 2 (t.size + 1) ∧ 2 ^ height t ≤ (t.size + 1) ^ 2 := by
  have h1 := height_le_bhL t hv
  rw [hb] at h1
  simp only [Bool.false_eq_true, if_false, Nat.add_zero] at h1
  have h2 := pow_bhL_le_size t hv
  have h3 : bhL t ≤ Nat.log 2 (t.size + 1) := Nat.le_log_of_pow_le (by norm_num) h2
  refine ⟨by omega, ?_⟩
  calc 2 ^ height t ≤ 2 ^ (2 * bhL t) := Nat.pow_le_pow_right (by norm_num) h1
    _ = (2 ^ bhL t) ^ 2 := by rw [Nat.mul_comm, pow_mul]
    _ ≤ (t.size + 1) ^ 2 := Nat.pow_le_pow_left h2 2

/-! ### The counter after repeated `Insert` -/

theorem UINT_MOD_pos : 0 < UINT_MOD := by
  unfold UINT_MOD
  norm_num

theorem totalL_runL_replicate [LinearOrder K] (k : K) (v : V) (n : Nat) :
    ∀ (s : List (K × List V)),
      totalL (runL s (List.replicate n (Op.insert k v))) = totalL s + n := by
  induction n with
  | zero => intro s; simp [runL]
  | succ n ih =>
    intro s
    have h := ih (insL s k v)
    rw [totalL_insL] at h
    simp only [runL, List.replicate_succ, List.foldl_cons, applyL] at h ⊢
    rw [h]
    omega

theorem size_after_inserts [LinearOrder K] (k : K) (v : V) (n : Nat) :
    ∃ m : Multimap K V, run (List.replicate n (Op.insert k v)) = Except.ok m ∧
      totalValues m.root = n ∧ Size m = n % UINT_MOD := by
  obtain ⟨m, h1, hinv, h3⟩ := run_spec (List.replicate n (Op.insert k v))
  have ht : totalValues m.root = n := by
    show totalL (toList m.root) = n
    rw [h3, totalL_runL_replicate]
    simp [totalL]
  refine ⟨m, h1, ht, ?_⟩
  rw [Size, hinv.2.2.2.2, ht]

/-! ### The claims -/

/-- C1 (order invariant): every sequence of `Insert` and `Remove` calls on the empty map
runs without fault and ends in a binary search tree: at every node the keys of the left
subtree are smaller and the keys of the right subtree are larger, so the in-order keys
are strictly increasing and no key occurs twice. -/
theorem C1_order_invariant [LinearOrder K] (ops : List (Op K V)) :
    ∃ m, run ops = Except.ok m ∧ BST m.root ∧
      (inorderKeys m.root).Pairwise (· < ·) ∧ (inorderKeys m.root).Nodup := by
  obtain ⟨m, h1, h2, _⟩ := run_spec ops
  exact ⟨m, h1, BST_of_sorted m.root h2.2.2.1, h2.2.2.1,
    h2.2.2.1.imp (fun h => ne_of_lt h)⟩

/-- C2 (black balance): in every state reached from the empty map by `Insert` and `Remove`
calls (also by a `Remove` that only pops a value), all paths from the root to an empty
subtree pass through the same number of BLACK nodes. -/
theorem C2_black_balance [LinearOrder K] (ops : List (Op K V)) :
    ∃ m, run ops = Except.ok m ∧
      ∀ a ∈ pathBlacks m.root, ∀ b ∈ pathBlacks m.root, a = b := by
  obtain ⟨m, h1, h2, _⟩ := run_spec ops
  refine ⟨m, h1, fun a ha b hb => ?_⟩
  rw [pathBlacks_of_Valid m.root h2.1 a ha, pathBlacks_of_Valid m.root h2.1 b hb]

/-- C3 (FIFO per key): in a map reached by the calls `ops`, for a key `k` that is present,
`Get k` returns the oldest value inserted under `k` and not yet removed, that is the head
of the queue of `k` in the history `ops`. -/
theorem C3_fifo_per_key [LinearOrder K] (ops : List (Op K V)) (m : Multimap K V) (k : K)
    (hrun : run ops = Except.ok m) (hc : Contains m k = true) :
    ∃ x xs, pending ops k = x :: xs ∧ Get m k = Except.ok x := by
  obtain ⟨m2, h1, _, h3⟩ := run_pending ops
  rw [hrun] at h1
  cases h1
  have h := h3 k
  rw [Contains_eq] at hc
  rw [Get_eq]
  cases hp : pending ops k with
  | nil =>
    rw [hp] at h
    simp [h] at hc
  | cons x xs =>
    rw [hp] at h
    exact ⟨x, xs, rfl, by simp [h]⟩

/-- C3 witness: values 1, 2, 3 under key 5, other keys inserted and removed in between:
`Get 5` is 1, after one `Remove 5` it is 2, after a second one it is 3. -/
theorem C3_fifo_per_key_witness :
    (run fifoOps = Except.ok (stateOf (run fifoOps)) ∧
      Contains (stateOf (run fifoOps)) 5 = true ∧
      ∃ x xs, pending fifoOps 5 = x :: xs ∧ Get (stateOf (run fifoOps)) 5 = Except.ok x) ∧
    Get (stateOf (run fifoOps)) 5 = Except.ok 1 ∧
    Get (stateOf (run (fifoOps ++ [Op.remove 5]))) 5 = Except.ok 2 ∧
    Get (stateOf (run (fifoOps ++ [Op.remove 5, Op.insert 9 90, Op.remove 5]))) 5 = Except.ok 3 :=
  ⟨⟨rfl, rfl, C3_fifo_per_key fifoOps _ 5 rfl rfl⟩, rfl, rfl, rfl⟩

/-- C4 (Remove on a hit): in a map reached by `Insert` and `Remove` calls, `Remove k` for
a present key `k` returns without fault and takes away exactly the oldest value of `k`:
afterwards the values of `k` are the previous ones without the first (and `k` is absent
when that leaves none, i.e. when `k` had a single value), and every other key has exactly its previous value sequence. -/
theorem C4_remove_hit [LinearOrder K] (ops : List (Op K V)) (m : Multimap K V) (k : K)
    (hrun : run ops = Except.ok m) (hc : Contains m k = true) :
    ∃ m2 vs, Remove m k = Except.ok m2 ∧ values? m.root k = some vs ∧ vs ≠ [] ∧
      values? m2.root k = (if vs.length ≤ 1 then none else some vs.tail) ∧
      ∀ k2, k2 ≠ k → values? m2.root k2 = values? m.root k2 := by
  have hinv := Inv_of_run hrun
  obtain ⟨m2, h1, h2, h3, _⟩ := Remove_spec m k hinv hc
  have hs := hinv.2.2.1
  have hl : ∀ k2, values? m2.root k2 = lookupL (remL (toList m.root) k) k2 := by
    intro k2
    rw [values?_eq_lookupL k2 m2.root h2.2.2.1, h3]
  have hcv := hc
  rw [Contains_eq] at hcv
  cases hv : values? m.root k with
  | none => simp [hv] at hcv
  | some vs =>
    have hvl : lookupL (toList m.root) k = some vs := by
      rw [← values?_eq_lookupL k m.root hs, hv]
    have hne : vs ≠ [] := by
      have hmem : (k, vs) ∈ toList m.root := by
        clear hl h3 hv hcv
        revert hvl
        generalize toList m.root = s
        intro hvl
        induction s with
        | nil => simp [lookupL] at hvl
        | cons x xs ih =>
          obtain ⟨x1, x2⟩ := x
          by_cases hk : k = x1
          · simp only [lookupL, hk, if_true, Option.some.injEq] at hvl
            simp [hk, hvl]
          · simp only [lookupL, hk, if_false] at hvl
            exact List.mem_cons_of_mem _ (ih hvl)
      exact hinv.2.2.2.1 (k, vs) hmem
    refine ⟨m2, vs, h1, rfl, hne, ?_, ?_⟩
    · rw [hl k, lookupL_remL _ k k hs, hvl]
      cases vs with
      | nil => exact absurd rfl hne
      | cons w ws =>
        cases ws with
        | nil => simp
        | cons y ys => simp
    · intro k2 hk2
      rw [hl k2, lookupL_remL _ k k2 hs, values?_eq_lookupL k2 m.root hs]
      simp [hk2]

/-- C4 witness: the two-child case. After inserting keys 2, 1, 3 the root holds key 2
and has two children; `Remove 2` copies the successor 3 into the root and deletes it
below. -/
theorem C4_remove_hit_witness :
    run twoChildOps = Except.ok (stateOf (run twoChildOps)) ∧
    Contains (stateOf (run twoChildOps)) 2 = true ∧
    ∃ m2 vs, Remove (stateOf (run twoChildOps)) 2 = Except.ok m2 ∧
      values? (stateOf (run twoChildOps)).root 2 = some vs ∧ vs ≠ [] ∧
      values? m2.root 2 = (if vs.length ≤ 1 then none else some vs.tail) ∧
      ∀ k2, k2 ≠ 2 → values? m2.root k2 = values? (stateOf (run twoChildOps)).root k2 :=
  ⟨rfl, rfl, C4_remove_hit twoChildOps _ 2 rfl rfl⟩

/-- C5 (Insert succeeds and appends): in a map reached by `Insert` and `Remove` calls,
`Insert k v` returns without fault; afterwards `k` is present, its values are the previous
ones (none if `k` was absent) followed by `v`, and every other key has exactly its
previous value sequence. -/
theorem C5_insert_appends [LinearOrder K] (ops : List (Op K V)) (m : Multimap K V) (k : K)
    (v : V) (hrun : run ops = Except.ok m) :
    ∃ m2, Insert m k v = Except.ok m2 ∧ Contains m2 k = true ∧
      values? m2.root k = some ((values? m.root k).getD [] ++ [v]) ∧
      ∀ k2, k2 ≠ k → values? m2.root k2 = values? m.root k2 := by
  have hinv := Inv_of_run hrun
  obtain ⟨m2, h1, h2, h3, _⟩ := Insert_spec m k v hinv
  have hs := hinv.2.2.1
  have hl : ∀ k2, values? m2.root k2 = lookupL (insL (toList m.root) k v) k2 := by
    intro k2
    rw [values?_eq_lookupL k2 m2.root h2.2.2.1, h3]
  have hk : values? m2.root k = some ((values? m.root k).getD [] ++ [v]) := by
    rw [hl k, lookupL_insL _ k v k hs, values?_eq_lookupL k m.root hs]
    simp
  refine ⟨m2, h1, ?_, hk, ?_⟩
  · rw [Contains_eq, hk]
    rfl
  · intro k2 hk2
    rw [hl k2, lookupL_insL _ k v k2 hs, values?_eq_lookupL k2 m.root hs]
    simp [hk2]

/-- C5 witness: a third value under key 3 of the map with keys 0, 1, 2, 3. -/
theorem C5_insert_appends_witness :
    run rotOps = Except.ok (stateOf (run rotOps)) ∧
    ∃ m2, Insert (stateOf (run rotOps)) 3 32 = Except.ok m2 ∧ Contains m2 3 = true ∧
      values? m2.root 3 = some ((values? (stateOf (run rotOps)).root 3).getD [] ++ [32]) ∧
      ∀ k2, k2 ≠ 3 → values? m2.root k2 = values? (stateOf (run rotOps)).root k2 :=
  ⟨rfl, C5_insert_appends rotOps _ 3 32 rfl⟩

/-- C6 counterexample: after `Insert(5, 1)` and `Insert(5, 2)` the tree has one node and
`Size()` is 2; the second `Insert`, of a key already present, raised `Size()` from 1 to 2. -/
theorem C6_counterexample :
    ∃ m1 m2, run [Op.insert 5 1] = Except.ok m1 ∧ Contains m1 5 = true ∧
      Insert m1 5 2 = Except.ok m2 ∧ run dupOps = Except.ok m2 ∧
      Size m1 = 1 ∧ Size m2 = 2 ∧ m2.root.size = 1 ∧ Size m2 ≠ m2.root.size :=
  ⟨_, _, rfl, rfl, rfl, rfl, rfl, rfl, rfl, by decide⟩

/-- C6 (amended): `Size()` counts stored values, not nodes. In every map reached by
`Insert` and `Remove` calls `Size()` is the number of stored values modulo `2 ^ 32`, and
`Insert` of a key that is already present creates no node and still raises `Size()` by
one (modulo `2 ^ 32`). -/
theorem C6_size_counts_values [LinearOrder K] (ops : List (Op K V)) (m : Multimap K V) (k : K)
    (v : V) (hrun : run ops = Except.ok m) (hc : Contains m k = true) :
    ∃ m2, Insert m k v = Except.ok m2 ∧ m2.root.size = m.root.size ∧
      Size m2 = (Size m + 1) % UINT_MOD ∧ Size m = totalValues m.root % UINT_MOD ∧
      Size m2 = totalValues m2.root % UINT_MOD := by
  have hinv := Inv_of_run hrun
  obtain ⟨m2, h1, h2, h3, h4⟩ := Insert_spec m k v hinv
  have hs := hinv.2.2.1
  have hmem := (Contains_iff m k hs).mp hc
  refine ⟨m2, h1, ?_, h4, hinv.2.2.2.2, h2.2.2.2.2⟩
  rw [size_eq_length, size_eq_length, h3]
  exact length_insL_mem _ k v hs hmem

/-- C6 witness: a third value under key 3 of the map with keys 0, 1, 2, 3. -/
theorem C6_size_counts_values_witness :
    run rotOps = Except.ok (stateOf (run rotOps)) ∧
    Contains (stateOf (run rotOps)) 3 = true ∧
    ∃ m2, Insert (stateOf (run rotOps)) 3 32 = Except.ok m2 ∧
      m2.root.size = (stateOf (run rotOps)).root.size ∧
      Size m2 = (Size (stateOf (run rotOps)) + 1) % UINT_MOD ∧
      Size (stateOf (run rotOps)) = totalValues (stateOf (run rotOps)).root % UINT_MOD ∧
      Size m2 = totalValues m2.root % UINT_MOD :=
  ⟨rfl, rfl, C6_size_counts_values rotOps _ 3 32 rfl rfl⟩

/-- C7 counterexample: `2 ^ 32` calls `Insert(0, 0)` on the empty map store `2 ^ 32` values
under the key 0, and the `unsigned int` counter has wrapped: `Size()` is 0, not the number of
stored values. -/
theorem C7_counterexample :
    UINT_MOD = 2 ^ 32 ∧
    ∃ m : Multimap Nat Nat, run (List.replicate UINT_MOD (Op.insert 0 0)) = Except.ok m ∧
      totalValues m.root = UINT_MOD ∧ Size m = 0 ∧ Size m ≠ totalValues m.root := by
  refine ⟨rfl, ?_⟩
  obtain ⟨m, h1, h2, h3⟩ := size_after_inserts (0 : Nat) (0 : Nat) UINT_MOD
  rw [Nat.mod_self] at h3
  refine ⟨m, h1, h2, h3, ?_⟩
  rw [h2, h3]
  exact Nat.ne_of_lt UINT_MOD_pos

/-- C7 (amended): `Size()` is the number of stored values modulo `2 ^ 32`. Every sequence of
`Insert` and `Remove` calls on the empty map returns a map in which `Size()` is the total number
of values stored over all keys, reduced modulo `2 ^ 32` (the width of the `unsigned int`
counter), hence that number itself while it is below `2 ^ 32`. From there every `Insert` stores
one more value and adds one to `Size()` modulo `2 ^ 32`, every `Remove` of a present key stores
one value less and subtracts one modulo `2 ^ 32`, and `Remove` of an absent key changes
nothing. -/
theorem C7_size_is_value_count_mod [LinearOrder K] (ops : List (Op K V)) :
    ∃ m, run ops = Except.ok m ∧ Size m = totalValues m.root % UINT_MOD ∧
      (totalValues m.root < UINT_MOD → Size m = totalValues m.root) ∧
      (∀ k v, ∃ m2, Insert m k v = Except.ok m2 ∧
        totalValues m2.root = totalValues m.root + 1 ∧
        Size m2 = (Size m + 1) % UINT_MOD ∧ Size m2 = totalValues m2.root % UINT_MOD) ∧
      (∀ k, Contains m k = true → ∃ m2, Remove m k = Except.ok m2 ∧
        totalValues m2.root + 1 = totalValues m.root ∧
        Size m2 = (Size m + UINT_MOD - 1) % UINT_MOD ∧
        Size m2 = totalValues m2.root % UINT_MOD) ∧
      (∀ k, Contains m k = false → Remove m k = Except.ok m) := by
  obtain ⟨m, h1, hinv, _⟩ := run_spec ops
  have hsz : Size m = totalValues m.root % UINT_MOD := hinv.2.2.2.2
  refine ⟨m, h1, hsz, ?_, ?_, ?_, Remove_absent m⟩
  · intro hfit
    rw [hsz]
    exact Nat.mod_eq_of_lt hfit
  · intro k v
    obtain ⟨m2, e1, e2, e3, e4⟩ := Insert_spec m k v hinv
    refine ⟨m2, e1, ?_, e4, e2.2.2.2.2⟩
    show totalL (toList m2.root) = totalL (toList m.root) + 1
    rw [e3, totalL_insL]
  · intro k hc
    obtain ⟨m2, e1, e2, e3, e4⟩ := Remove_spec m k hinv hc
    refine ⟨m2, e1, ?_, e4, e2.2.2.2.2⟩
    show totalL (toList m2.root) + 1 = totalL (toList m.root)
    rw [e3]
    exact totalL_remL _ k hinv.2.2.2.1 ((Contains_iff m k hinv.2.2.1).mp hc)

/-- C7 witness: values 1, 2, 3 under each of the keys 2, 5, 18, 42, 43, 16 give 18 stored
values and `Size() == 18`, and one `Remove` per key then gives 12 stored values and
`Size() == 12`. -/
theorem C7_size_is_value_count_mod_witness :
    (Size (stateOf (run testInserts)) = totalValues (stateOf (run testInserts)).root % UINT_MOD ∧
      totalValues (stateOf (run testInserts)).root = 18 ∧
      Size (stateOf (run testInserts)) = 18) ∧
    (Size (stateOf (run testInsertsRemoves)) =
        totalValues (stateOf (run testInsertsRemoves)).root % UINT_MOD ∧
      totalValues (stateOf (run testInsertsRemoves)).root = 12 ∧
      Size (stateOf (run testInsertsRemoves)) = 12) := by
  obtain ⟨m, a1, a2, _⟩ := C7_size_is_value_count_mod testInserts
  obtain ⟨n, b1, b2, _⟩ := C7_size_is_value_count_mod testInsertsRemoves
  have ha : run testInserts = Except.ok (stateOf (run testInserts)) := rfl
  have hb : run testInsertsRemoves = Except.ok (stateOf (run testInsertsRemoves)) := rfl
  rw [ha] at a1
  rw [hb] at b1
  cases a1
  cases b1
  exact ⟨⟨a2, rfl, rfl⟩, ⟨b2, rfl, rfl⟩⟩

/-- C8 (no-op removal): `Remove` of a key that is absent returns the map unchanged: the
same tree (shape, colours, keys, value sequences) and the same `Size()`, hence the same
`Min()` and `Max()`. -/
theorem C8_remove_absent_noop [LinearOrder K] (m : Multimap K V) (key : K)
    (hc : Contains m key = false) :
    Remove m key = Except.ok m ∧
      ∀ m2, Remove m key = Except.ok m2 →
        m2.root = m.root ∧ Size m2 = Size m ∧ Min m2 = Min m ∧ Max m2 = Max m := by
  have h := Remove_absent m key hc
  refine ⟨h, fun m2 h2 => ?_⟩
  rw [h] at h2
  cases h2
  exact ⟨rfl, rfl, rfl, rfl⟩

/-- C8 witness: key 7 is absent from the map with keys 0, 1, 2, 3. -/
theorem C8_remove_absent_noop_witness :
    Contains (stateOf (run rotOps)) 7 = false ∧
    (Remove (stateOf (run rotOps)) 7 = Except.ok (stateOf (run rotOps)) ∧
      ∀ m2, Remove (stateOf (run rotOps)) 7 = Except.ok m2 →
        m2.root = (stateOf (run rotOps)).root ∧ Size m2 = Size (stateOf (run rotOps)) ∧
          Min m2 = Min (stateOf (run rotOps)) ∧ Max m2 = Max (stateOf (run rotOps))) :=
  ⟨rfl, C8_remove_absent_noop (stateOf (run rotOps)) 7 rfl⟩

/-- C9 counterexample: in the map with keys 0, 1, 2, 3 and two values under key 3,
`Remove 3` only pops a value, and yet the root changes from key 2 to key 1: the shape of
the tree is not the one before the call. -/
theorem C9_counterexample :
    ∃ m m2, run rotOps = Except.ok m ∧ values? m.root 3 = some [30, 31] ∧
      Remove m 3 = Except.ok m2 ∧ values? m2.root 3 = some [31] ∧
      shape m2.root ≠ shape m.root :=
  ⟨_, _, rfl, rfl, rfl, rfl, by decide⟩

/-- C9 (amended): in a map reached by `Insert` and `Remove` calls, `Remove k` for a key
with at least two values takes no node out and adds none (the same keys in the same
in-order sequence, the same number of nodes), changes only the value sequence of `k`, by
dropping its first element, and leaves a left-leaning red-black tree with a BLACK root.
Nothing is said about the parent/child arrangement and the colours. -/
theorem C9_remove_keeps_node [LinearOrder K] (ops : List (Op K V)) (m : Multimap K V) (k : K)
    (vs : List V) (hrun : run ops = Except.ok m) (hv : values? m.root k = some vs)
    (hlen : 2 ≤ vs.length) :
    ∃ m2, Remove m k = Except.ok m2 ∧ inorderKeys m2.root = inorderKeys m.root ∧
      m2.root.size = m.root.size ∧ values? m2.root k = some vs.tail ∧
      (∀ k2, k2 ≠ k → values? m2.root k2 = values? m.root k2) ∧
      Valid m2.root ∧ IsRed m2.root = false := by
  have hinv := Inv_of_run hrun
  have hs := hinv.2.2.1
  have hc : Contains m k = true := by
    rw [Contains_eq, hv]
    rfl
  obtain ⟨m2, h1, h2, h3, _⟩ := Remove_spec m k hinv hc
  have hvl : lookupL (toList m.root) k = some vs := by
    rw [← values?_eq_lookupL k m.root hs, hv]
  have hkeys : inorderKeys m2.root = inorderKeys m.root := by
    simp only [inorderKeys, h3]
    exact keys_remL_multi _ k vs hvl hlen
  have hl : ∀ k2, values? m2.root k2 = lookupL (remL (toList m.root) k) k2 := by
    intro k2
    rw [values?_eq_lookupL k2 m2.root h2.2.2.1, h3]
  refine ⟨m2, h1, hkeys, ?_, ?_, ?_, h2.1, h2.2.1⟩
  · have := congrArg List.length hkeys
    simpa [inorderKeys, size_eq_length] using this
  · have h1' : 1 < vs.length := by omega
    rw [hl k, lookupL_remL _ k k hs, hvl]
    simp [h1']
  · intro k2 hk2
    rw [hl k2, lookupL_remL _ k k2 hs, values?_eq_lookupL k2 m.root hs]
    simp [hk2]

/-- C9 witness: `Remove 3` in the map with keys 0, 1, 2, 3 and the values 30, 31 under
key 3. -/
theorem C9_remove_keeps_node_witness :
    run rotOps = Except.ok (stateOf (run rotOps)) ∧
    values? (stateOf (run rotOps)).root 3 = some [30, 31] ∧ 2 ≤ [30, 31].length ∧
    ∃ m2, Remove (stateOf (run rotOps)) 3 = Except.ok m2 ∧
      inorderKeys m2.root = inorderKeys (stateOf (run rotOps)).root ∧
      m2.root.size = (stateOf (run rotOps)).root.size ∧
      values? m2.root 3 = some [30, 31].tail ∧
      (∀ k2, k2 ≠ 3 → values? m2.root k2 = values? (stateOf (run rotOps)).root k2) ∧
      Valid m2.root ∧ IsRed m2.root = false :=
  ⟨rfl, rfl, by decide, C9_remove_keeps_node rotOps _ 3 [30, 31] rfl rfl (by decide)⟩

/-- C10 counterexample: two values under key 5 of the empty map, then two `Remove 5`:
`Size()` goes 2, 1, 0. It falls by 2, not by 1, and it falls already at the first
removal. -/
theorem C10_counterexample :
    ∃ m0 m1 m2, Contains (empty : Multimap Nat Nat) 5 = false ∧
      runFrom empty [Op.insert 5 1, Op.insert 5 2] = Except.ok m0 ∧
      Remove m0 5 = Except.ok m1 ∧ Remove m1 5 = Except.ok m2 ∧ Contains m2 5 = false ∧
      Size m0 = 2 ∧ Size m1 = 1 ∧ Size m2 = 0 ∧ Size m0 - Size m2 ≠ 1 :=
  ⟨_, _, _, rfl, rfl, rfl, rfl, rfl, rfl, rfl, rfl, by decide⟩

/-- C10 (amended): in a map reached by `Insert` and `Remove` calls that does not contain
`k`, after inserting `n >= 1` values under `k` and then calling `Remove k` `j <= n` times,
`Size()` is the size before the inserts plus `n - j` (modulo `2 ^ 32`): it falls by one
at each removal. `k` is present as long as `j < n`; after the `n`-th removal `k` is absent
and `Size()` and the contents are those from before the inserts. -/
theorem C10_multiplicity_round_trip [LinearOrder K] (ops : List (Op K V)) (m : Multimap K V)
    (k : K) (v : V) (vs : List V) (j : Nat) (hrun : run ops = Except.ok m)
    (habs : Contains m k = false) (hj : j ≤ (v :: vs).length) :
    ∃ mj, runFrom m ((v :: vs).map (Op.insert k) ++ List.replicate j (Op.remove k))
        = Except.ok mj ∧
      Size mj = (Size m + ((v :: vs).length - j)) % UINT_MOD ∧
      Contains mj k = decide (j < (v :: vs).length) ∧
      (j = (v :: vs).length → Size mj = Size m ∧ toList mj.root = toList m.root) := by
  have hinv := Inv_of_run hrun
  have hs := hinv.2.2.1
  have hnot : k ∉ (toList m.root).map Prod.fst := by
    intro hm
    have := (Contains_iff m k hs).mpr hm
    rw [habs] at this
    exact Bool.false_ne_true this
  obtain ⟨a, b, hab, ha, hb⟩ := split_at_key (toList m.root) k hs hnot
  obtain ⟨mj, h1, h2, h3⟩ := runFrom_spec
    ((v :: vs).map (Op.insert k) ++ List.replicate j (Op.remove k)) m hinv
  have h4 : toList mj.root =
      if j < (v :: vs).length then a ++ (k, (v :: vs).drop j) :: b else a ++ b := by
    rw [h3, runL_append, hab, runL_inserts a b k ha hb v vs]
    exact runL_removes a b k ha j (v :: vs) hj (by simp)
  have hsz : Size m = (totalL a + totalL b) % UINT_MOD := by
    have := hinv.2.2.2.2
    simp only [Size, this, totalValues]
    rw [hab]
    have := totalL_append a b
    simp only [totalL] at this
    simp only [totalL, this]
  have hszj : Size mj = totalL (toList mj.root) % UINT_MOD := by
    have := h2.2.2.2.2
    simp only [Size, this, totalValues, totalL]
  have hkb : k ∉ b.map Prod.fst := fun h => absurd (hb k h) (lt_irrefl k)
  have hka : k ∉ a.map Prod.fst := fun h => absurd (ha k h) (lt_irrefl k)
  refine ⟨mj, h1, ?_, ?_, ?_⟩
  · rw [hszj, hsz, h4]
    by_cases hlt : j < (v :: vs).length
    · have h5 : totalL (a ++ (k, (v :: vs).drop j) :: b) =
          totalL a + totalL b + ((v :: vs).length - j) := by
        simp only [totalL, List.map_append, List.map_cons, List.sum_append, List.sum_cons,
          List.length_drop]
        omega
      simp only [hlt, if_true, h5, UINT_MOD]
      omega
    · have h5 : (v :: vs).length - j = 0 := by omega
      simp only [hlt, if_false, h5, totalL_append, UINT_MOD]
      omega
  · by_cases hlt : j < (v :: vs).length
    · have : k ∈ inorderKeys mj.root := by
        simp only [inorderKeys, h4, hlt, if_true]
        simp
      rw [(Contains_iff mj k h2.2.2.1).mpr this]
      exact (decide_eq_true hlt).symm
    · have : k ∉ inorderKeys mj.root := by
        simp only [inorderKeys, h4, hlt, if_false, List.map_append, List.mem_append, not_or]
        exact ⟨hka, hkb⟩
      have hcf : Contains mj k = false := by
        cases hc : Contains mj k
        · rfl
        · exact absurd ((Contains_iff mj k h2.2.2.1).mp hc) this
      rw [hcf]
      exact (decide_eq_false hlt).symm
  · intro hjn
    have hlt : ¬ j < (v :: vs).length := by omega
    constructor
    · rw [hszj, hsz, h4]
      simp only [hlt, if_false, totalL_append]
    · rw [h4, hab, if_neg hlt]

/-- C10 witness: three values under the absent key 7 of the map with keys 0, 1, 2, 3,
then three `Remove 7`. -/
theorem C10_multiplicity_round_trip_witness :
    run rotOps = Except.ok (stateOf (run rotOps)) ∧
    Contains (stateOf (run rotOps)) 7 = false ∧ 3 ≤ [71, 72, 73].length ∧
    ∃ mj, runFrom (stateOf (run rotOps))
        ([71, 72, 73].map (Op.insert 7) ++ List.replicate 3 (Op.remove 7)) = Except.ok mj ∧
      Size mj = (Size (stateOf (run rotOps)) + ([71, 72, 73].length - 3)) % UINT_MOD ∧
      Contains mj 7 = decide (3 < [71, 72, 73].length) ∧
      (3 = [71, 72, 73].length →
        Size mj = Size (stateOf (run rotOps)) ∧
          toList mj.root = toList (stateOf (run rotOps)).root) :=
  ⟨rfl, rfl, by decide, C10_multiplicity_round_trip rotOps _ 7 71 [72, 73] 3 rfl rfl (by decide)⟩

/-- C11 (Get fails exactly on absent keys): in the map reached by the calls `ops`, `Get k`
fails with the `std::runtime_error` exactly when no value is stored under `k` (the queue of
`k` in the history is empty, equivalently the tree holds no value for `k`), and it returns
a value otherwise; on the empty map `Get` fails for every key. -/
theorem C11_get_fails_iff_absent [LinearOrder K] (ops : List (Op K V)) (k : K) :
    ∃ m, run ops = Except.ok m ∧
      (Get m k = Except.error Fault.runtimeError ↔ pending ops k = []) ∧
      (Get m k = Except.error Fault.runtimeError ↔ storedCount m.root k = 0) ∧
      (pending ops k ≠ [] → ∃ x, Get m k = Except.ok x) ∧
      Get (empty : Multimap K V) k = Except.error Fault.runtimeError := by
  obtain ⟨m, h1, _, h3⟩ := run_pending ops
  have h := h3 k
  refine ⟨m, h1, ?_, ?_, ?_, ?_⟩
  · rw [Get_eq]
    cases hp : pending ops k with
    | nil => rw [hp] at h; simp [h]
    | cons x xs => rw [hp] at h; simp [h]
  · rw [Get_eq]
    simp only [storedCount]
    cases hp : pending ops k with
    | nil => rw [hp] at h; simp [h]
    | cons x xs => rw [hp] at h; simp [h]
  · intro hne
    rw [Get_eq]
    cases hp : pending ops k with
    | nil => exact absurd hp hne
    | cons x xs => rw [hp] at h; exact ⟨x, by simp [h]⟩
  · simp [Get, empty, GetNode]

/-- C13 (Min and Max return the extreme keys): in a non-empty map reached by `Insert` and
`Remove` calls, `Min()` and `Max()` return keys that are present, and every present key
lies between them. -/
theorem C13_min_max_extreme [LinearOrder K] (ops : List (Op K V)) (m : Multimap K V)
    (hrun : run ops = Except.ok m) (hne : m.root ≠ Node.nil) :
    ∃ kmin kmax, Min m = Except.ok kmin ∧ Max m = Except.ok kmax ∧
      Contains m kmin = true ∧ Contains m kmax = true ∧
      ∀ k, Contains m k = true → kmin ≤ k ∧ k ≤ kmax := by
  have hinv := Inv_of_run hrun
  have hs := hinv.2.2.1
  obtain ⟨kmin, h1, h2, h3⟩ := Min_spec m hs hne
  obtain ⟨kmax, h4, h5, h6⟩ := Max_spec m hs hne
  refine ⟨kmin, kmax, h1, h4, (Contains_iff m kmin hs).mpr h2, (Contains_iff m kmax hs).mpr h5,
    fun k hk => ?_⟩
  have := (Contains_iff m k hs).mp hk
  exact ⟨h3 k this, h6 k this⟩

/-- C13 witness: after inserting the keys 2, 18, 42, 43, 16, `Min()` is 2 and `Max()` is 43;
after removing 2 and 43, `Min()` is 16 and `Max()` is 42. -/
theorem C13_min_max_extreme_witness :
    (run minMaxOps = Except.ok (stateOf (run minMaxOps)) ∧
      (stateOf (run minMaxOps)).root ≠ Node.nil ∧
      ∃ kmin kmax, Min (stateOf (run minMaxOps)) = Except.ok kmin ∧
        Max (stateOf (run minMaxOps)) = Except.ok kmax ∧
        Contains (stateOf (run minMaxOps)) kmin = true ∧
        Contains (stateOf (run minMaxOps)) kmax = true ∧
        ∀ k, Contains (stateOf (run minMaxOps)) k = true → kmin ≤ k ∧ k ≤ kmax) ∧
    Min (stateOf (run minMaxOps)) = Except.ok 2 ∧
    Max (stateOf (run minMaxOps)) = Except.ok 43 ∧
    Min (stateOf (run (minMaxOps ++ [Op.remove 2, Op.remove 43]))) = Except.ok 16 ∧
    Max (stateOf (run (minMaxOps ++ [Op.remove 2, Op.remove 43]))) = Except.ok 42 :=
  ⟨⟨rfl, by decide, C13_min_max_extreme minMaxOps _ rfl (by decide)⟩, rfl, rfl, rfl, rfl⟩

/-- C14 (the code at the failing input): on a map without nodes, freshly constructed or
emptied by a removal, `Min()` and `Max()` read a field of the absent root. -/
theorem C14_min_max_on_empty :
    Min (empty : Multimap K V) = Except.error Fault.nullDeref ∧
    Max (empty : Multimap K V) = Except.error Fault.nullDeref ∧
    (stateOf (run [Op.insert 5 1, Op.remove 5]) : Multimap Nat Nat).root = Node.nil ∧
    Min (stateOf (run [Op.insert 5 1, Op.remove 5]) : Multimap Nat Nat) =
      Except.error Fault.nullDeref ∧
    Max (stateOf (run [Op.insert 5 1, Op.remove 5]) : Multimap Nat Nat) =
      Except.error Fault.nullDeref :=
  ⟨rfl, rfl, rfl, rfl, rfl⟩

/-- C15 (no right-leaning red): in every state reached from the empty map by `Insert` and
`Remove` calls, no node has a RED right child next to a left child that is not RED (in
fact no node has a RED right child at all). -/
theorem C15_no_right_leaning_red [LinearOrder K] (ops : List (Op K V)) :
    ∃ m, run ops = Except.ok m ∧ noRightLeaningRed m.root := by
  obtain ⟨m, h1, h2, _⟩ := run_spec ops
  exact ⟨m, h1, noRightLeaningRed_of_Valid m.root h2.1⟩

/-- C16 (root is black): a map reached by `Insert` and `Remove` calls has no RED root;
after every further `Insert` the root exists and is BLACK, and after every further `Remove`
that leaves a node the root is BLACK. -/
theorem C16_root_black [LinearOrder K] (ops : List (Op K V)) (m : Multimap K V) (k : K) (v : V)
    (hrun : run ops = Except.ok m) :
    rootColor? m.root ≠ some Color.RED ∧
    (∃ m2, Insert m k v = Except.ok m2 ∧ rootColor? m2.root = some Color.BLACK) ∧
    (∃ m3, Remove m k = Except.ok m3 ∧
      (m3.root ≠ Node.nil → rootColor? m3.root = some Color.BLACK)) := by
  have hinv := Inv_of_run hrun
  refine ⟨rootColor?_ne_red m.root hinv.2.1, ?_, ?_⟩
  · obtain ⟨m2, h1, h2, h3, _⟩ := Insert_spec m k v hinv
    refine ⟨m2, h1, rootColor?_of_black m2.root h2.2.1 ?_⟩
    intro hnil
    rw [hnil] at h3
    exact insL_ne_nil _ k v h3.symm
  · obtain ⟨m3, h1, h2, _⟩ := step_spec m (Op.remove k) hinv
    exact ⟨m3, h1, fun hne => rootColor?_of_black m3.root h2.2.1 hne⟩

/-- C16 witness: `Insert(2, 32)` and `Remove(2)` on the map with keys 0, 1, 2, 3. -/
theorem C16_root_black_witness :
    run rotOps = Except.ok (stateOf (run rotOps)) ∧
    (rootColor? (stateOf (run rotOps)).root ≠ some Color.RED ∧
    (∃ m2, Insert (stateOf (run rotOps)) 2 32 = Except.ok m2 ∧
      rootColor? m2.root = some Color.BLACK) ∧
    (∃ m3, Remove (stateOf (run rotOps)) 2 = Except.ok m3 ∧
      (m3.root ≠ Node.nil → rootColor? m3.root = some Color.BLACK))) :=
  ⟨rfl, C16_root_black rotOps _ 2 32 rfl⟩

/-- C17 (values are never empty): in a map reached by `Insert` and `Remove` calls every
node holds at least one value, so `Get` never reads past the end of a value sequence; and
`Remove` of a key that holds a single value takes the node of that key out in the same
call. -/
theorem C17_values_nonempty [LinearOrder K] (ops : List (Op K V)) (m : Multimap K V)
    (hrun : run ops = Except.ok m) :
    allValuesNonempty m.root ∧ (∀ k, Get m k ≠ Except.error Fault.outOfBounds) ∧
    ∀ k v, values? m.root k = some [v] →
      ∃ m2, Remove m k = Except.ok m2 ∧ Contains m2 k = false ∧
        m2.root.size + 1 = m.root.size ∧ allValuesNonempty m2.root := by
  have hinv := Inv_of_run hrun
  have hs := hinv.2.2.1
  refine ⟨(allValuesNonempty_iff m.root).mpr hinv.2.2.2.1, fun k => ?_, fun k v hv => ?_⟩
  · rw [Get_eq]
    cases hv : values? m.root k with
    | none => simp
    | some vs =>
      cases vs with
      | nil => exact absurd rfl (values?_nonempty m hinv k [] hv)
      | cons x xs => simp
  · have hc : Contains m k = true := by
      rw [Contains_eq, hv]
      rfl
    obtain ⟨m2, h1, h2, h3, _⟩ := Remove_spec m k hinv hc
    have hvl : lookupL (toList m.root) k = some [v] := by
      rw [← values?_eq_lookupL k m.root hs, hv]
    refine ⟨m2, h1, ?_, ?_, (allValuesNonempty_iff m2.root).mpr h2.2.2.2.1⟩
    · rw [Contains_eq, values?_eq_lookupL k m2.root h2.2.2.1, h3, lookupL_remL _ k k hs, hvl]
      simp
    · rw [size_eq_length, size_eq_length, h3]
      exact length_remL_single _ k v hvl

/-- C17 witness: in the map with keys 0, 1, 2, 3, key 2 holds the single value 20. -/
theorem C17_values_nonempty_witness :
    run rotOps = Except.ok (stateOf (run rotOps)) ∧
    values? (stateOf (run rotOps)).root 2 = some [20] ∧
    (allValuesNonempty (stateOf (run rotOps)).root ∧
    (∀ k, Get (stateOf (run rotOps)) k ≠ Except.error Fault.outOfBounds) ∧
    ∀ k v, values? (stateOf (run rotOps)).root k = some [v] →
      ∃ m2, Remove (stateOf (run rotOps)) k = Except.ok m2 ∧ Contains m2 k = false ∧
        m2.root.size + 1 = (stateOf (run rotOps)).root.size ∧ allValuesNonempty m2.root) :=
  ⟨rfl, rfl, C17_values_nonempty rotOps _ rfl⟩

/-- C18 (Insert then Remove round trip): in a map reached by `Insert` and `Remove` calls
that does not contain `k`, `Insert(k, v)` makes `k` present and `Remove(k)` right after it
gives a map with the same keys, the same value sequence under every key and the same
`Size()` as before, in which `k` is absent again. -/
theorem C18_insert_remove_round_trip [LinearOrder K] (ops : List (Op K V)) (m : Multimap K V)
    (k : K) (v : V) (hrun : run ops = Except.ok m) (habs : Contains m k = false) :
    ∃ m1 m2, Insert m k v = Except.ok m1 ∧ Contains m1 k = true ∧
      Size m1 = (Size m + 1) % UINT_MOD ∧
      Remove m1 k = Except.ok m2 ∧ inorderKeys m2.root = inorderKeys m.root ∧
      (∀ k2, values? m2.root k2 = values? m.root k2) ∧ Size m2 = Size m ∧
      Contains m2 k = false := by
  have hinv := Inv_of_run hrun
  have hs := hinv.2.2.1
  have hnot : k ∉ (toList m.root).map Prod.fst := by
    intro hm
    have := (Contains_iff m k hs).mpr hm
    rw [habs] at this
    exact Bool.false_ne_true this
  obtain ⟨m1, h1, h2, h3, h4⟩ := Insert_spec m k v hinv
  have hc1 : Contains m1 k = true := by
    rw [Contains_iff m1 k h2.2.2.1]
    simp only [inorderKeys, h3]
    exact (mem_keys_insL _ k v k).mpr (Or.inl rfl)
  obtain ⟨m2, h5, h6, h7, h8⟩ := Remove_spec m1 k h2 hc1
  have hl : toList m2.root = toList m.root := by
    rw [h7, h3]
    exact remL_insL_absent _ k v hs hnot
  refine ⟨m1, m2, h1, hc1, h4, h5, by simp only [inorderKeys, hl], fun k2 => ?_, ?_, ?_⟩
  · rw [values?_eq_lookupL k2 m2.root h6.2.2.1, values?_eq_lookupL k2 m.root hs, hl]
  · have hc := hinv.2.2.2.2
    simp only [Size, UINT_MOD] at *
    omega
  · cases hc : Contains m2 k
    · rfl
    · have := (Contains_iff m2 k h6.2.2.1).mp hc
      simp only [inorderKeys, hl] at this
      exact absurd this hnot

/-- C18 witness: on the empty map, `Insert(7, 70)` gives `Size() == 1` and `Contains(7)`,
and `Remove(7)` gives `Size() == 0` and not `Contains(7)`. -/
theorem C18_insert_remove_round_trip_witness :
    (run ([] : List (Op Nat Nat)) = Except.ok empty ∧
      Contains (empty : Multimap Nat Nat) 7 = false ∧
      ∃ m1 m2, Insert (empty : Multimap Nat Nat) 7 70 = Except.ok m1 ∧
        Contains m1 7 = true ∧ Size m1 = (Size (empty : Multimap Nat Nat) + 1) % UINT_MOD ∧
        Remove m1 7 = Except.ok m2 ∧
        inorderKeys m2.root = inorderKeys (empty : Multimap Nat Nat).root ∧
        (∀ k2, values? m2.root k2 = values? (empty : Multimap Nat Nat).root k2) ∧
        Size m2 = Size (empty : Multimap Nat Nat) ∧ Contains m2 7 = false) ∧
    Size (stateOf (run [Op.insert 7 70])) = 1 ∧
    Contains (stateOf (run [Op.insert 7 70])) 7 = true ∧
    Size (stateOf (run [Op.insert 7 70, Op.remove 7])) = 0 ∧
    Contains (stateOf (run [Op.insert 7 70, Op.remove 7])) 7 = false :=
  ⟨⟨rfl, rfl, C18_insert_remove_round_trip [] empty 7 70 rfl rfl⟩, rfl, rfl, rfl, rfl⟩

/-- C20 (no red-red pair): in every state reached from the empty map by `Insert` and
`Remove` calls, no RED node has a RED left child. -/
theorem C20_no_red_red [LinearOrder K] (ops : List (Op K V)) :
    ∃ m, run ops = Except.ok m ∧ noRedRedLeft m.root := by
  obtain ⟨m, h1, h2, _⟩ := run_spec ops
  exact ⟨m, h1, noRedRedLeft_of_Valid m.root h2.1⟩

/-- C12 (Contains is exact and total): `Contains` is a total function (it returns a
boolean on every map and key), and in the map reached by the calls `ops` it returns true
exactly when a value is stored under `k`, that is when the queue of `k` in the history is
not empty, that is when `ops` holds more `Insert(k, _)` calls than `Remove(k)` calls that
found `k` present. -/
theorem C12_contains_exact [LinearOrder K] (ops : List (Op K V)) (k : K) :
    ∃ m, run ops = Except.ok m ∧
      (Contains m k = true ↔ 0 < storedCount m.root k) ∧
      (Contains m k = true ↔ pending ops k ≠ []) ∧
      (Contains m k = true ↔ removeHits empty ops k < insertCalls ops k) ∧
      storedCount m.root k + removeHits empty ops k = insertCalls ops k := by
  obtain ⟨m, h1, h2, h3⟩ := run_pending ops
  have hcount := storedCount_runFrom k ops empty m Inv_empty h1
  have h0 : storedCount (empty : Multimap K V).root k = 0 := by
    simp [storedCount, values?, empty, GetNode]
  rw [h0, Nat.zero_add] at hcount
  have hc := Contains_iff_storedCount m h2 k
  refine ⟨m, h1, hc, ?_, ?_, hcount⟩
  · rw [Contains_eq, h3 k]
    cases pending ops k <;> simp
  · rw [hc]
    omega

/-- C21 (equal-key insert appends and stops): in a map reached by `Insert` and `Remove` calls,
`Insert k v` of a key `k` that is present returns the tree it was given with `v` appended to
the end of the value sequence of `k` (`appendAt`): parent/child arrangement, keys and colours are
the same, every `FixUp` call of the unwind returns the node it was given, the values of `k` are
the previous ones followed by `v`, and every other key keeps its value sequence. -/
theorem C21_equal_key_insert_appends [LinearOrder K] (ops : List (Op K V)) (m : Multimap K V)
    (k : K) (v : V) (hrun : run ops = Except.ok m) (hc : Contains m k = true) :
    ∃ m2, Insert m k v = Except.ok m2 ∧ m2.root = appendAt m.root k v ∧
      shape m2.root = shape m.root ∧
      (∀ n ∈ unwindNodes m2.root k, FixUp n = Except.ok n) ∧
      (∃ vs, values? m.root k = some vs ∧ values? m2.root k = some (vs ++ [v])) ∧
      (∀ k2, k2 ≠ k → values? m2.root k2 = values? m.root k2) ∧
      toList m2.root = insL (toList m.root) k v := by
  have hinv := Inv_of_run hrun
  obtain ⟨m2, h1, h2, h3, _⟩ := Insert_spec m k v hinv
  have hs := hinv.2.2.1
  have hg : GetNode m.root k ≠ Node.nil := by
    intro h
    simp [Contains, h, Node.isNull] at hc
  have hI := InsertNode_present k v m.root hinv.1 hg
  have hpaint : (appendAt m.root k v).setColor Color.BLACK = Except.ok (appendAt m.root k v) := by
    have hb := hinv.2.1
    rcases hm : m.root with _ | ⟨k0, v0, c0, l0, r0⟩
    · rw [hm] at hg
      simp [GetNode] at hg
    · rw [hm] at hb
      cases c0
      · simp at hb
      · simp only [appendAt]
        split_ifs <;> rfl
  have hroot : m2.root = appendAt m.root k v := by
    simp only [Insert, hI, hpaint, bind, Except.bind, pure, Except.pure, Except.ok.injEq] at h1
    rw [← h1]
  have hl : ∀ k2, values? m2.root k2 = lookupL (insL (toList m.root) k v) k2 := by
    intro k2
    rw [values?_eq_lookupL k2 m2.root h2.2.2.1, h3]
  refine ⟨m2, h1, hroot, ?_, ?_, ?_, ?_, h3⟩
  · rw [hroot, shape_appendAt]
  · intro n hn
    obtain ⟨hv, hne⟩ := unwindNodes_Valid k m2.root h2.1 n hn
    exact FixUp_Valid n hv hne
  · have hsome : ∃ vs, values? m.root k = some vs := by
      simp only [values?]
      rcases hgn : GetNode m.root k with _ | ⟨gk, gv, gc, gl, gr⟩
      · exact absurd hgn hg
      · exact ⟨gv, rfl⟩
    obtain ⟨vs, hvs⟩ := hsome
    refine ⟨vs, hvs, ?_⟩
    rw [hl k, lookupL_insL _ k v k hs, ← values?_eq_lookupL k m.root hs, hvs]
    simp
  · intro k2 hk2
    rw [hl k2, lookupL_insL _ k v k2 hs, values?_eq_lookupL k2 m.root hs]
    simp [hk2]

/-- C21 witness: a second value under key 2, an inner node of the map with keys 0, 1, 2, 3. -/
theorem C21_equal_key_insert_appends_witness :
    run rotOps = Except.ok (stateOf (run rotOps)) ∧ Contains (stateOf (run rotOps)) 2 = true ∧
    ∃ m2, Insert (stateOf (run rotOps)) 2 21 = Except.ok m2 ∧
      m2.root = appendAt (stateOf (run rotOps)).root 2 21 ∧
      shape m2.root = shape (stateOf (run rotOps)).root ∧
      (∀ n ∈ unwindNodes m2.root 2, FixUp n = Except.ok n) ∧
      (∃ vs, values? (stateOf (run rotOps)).root 2 = some vs ∧
        values? m2.root 2 = some (vs ++ [21])) ∧
      (∀ k2, k2 ≠ 2 → values? m2.root k2 = values? (stateOf (run rotOps)).root k2) ∧
      toList m2.root = insL (toList (stateOf (run rotOps)).root) 2 21 :=
  ⟨rfl, rfl, C21_equal_key_insert_appends rotOps _ 2 21 rfl rfl⟩

/-- C22 (Remove never touches a missing node): in a map reached by `Insert` and `Remove`
calls, `Remove key` returns without fault for every key: no field of an absent node is read by
`Remove`, `DeleteMin`, `MoveRedLeft`, `MoveRedRight`, `FlipColors` or `FixUp` (each such read is
`Fault.nullDeref` in the embedding). When the key is present the recursion returns the same tree
whatever the branch `if (!n) return;` is made to give, so that branch is never reached; when the
key is absent the recursion is not entered. -/
theorem C22_remove_reads_no_absent_node [LinearOrder K] (ops : List (Op K V))
    (m : Multimap K V) (hrun : run ops = Except.ok m) (key : K) :
    (∃ m2, Remove m key = Except.ok m2) ∧
    (Contains m key = true →
      ∃ t, RemoveNode (m.root.size + 1) m.root key = Except.ok t ∧
        ∀ onAbsent, RemoveNodeOn onAbsent (m.root.size + 1) m.root key = Except.ok t) ∧
    (Contains m key = false → Remove m key = Except.ok m) := by
  have hinv := Inv_of_run hrun
  have hs := hinv.2.2.1
  refine ⟨?_, ?_, Remove_absent m key⟩
  · cases hc : Contains m key
    · exact ⟨m, Remove_absent m key hc⟩
    · obtain ⟨m2, h1, _⟩ := Remove_spec m key hinv hc
      exact ⟨m2, h1⟩
  · intro hc
    have hmem := (Contains_iff m key hs).mp hc
    obtain ⟨t, ht, _⟩ := RemoveNode_spec (m.root.size + 1) m.root key (Or.inl hinv.1) hs hmem
      (Nat.lt_succ_self _)
    refine ⟨t, ht, fun onAbsent => ?_⟩
    rw [RemoveNodeOn_indep onAbsent (pure Node.nil) key (m.root.size + 1) m.root hs hmem,
      RemoveNodeOn_pure, ht]

/-- C22 witness: `Remove(2)` on the map with keys 2, 1, 3, where 2 is the root and has two
children (the successor is copied and `DeleteMin` runs on the right subtree). -/
theorem C22_remove_reads_no_absent_node_witness :
    run twoChildOps = Except.ok (stateOf (run twoChildOps)) ∧
    (∃ m2, Remove (stateOf (run twoChildOps)) 2 = Except.ok m2) ∧
    (Contains (stateOf (run twoChildOps)) 2 = true →
      ∃ t, RemoveNode ((stateOf (run twoChildOps)).root.size + 1)
          (stateOf (run twoChildOps)).root 2 = Except.ok t ∧
        ∀ onAbsent, RemoveNodeOn onAbsent ((stateOf (run twoChildOps)).root.size + 1)
          (stateOf (run twoChildOps)).root 2 = Except.ok t) ∧
    (Contains (stateOf (run twoChildOps)) 2 = false →
      Remove (stateOf (run twoChildOps)) 2 = Except.ok (stateOf (run twoChildOps))) :=
  ⟨rfl, C22_remove_reads_no_absent_node twoChildOps _ (by rfl) 2⟩

/-- C23 (logarithmic height): every call sequence reaches a map whose tree, with `n` nodes
(one per key, the keys being distinct), has height at most twice the integer part of
`log2 (n + 1)`; equivalently `2 ^ height ≤ (n + 1) ^ 2`. -/
theorem C23_logarithmic_height [LinearOrder K] (ops : List (Op K V)) :
    ∃ m, run ops = Except.ok m ∧ (inorderKeys m.root).Nodup ∧
      (inorderKeys m.root).length = m.root.size ∧
      height m.root ≤ 2 * Nat.log 2 (m.root.size + 1) ∧
      2 ^ height m.root ≤ (m.root.size + 1) ^ 2 := by
  obtain ⟨m, h1, hinv, _⟩ := run_spec ops
  obtain ⟨e1, e2⟩ := height_le_log m.root hinv.1 hinv.2.1
  refine ⟨m, h1, ?_, ?_, e1, e2⟩
  · exact List.Pairwise.imp (fun h => ne_of_lt h) hinv.2.2.1
  · rw [size_eq_length, inorderKeys, List.length_map]

/-- C24 (rotations are order-preserving re-links): `RotateLeft` on a node with a right child and
`RotateRight` on a node with a left child return without fault; the in-order sequence of
`(key, values)` pairs and the number of nodes are unchanged; the new root is the former child
and has the colour the former root had; the former root is the other child of the new root, holds
its key and values and is RED; the three subtrees that hang below the two nodes are the
same trees as before. -/
theorem C24_rotations_relink (n1 n2 : Node K V) (h1 : rightOf n1 ≠ Node.nil)
    (h2 : leftOf n2 ≠ Node.nil) :
    (∃ t, RotateLeft n1 = Except.ok t ∧ toList t = toList n1 ∧ t.size = n1.size ∧
      rootEntry? t = rootEntry? (rightOf n1) ∧ rootColor? t = rootColor? n1 ∧
      rootEntry? (leftOf t) = rootEntry? n1 ∧ rootColor? (leftOf t) = some Color.RED ∧
      leftOf (leftOf t) = leftOf n1 ∧ rightOf (leftOf t) = leftOf (rightOf n1) ∧
      rightOf t = rightOf (rightOf n1)) ∧
    (∃ t, RotateRight n2 = Except.ok t ∧ toList t = toList n2 ∧ t.size = n2.size ∧
      rootEntry? t = rootEntry? (leftOf n2) ∧ rootColor? t = rootColor? n2 ∧
      rootEntry? (rightOf t) = rootEntry? n2 ∧ rootColor? (rightOf t) = some Color.RED ∧
      leftOf t = leftOf (leftOf n2) ∧ leftOf (rightOf t) = rightOf (leftOf n2) ∧
      rightOf (rightOf t) = rightOf n2) := by
  constructor
  · rcases n1 with _ | ⟨k, v, c, l, r⟩
    · exact absurd rfl h1
    rcases r with _ | ⟨rk, rv, rc, rl, rr⟩
    · exact absurd rfl h1
    refine ⟨_, rfl, ?_, ?_, rfl, rfl, rfl, rfl, rfl, rfl, rfl⟩
    · simp [toList]
    · simp [Node.size]
      omega
  · rcases n2 with _ | ⟨k, v, c, l, r⟩
    · exact absurd rfl h2
    rcases l with _ | ⟨lk, lv, lc, ll, lr⟩
    · exact absurd rfl h2
    refine ⟨_, rfl, ?_, ?_, rfl, rfl, rfl, rfl, rfl, rfl, rfl⟩
    · simp [toList]
    · simp [Node.size]
      omega

/-- C24 witness: a BLACK node 1 with a RED right child 2 is rotated left, and the BLACK node 2
with the RED left child 1 that results is rotated right. -/
theorem C24_rotations_relink_witness :
    RotateLeft (Node.node 1 [10] Color.BLACK Node.nil (Node.node 2 [20] Color.RED Node.nil Node.nil))
      = Except.ok (Node.node 2 [20] Color.BLACK (Node.node 1 [10] Color.RED Node.nil Node.nil)
          Node.nil) ∧
    RotateRight (Node.node 2 [20] Color.BLACK (Node.node 1 [10] Color.RED Node.nil Node.nil)
      (Node.nil : Node Nat Nat))
      = Except.ok (Node.node 1 [10] Color.BLACK Node.nil
          (Node.node 2 [20] Color.RED Node.nil Node.nil)) ∧
    ((∃ t, RotateLeft (Node.node 1 [10] Color.BLACK Node.nil
          (Node.node 2 [20] Color.RED Node.nil Node.nil) : Node Nat Nat) = Except.ok t ∧
        toList t = [(1, [10]), (2, [20])] ∧ rootColor? t = some Color.BLACK ∧
        rootColor? (leftOf t) = some Color.RED) ∧
      (∃ t, RotateRight (Node.node 2 [20] Color.BLACK
          (Node.node 1 [10] Color.RED Node.nil Node.nil) Node.nil : Node Nat Nat) = Except.ok t ∧
        toList t = [(1, [10]), (2, [20])] ∧ rootColor? t = some Color.BLACK ∧
        rootColor? (rightOf t) = some Color.RED)) := by
  refine ⟨rfl, rfl, ?_⟩
  obtain ⟨⟨t, a1, a2, _, _, a5, _, a7, _⟩, ⟨u, b1, b2, _, _, b5, _, b7, _⟩⟩ :=
    C24_rotations_relink
      (Node.node 1 [10] Color.BLACK Node.nil (Node.node 2 [20] Color.RED Node.nil Node.nil) :
        Node Nat Nat)
      (Node.node 2 [20] Color.BLACK (Node.node 1 [10] Color.RED Node.nil Node.nil) Node.nil)
      (by simp [rightOf]) (by simp [leftOf])
  exact ⟨⟨t, a1, a2, a5, a7⟩, ⟨u, b1, b2, b5, b7⟩⟩

/-- C25 (DeleteMin removes exactly the minimum): on a non-empty left-leaning red-black subtree
whose root is RED or has a RED left child, `DeleteMin` returns (with any recursion bound above
the number of nodes) a left-leaning red-black subtree whose in-order sequence is that of the
input without its first entry; every path from its root to an empty subtree has as many BLACK
nodes as every such path of the input had, and sorted keys stay sorted. -/
theorem C25_delete_min_exact [LinearOrder K] (n : Node K V) (hne : n ≠ Node.nil) (hv : Valid n)
    (hred : IsRed n = true ∨ IsRed (leftOf n) = true) :
    ∃ t, (∀ fuel, n.size < fuel → DeleteMin fuel n = Except.ok t) ∧
      toList t = (toList n).tail ∧ Valid t ∧
      (∀ d ∈ pathBlacks n, d = bhL n) ∧ (∀ d ∈ pathBlacks t, d = bhL n) ∧
      ((inorderKeys n).Pairwise (· < ·) → (inorderKeys t).Pairwise (· < ·)) := by
  obtain ⟨t, h1, h2, h3⟩ := DeleteMin_spec (n.size + 1) n hv hne (Nat.lt_succ_self _)
  have hrich : rich n = true := by
    rcases hred with h | h <;> simp [rich, h]
  obtain ⟨hvt, hbt, _⟩ := h2.2 hrich
  refine ⟨t, ?_, h3, hvt, pathBlacks_of_Valid n hv, ?_, ?_⟩
  · intro fuel hf
    obtain ⟨d, hd⟩ : ∃ d, fuel = n.size + 1 + d := ⟨fuel - (n.size + 1), by omega⟩
    rw [hd, DeleteMin_fuel_add n (n.size + 1) d (Nat.lt_succ_self _), h1]
  · intro d hd
    rw [← hbt]
    exact pathBlacks_of_Valid t hvt d hd
  · intro hs
    rw [inorderKeys, h3, List.map_tail]
    exact List.Pairwise.tail hs

/-- C25 witness: a RED node 2 with BLACK children 1 and 3 (`redRootTree`); `DeleteMin` moves a
RED link to the left, takes node 1 out, and `FixUp` rotates what is left: node 3, BLACK, with
the RED left child 2. -/
theorem C25_delete_min_exact_witness :
    Valid redRootTree ∧ IsRed redRootTree = true ∧
    DeleteMin 4 redRootTree = Except.ok (Node.node 3 [30] Color.BLACK
      (Node.node 2 [20] Color.RED Node.nil Node.nil) Node.nil) ∧
    ∃ t, (∀ fuel, redRootTree.size < fuel → DeleteMin fuel redRootTree = Except.ok t) ∧
      toList t = (toList redRootTree).tail ∧ Valid t ∧
      (∀ d ∈ pathBlacks redRootTree, d = bhL redRootTree) ∧
      (∀ d ∈ pathBlacks t, d = bhL redRootTree) ∧
      ((inorderKeys redRootTree).Pairwise (· < ·) → (inorderKeys t).Pairwise (· < ·)) :=
  ⟨by simp [redRootTree, Valid, bhL], rfl, rfl,
    C25_delete_min_exact redRootTree (by simp [redRootTree]) (by simp [redRootTree, Valid, bhL])
      (Or.inl rfl)⟩

end Multimap

/-! ### The sibling `Map`: `Insert` and lookup, read through `toMM` -/

namespace Map

open Multimap (Color Fault)

variable {K V : Type}

theorem IsRed_toMM (n : Node K V) : Multimap.IsRed (toMM n) = IsRed n := by
  cases n <;> rfl

theorem FixUp_toMM (n : Node K V) :
    Multimap.FixUp (toMM n) = (match FixUp n with
      | Except.ok t => Except.ok (toMM t)
      | Except.error e => Except.error e) := by
  rcases n with _ | ⟨k, v, c, l, r⟩
  · rfl
  rcases l with _ | ⟨lk, lv, lc, ll, lr⟩ <;> rcases r with _ | ⟨rk, rv, rc, rl, rr⟩ <;>
    (try cases lc) <;> (try cases rc) <;>
    (try rcases ll with _ | ⟨llk, llv, llc, lll, llr⟩) <;> (try cases llc) <;>
    (try rcases rr with _ | ⟨rrk, rrv, rrc, rrl, rrr⟩) <;> (try cases rrc) <;>
    rfl

theorem fixUpInPlace_toMM (n : Node K V) :
    Multimap.FixUp (toMM n) = (match fixUpInPlace n with
      | (t, none) => Except.ok (toMM t)
      | (_, some e) => Except.error e) := by
  rw [FixUp_toMM, fixUpInPlace]
  cases FixUp n <;> rfl

theorem InsertNode_toMM [LinearOrder K] (key : K) (value : V) : ∀ (n : Node K V),
    key ∉ Multimap.inorderKeys (toMM n) →
    Multimap.InsertNode (toMM n) key value = (match InsertNode n key value with
      | (t, none) => Except.ok (toMM t)
      | (_, some e) => Except.error e) := by
  intro n
  induction n with
  | nil =>
    intro _
    exact fixUpInPlace_toMM (Node.node key value Color.RED Node.nil Node.nil)
  | node k v c l r ihl ihr =>
    intro hk
    simp only [Multimap.inorderKeys, toMM, Multimap.toList, List.map_append, List.map_cons,
      List.mem_append, List.mem_cons, not_or] at hk
    obtain ⟨hkl, hkk, hkr⟩ := hk
    by_cases hlt : key < k
    · have ih := ihl hkl
      simp only [toMM, Multimap.InsertNode, InsertNode, hlt, if_true]
      rw [ih]
      rcases InsertNode l key value with ⟨l2, _ | e⟩
      · exact fixUpInPlace_toMM (Node.node k v c l2 r)
      · rfl
    · by_cases hgt : key > k
      · have ih := ihr hkr
        simp only [toMM, Multimap.InsertNode, InsertNode, hlt, hgt, if_true, if_false]
        rw [ih]
        rcases InsertNode r key value with ⟨r2, _ | e⟩
        · exact fixUpInPlace_toMM (Node.node k v c l r2)
        · rfl
      · exact absurd (le_antisymm (not_lt.mp hgt) (not_lt.mp hlt)) hkk

theorem GetNode_toMM [LinearOrder K] (key : K) : ∀ (n : Node K V),
    Multimap.GetNode (toMM n) key = toMM (GetNode n key) := by
  intro n
  induction n with
  | nil => rfl
  | node k v c l r ihl ihr =>
    by_cases h1 : key = k
    · simp [toMM, Multimap.GetNode, GetNode, h1]
    · by_cases h2 : key < k
      · simp [toMM, Multimap.GetNode, GetNode, h1, h2, ihl]
      · simp [toMM, Multimap.GetNode, GetNode, h1, h2, ihr]

theorem Get_of_values? [LinearOrder K] (m : Map K V) (key : K) (v : V)
    (h : Multimap.values? (toMM m.root) key = some [v]) :
    Contains m key = true ∧ Get m key = Except.ok v := by
  simp only [Multimap.values?, GetNode_toMM] at h
  simp only [Contains, Get]
  cases hg : GetNode m.root key with
  | nil => simp [hg, toMM] at h
  | node k2 v2 c2 l2 r2 =>
    simp only [hg, toMM, Option.some.injEq, List.cons.injEq, and_true] at h
    simp [h]

theorem Insert_toMM_spec [LinearOrder K] (m : Map K V) (key : K) (value : V)
    (hv : Multimap.Valid (toMM m.root))
    (hs : (Multimap.inorderKeys (toMM m.root)).Pairwise (· < ·))
    (hk : key ∉ Multimap.inorderKeys (toMM m.root)) :
    ∃ m2, Insert m key value = (m2, none) ∧ Multimap.Valid (toMM m2.root) ∧
      (Multimap.inorderKeys (toMM m2.root)).Pairwise (· < ·) ∧
      Multimap.toList (toMM m2.root) =
        Multimap.insL (Multimap.toList (toMM m.root)) key value ∧
      m2.cur_size = (m.cur_size + 1) % Multimap.UINT_MOD := by
  obtain ⟨t2, h1, h2, _, h4, _, h6⟩ := Multimap.InsertNode_spec key value (toMM m.root) hv hs
  have h := InsertNode_toMM key value m.root hk
  rw [h1] at h
  rcases hi : InsertNode m.root key value with ⟨t, _ | e⟩
  swap
  · rw [hi] at h
    simp at h
  rw [hi] at h
  simp only [Except.ok.injEq] at h
  subst h
  rcases t with _ | ⟨k, v, c, l, r⟩
  · exact absurd rfl h2
  refine ⟨⟨Node.node k v Color.BLACK l r, (m.cur_size + 1) % Multimap.UINT_MOD⟩, ?_, ?_, ?_, ?_,
    rfl⟩
  · simp [Insert, hi, Node.setColor]
  · simpa [toMM, Multimap.paintB] using h4
  · have := Multimap.sorted_insL _ key value hs
    rw [← h6] at this
    simpa [Multimap.inorderKeys, toMM, Multimap.toList] using this
  · rw [← h6]
    simp [toMM, Multimap.toList]

theorem insertAll_spec [LinearOrder K] (kvs : List (K × V)) : ∀ (m : Map K V),
    Multimap.Valid (toMM m.root) → (Multimap.inorderKeys (toMM m.root)).Pairwise (· < ·) →
    (kvs.map Prod.fst).Nodup → (∀ k ∈ kvs.map Prod.fst, k ∉ Multimap.inorderKeys (toMM m.root)) →
    ∃ m2, insertAll m kvs = (m2, none) ∧
      (Multimap.inorderKeys (toMM m2.root)).Pairwise (· < ·) ∧
      (∀ p ∈ kvs, Multimap.lookupL (Multimap.toList (toMM m2.root)) p.1 = some [p.2]) ∧
      (∀ k, k ∉ kvs.map Prod.fst →
        Multimap.lookupL (Multimap.toList (toMM m2.root)) k =
          Multimap.lookupL (Multimap.toList (toMM m.root)) k) := by
  induction kvs with
  | nil =>
    intro m _ hs _ _
    exact ⟨m, rfl, hs, by simp, fun _ _ => rfl⟩
  | cons p rest ih =>
    intro m hv hs hd hdis
    obtain ⟨k, v⟩ := p
    simp only [List.map_cons, List.nodup_cons] at hd
    have hk : k ∉ Multimap.inorderKeys (toMM m.root) := hdis k (by simp)
    obtain ⟨m1, h1, h2, h3, h4, _⟩ := Insert_toMM_spec m k v hv hs hk
    have hdis1 : ∀ k2 ∈ rest.map Prod.fst, k2 ∉ Multimap.inorderKeys (toMM m1.root) := by
      intro k2 hk2 hmem
      simp only [Multimap.inorderKeys, h4] at hmem
      rcases (Multimap.mem_keys_insL _ k v k2).mp hmem with h | h
      · rw [h] at hk2
        exact hd.1 hk2
      · exact hdis k2 (by simp [hk2]) h
    obtain ⟨m2, h5, h6, h7, h8⟩ := ih m1 h2 h3 hd.2 hdis1
    have hlk : ∀ k2, Multimap.lookupL (Multimap.toList (toMM m1.root)) k2 =
        if k2 = k then some ((Multimap.lookupL (Multimap.toList (toMM m.root)) k).getD [] ++ [v])
        else Multimap.lookupL (Multimap.toList (toMM m.root)) k2 := by
      intro k2
      rw [h4]
      exact Multimap.lookupL_insL _ k v k2 hs
    have hnone : Multimap.lookupL (Multimap.toList (toMM m.root)) k = none :=
      (Multimap.lookupL_eq_none _ k).mpr hk
    refine ⟨m2, by simp [insertAll, h1, h5], h6, ?_, ?_⟩
    · intro p hp
      simp only [List.mem_cons] at hp
      rcases hp with hp | hp
      · rw [hp, h8 k hd.1, hlk k, hnone]
        simp
      · exact h7 p hp
    · intro k2 hk2
      simp only [List.map_cons, List.mem_cons, not_or] at hk2
      rw [h8 k2 hk2.2, hlk k2]
      simp [hk2.1]

end Map

/-! ### `Map`: `Insert` of a key that is present -/

namespace Map

open Multimap (Color Fault)

variable {K V : Type}

theorem InsertNode_duplicate [LinearOrder K] (key : K) (value : V) : ∀ (t : Node K V),
    GetNode t key ≠ Node.nil → InsertNode t key value = (t, some Fault.runtimeError) := by
  intro t
  induction t with
  | nil => intro h; simp [GetNode] at h
  | node k v c l r ihl ihr =>
    intro hg
    by_cases h1 : key < k
    · have hne : key ≠ k := ne_of_lt h1
      simp only [GetNode, hne, h1, if_false, if_true] at hg
      simp only [InsertNode, h1, if_true, ihl hg]
    · by_cases h2 : key > k
      · have hne : key ≠ k := ne_of_gt h2
        simp only [GetNode, hne, h1, if_false] at hg
        simp only [InsertNode, h1, h2, if_true, if_false, ihr hg]
      · simp only [InsertNode, h1, h2, if_false]

end Map

/-! ### The claims about `Map` -/

namespace Map

open Multimap (Color Fault)

variable {K V : Type}

/-- C19 (plain Map lookup after insert): inserting pairs with pairwise distinct keys into
an empty `Map` throws no exception, and afterwards, for every inserted pair, `Contains` of
its key is true and `Get` of its key returns its value, in whatever order the keys are
queried. -/
theorem C19_map_lookup_after_insert [LinearOrder K] (kvs : List (K × V))
    (hd : (kvs.map Prod.fst).Nodup) :
    ∃ m, insertAll (empty : Map K V) kvs = (m, none) ∧
      ∀ p ∈ kvs, Contains m p.1 = true ∧ Get m p.1 = Except.ok p.2 := by
  obtain ⟨m, h1, h2, h3, _⟩ := insertAll_spec kvs (empty : Map K V)
    (by simp [empty, toMM, Multimap.Valid])
    (by simp [empty, toMM, Multimap.inorderKeys, Multimap.toList]) hd
    (by simp [empty, toMM, Multimap.inorderKeys, Multimap.toList])
  refine ⟨m, h1, fun p hp => ?_⟩
  apply Get_of_values?
  rw [Multimap.values?_eq_lookupL p.1 (toMM m.root) h2]
  exact h3 p hp

/-- C19 witness: the keys 2, 18, 42, 43 of `TEST(Map, MultipleKeys)`, queried in another
order than they were inserted. -/
theorem C19_map_lookup_after_insert_witness :
    ((testPairs.map Prod.fst).Nodup ∧
      ∃ m, insertAll (empty : Map Nat Nat) testPairs = (m, none) ∧
        ∀ p ∈ testPairs, Contains m p.1 = true ∧ Get m p.1 = Except.ok p.2) ∧
    Get (insertAll (empty : Map Nat Nat) testPairs).1 42 = Except.ok 42 ∧
    Get (insertAll (empty : Map Nat Nat) testPairs).1 2 = Except.ok 2 ∧
    Get (insertAll (empty : Map Nat Nat) testPairs).1 43 = Except.ok 43 ∧
    Get (insertAll (empty : Map Nat Nat) testPairs).1 18 = Except.ok 18 :=
  ⟨⟨by decide, C19_map_lookup_after_insert testPairs (by decide)⟩, rfl, rfl, rfl, rfl⟩

end Map

namespace Map

open Multimap (Color Fault)

variable {K V : Type}

/-- C26 (the plain Map rejects duplicates atomically): on every `Map` that holds the key `k`,
`Insert k v` throws the `std::runtime_error` and leaves the map as it was: the same tree (shape,
colours, keys and values) and the same `Size()`. On a `Multimap` reached by `Insert` and
`Remove` calls that holds `k`, the same call returns without fault and `k` is still present. -/
theorem C26_map_rejects_duplicate [LinearOrder K] (m : Map K V) (k : K) (v : V)
    (hc : Contains m k = true) :
    Insert m k v = (m, some Fault.runtimeError) ∧
    (Insert m k v).1.root = m.root ∧ Size (Insert m k v).1 = Size m ∧
    Contains (Insert m k v).1 k = true ∧ Get (Insert m k v).1 k = Get m k ∧
    ∀ (ops : List (Multimap.Op K V)) (mm : Multimap K V), Multimap.run ops = Except.ok mm →
      Multimap.Contains mm k = true →
      ∃ mm2, Multimap.Insert mm k v = Except.ok mm2 ∧ Multimap.Contains mm2 k = true := by
  have hg : GetNode m.root k ≠ Node.nil := by
    intro h
    simp [Contains, h] at hc
  have hI : Insert m k v = (m, some Fault.runtimeError) := by
    simp only [Insert, InsertNode_duplicate k v m.root hg]
  refine ⟨hI, by rw [hI], by rw [hI], by rw [hI]; exact hc, by rw [hI], ?_⟩
  intro ops mm hrun _
  obtain ⟨mm2, h1, h2, h3, _⟩ := Multimap.Insert_spec mm k v (Multimap.Inv_of_run hrun)
  refine ⟨mm2, h1, ?_⟩
  rw [Multimap.Contains_iff mm2 k h2.2.2.1, Multimap.inorderKeys, h3, Multimap.mem_keys_insL]
  exact Or.inl rfl

/-- C26 witness: the map of `TEST(Map, MultipleKeys)` holds the keys 2, 18, 42, 43; a second
`Insert(18, 99)` throws, the map is the one before and `Get(18)` is still 18, while the
`Multimap` with the key 18 takes a second value. -/
theorem C26_map_rejects_duplicate_witness :
    Contains (insertAll (empty : Map Nat Nat) testPairs).1 18 = true ∧
    Get (insertAll (empty : Map Nat Nat) testPairs).1 18 = Except.ok 18 ∧
    Size (insertAll (empty : Map Nat Nat) testPairs).1 = 4 ∧
    (Insert (insertAll (empty : Map Nat Nat) testPairs).1 18 99 =
        ((insertAll (empty : Map Nat Nat) testPairs).1, some Fault.runtimeError) ∧
      (Insert (insertAll (empty : Map Nat Nat) testPairs).1 18 99).1.root =
        (insertAll (empty : Map Nat Nat) testPairs).1.root ∧
      Size (Insert (insertAll (empty : Map Nat Nat) testPairs).1 18 99).1 =
        Size (insertAll (empty : Map Nat Nat) testPairs).1 ∧
      Contains (Insert (insertAll (empty : Map Nat Nat) testPairs).1 18 99).1 18 = true ∧
      Get (Insert (insertAll (empty : Map Nat Nat) testPairs).1 18 99).1 18 =
        Get (insertAll (empty : Map Nat Nat) testPairs).1 18 ∧
      ∀ (ops : List (Multimap.Op Nat Nat)) (mm : Multimap Nat Nat),
        Multimap.run ops = Except.ok mm → Multimap.Contains mm 18 = true →
        ∃ mm2, Multimap.Insert mm 18 99 = Except.ok mm2 ∧ Multimap.Contains mm2 18 = true) :=
  ⟨rfl, rfl, rfl, C26_map_rejects_duplicate _ 18 99 rfl⟩

end Map
